import Mathlib

/-!
# Witcher tracker: a shallow embedding of `src/main.c`

The program is a line interpreter over three global tables (inventory,
formula book, bestiary).  The embedding follows the C text function by
function:

* a C string is a `List Char` (the characters before the terminating NUL);
* `int` quantities are `Int`, i.e. arithmetic is exact (no wrap-around);
* the three global arrays with their counters are the three lists of `State`;
* every handler returns its C return value, the new globals and the text it
  printed;
* `strncpy (dst, src, MAX_NAME_LEN)` followed by `dst[MAX_NAME_LEN - 1] = 0`
  is `List.take 63`;  where the C code scans a word into a 64 byte buffer
  without a bound (`%s`, `%[^\n]`) the embedding carries the whole word.
-/

namespace Witcher

/-! ## Data model (main.c 6-41) -/

abbrev Str := List Char

abbrev MAX_INGREDIENTS : Nat := 100
abbrev MAX_NAME_LEN : Nat := 64
abbrev MAX_INPUT_LEN : Nat := 1024
abbrev MAX_COMPONENTS : Nat := 10
abbrev MAX_FORMULAS : Nat := 50
abbrev MAX_BESTIARY : Nat := 100

/-- An inventory item or a formula component (`Item`, main.c 15-18). -/
structure Item where
  name : Str
  quantity : Int
deriving DecidableEq, Repr

/-- A potion formula (main.c 20-24); `componentCount` is `components.length`. -/
structure Formula where
  potionName : Str
  components : List Item
deriving DecidableEq, Repr

/-- A bestiary entry (main.c 26-30); an unset slot is the empty string. -/
structure BestiaryEntry where
  monsterName : Str
  effectivePotion : Str
  effectiveSign : Str
deriving DecidableEq, Repr

/-- The global tables (main.c 34-41); the counters are the list lengths. -/
structure State where
  inventory : List Item
  formulaBook : List Formula
  bestiary : List BestiaryEntry
deriving DecidableEq, Repr

/-- The globals at program start: all three counters are zero. -/
def State.empty : State := ⟨[], [], []⟩

/-- What a handler leaves behind: its `int` return value (`false` is 0),
the globals after the call and the text written to stdout. -/
structure Outcome where
  ret : Bool
  state : State
  out : Str
deriving DecidableEq, Repr

/-! ## C library functions used by the program -/

/-- The function `isspace` in the C locale. -/
def isspace (c : Char) : Bool :=
  c.toNat = 32 || (9 ≤ c.toNat && c.toNat ≤ 13)

/-- The function `isdigit`. -/
def isdigit (c : Char) : Bool :=
  48 ≤ c.toNat && c.toNat ≤ 57

/-- The function `tolower` in the C locale. -/
def tolower (c : Char) : Char :=
  if 65 ≤ c.toNat ∧ c.toNat ≤ 90 then Char.ofNat (c.toNat + 32) else c

/-- The function `strcasecmp`: zero when the strings agree up to ASCII case,
otherwise the sign of the first difference (the end of a string sorts before
every character; only the sign of the result is used by the program). -/
def strcasecmp : Str → Str → Int
  | [], [] => 0
  | [], _ :: _ => -1
  | _ :: _, [] => 1
  | a :: as, b :: bs =>
    if tolower a = tolower b then strcasecmp as bs
    else ((tolower a).toNat : Int) - ((tolower b).toNat : Int)

/-- The test `strncmp (a, b, n) == 0`. -/
def strncmpEq (a b : Str) (n : Nat) : Bool :=
  a.take n == b.take n

/-- The test `strncasecmp (a, b, n) == 0`. -/
def strncasecmpEq (a b : Str) (n : Nat) : Bool :=
  (a.take n).map tolower == (b.take n).map tolower

/-- Whether `needle` is read off the front of the text. -/
def startsWith : Str → Str → Bool
  | [], _ => true
  | _ :: _, [] => false
  | n :: ns, h :: hs => n == h && startsWith ns hs

/-- The function `strstr`: offset of the first occurrence of `needle`. -/
def strstr : Str → Str → Option Nat
  | [], needle => if needle.isEmpty then some 0 else none
  | h :: hs, needle =>
    if startsWith needle (h :: hs) then some 0
    else (strstr hs needle).map (· + 1)

/-- The call `strchr (s, c)` followed by writing NUL there: the text before
the first `c` (all of it when `c` does not occur). -/
def cutAt (c : Char) (s : Str) : Str :=
  s.takeWhile (· != c)

/-- All fields between commas, empty ones included. -/
def commaFields : Str → List Str
  | [] => [[]]
  | c :: cs =>
    if c = ',' then [] :: commaFields cs
    else match commaFields cs with
      | [] => [[c]]
      | f :: fs => (c :: f) :: fs

/-- The tokens that the loop `strtok (s, ",")`, `strtok (NULL, ",")`, ...
yields: the non-empty fields between commas, in order. -/
def strtok (s : Str) : List Str :=
  (commaFields s).filter (fun f => !f.isEmpty)

/-- Value of a run of decimal digits, continuing from `acc`. -/
def digitsValue (acc : Nat) : Str → Nat
  | [] => acc
  | c :: cs => digitsValue (10 * acc + (c.toNat - 48)) cs

/-- Unsigned part of `%d`: at least one digit, then the rest of the input. -/
def scanDigits (s : Str) : Option (Int × Str) :=
  let ds := s.takeWhile isdigit
  if ds.isEmpty then none else some ((digitsValue 0 ds : Nat), s.dropWhile isdigit)

/-- The conversion `%d` of `sscanf`: skip white space, read an optional sign
and decimal digits; `none` is a matching failure. -/
def scan_d (s : Str) : Option (Int × Str) :=
  match s.dropWhile isspace with
  | '-' :: r => (scanDigits r).map (fun p => (-p.1, p.2))
  | '+' :: r => scanDigits r
  | r => scanDigits r

/-- The conversion `%s` of `sscanf`: skip white space, read the characters up
to the next white space; `none` when the input has ended. -/
def scan_s (s : Str) : Option (Str × Str) :=
  let r := s.dropWhile isspace
  let w := r.takeWhile (fun c => !isspace c)
  if w.isEmpty then none else some (w, r.dropWhile (fun c => !isspace c))

/-- The call `sscanf (token, "%d %s", &quantity, name) == 2`, with the two
values read. -/
def sscanf_d_s (token : Str) : Option (Int × Str) :=
  match scan_d token with
  | none => none
  | some (q, r) =>
    match scan_s r with
    | none => none
    | some (w, _) => some (q, w)

/-- The call `sscanf (token, "%d %[^\n]", &qty, name) == 2`: the name is the
text after the number and the white space behind it, up to a newline. -/
def sscanf_d_line (token : Str) : Option (Int × Str) :=
  match scan_d token with
  | none => none
  | some (q, r) =>
    let w := (r.dropWhile isspace).takeWhile (· != '\n')
    if w.isEmpty then none else some (q, w)

/-- The call `sscanf (text, "%s %s", counter, type) == 2`. -/
def sscanf_s_s (text : Str) : Option (Str × Str) :=
  match scan_s text with
  | none => none
  | some (a, r) =>
    match scan_s r with
    | none => none
    | some (b, _) => some (a, b)

/-- The conversion `%d` of `printf`. -/
def fmt_d (i : Int) : Str :=
  if i < 0 then '-' :: Nat.toDigits 10 i.natAbs else Nat.toDigits 10 i.toNat

/-- The assignment `strncpy (dst, src, MAX_NAME_LEN); dst[MAX_NAME_LEN - 1] = 0`. -/
def copyName (src : Str) : Str :=
  src.take (MAX_NAME_LEN - 1)

/-! ## Utility functions (main.c 45-120) -/

/-- The function `trim` (main.c 46-58). -/
def trim (str : Str) : Str :=
  (str.dropWhile isspace).rdropWhile isspace

/-- The function `endsWithQuestionMark` (main.c 61-69). -/
def endsWithQuestionMark (str : Str) : Bool :=
  (str.rdropWhile isspace).getLast? == some '?'

/-- The inner `while` of `strcasestr_custom` (main.c 78-83): `true` when the
needle is used up. -/
def matchNeedle : Str → Str → Bool
  | _, [] => true
  | [], _ :: _ => false
  | h :: hs, n :: ns => if tolower h = tolower n then matchNeedle hs ns else false

/-- The function `strcasestr_custom` (main.c 73-87): offset of the returned
pointer, `none` for `NULL`. -/
def strcasestr_custom : Str → Str → Option Nat
  | _, [] => some 0
  | [], _ :: _ => none
  | h :: hs, n :: ns =>
    if tolower h = tolower n ∧ matchNeedle (h :: hs) (n :: ns) then some 0
    else (strcasestr_custom hs (n :: ns)).map (· + 1)

/-- The function `compareItems` (main.c 90-94), on two items. -/
def compareItems (a b : Item) : Int :=
  strcasecmp a.name b.name

/-- Text of a trophy name before the first " trophy" (main.c 100-108). -/
def stripTrophy (name : Str) : Str :=
  let m := copyName name
  match strcasestr_custom m " trophy".toList with
  | some pos => m.take pos
  | none => m

/-- The function `compareTrophies` (main.c 97-110), on two items. -/
def compareTrophies (a b : Item) : Int :=
  strcasecmp (stripTrophy a.name) (stripTrophy b.name)

/-- The function `compareComponents` (main.c 113-120), on two items. -/
def compareComponents (a b : Item) : Int :=
  if a.quantity ≠ b.quantity then b.quantity - a.quantity
  else strcasecmp a.name b.name

/-! ## Inventory functions (main.c 125-162) -/

/-- The search loop of `addItem` (main.c 126-131): the inventory with the
first matching entry raised, `none` when no entry matches. -/
def addLoop : List Item → Str → Int → Option (List Item)
  | [], _, _ => none
  | it :: rest, name, quantity =>
    if strcasecmp it.name name = 0 then
      some (⟨it.name, it.quantity + quantity⟩ :: rest)
    else (addLoop rest name quantity).map (it :: ·)

/-- The function `addItem` (main.c 125-138) on the inventory array. -/
def addItemInv (inv : List Item) (name : Str) (quantity : Int) : List Item :=
  match addLoop inv name quantity with
  | some inv' => inv'
  | none =>
    if inv.length < MAX_INGREDIENTS then inv ++ [⟨copyName name, quantity⟩]
    else inv

/-- The function `addItem` (main.c 125-138). -/
def addItem (s : State) (name : Str) (quantity : Int) : State :=
  ⟨addItemInv s.inventory name quantity, s.formulaBook, s.bestiary⟩

/-- The function `removeItem` (main.c 141-152) on the inventory array: the
return value and the array afterwards. -/
def removeItemInv : List Item → Str → Int → Bool × List Item
  | [], _, _ => (false, [])
  | it :: rest, name, quantity =>
    if strcasecmp it.name name = 0 then
      if it.quantity ≥ quantity then (true, ⟨it.name, it.quantity - quantity⟩ :: rest)
      else (false, it :: rest)
    else
      let r := removeItemInv rest name quantity
      (r.1, it :: r.2)

/-- The function `removeItem` (main.c 141-152); callers ignore the result. -/
def removeItem (s : State) (name : Str) (quantity : Int) : State :=
  ⟨(removeItemInv s.inventory name quantity).2, s.formulaBook, s.bestiary⟩

/-- The function `hasEnoughItem` (main.c 155-162) on the inventory array. -/
def hasEnoughInv : List Item → Str → Int → Bool
  | [], _, _ => false
  | it :: rest, name, quantity =>
    if strcasecmp it.name name = 0 then decide (it.quantity ≥ quantity)
    else hasEnoughInv rest name quantity

/-- The function `hasEnoughItem` (main.c 155-162). -/
def hasEnoughItem (s : State) (name : Str) (quantity : Int) : Bool :=
  hasEnoughInv s.inventory name quantity

/-- The lookup loop of the per-name queries (main.c 253-259, 321-327,
370-376): quantity of the first entry with that name, 0 when there is none. -/
def totalOf : List Item → Str → Int
  | [], _ => 0
  | it :: rest, name =>
    if strcasecmp it.name name = 0 then it.quantity else totalOf rest name

/-! ## Classification helpers (main.c 167-182) -/

/-- The test `len >= 7 && strcasecmp (name + len - 7, " trophy") == 0`. -/
def endsWithTrophy (name : Str) : Bool :=
  decide (name.length ≥ 7) && decide (strcasecmp (name.drop (name.length - 7)) " trophy".toList = 0)

/-- The loop over the formula book comparing potion names (main.c 171-174,
271-276). -/
def matchesFormula (book : List Formula) (name : Str) : Bool :=
  book.any (fun f => decide (strcasecmp name f.potionName = 0))

/-- The function `isPotion` (main.c 167-176). -/
def isPotion (s : State) (item : Item) : Bool :=
  if endsWithTrophy item.name then false else matchesFormula s.formulaBook item.name

/-- The function `isTrophy` (main.c 179-182). -/
def isTrophy (item : Item) : Bool :=
  endsWithTrophy item.name

/-- The lookup loop over the formula book (main.c 423-428, 539-544). -/
def findFormula : List Formula → Str → Option Formula
  | [], _ => none
  | f :: rest, name =>
    if strcasecmp f.potionName name = 0 then some f else findFormula rest name

/-- The lookup loop over the bestiary (main.c 204-209, 595-600, 708-713). -/
def findMonster : List BestiaryEntry → Str → Option BestiaryEntry
  | [], _ => none
  | e :: rest, name =>
    if strcasecmp e.monsterName name = 0 then some e else findMonster rest name

/-! ## Query functions (main.c 187-455) -/

/-- The print loop of the listings: `"%d %s"` per slot, `", "` between. -/
def printItems : List Item → Str
  | [] => []
  | [it] => fmt_d it.quantity ++ ' ' :: it.name
  | it :: rest => fmt_d it.quantity ++ ' ' :: it.name ++ (", ".toList ++ printItems rest)

/-- Effectiveness query (main.c 194-242), after the literal was matched. -/
def queryEffective (s : State) (query : Str) : Str :=
  let monster := trim (cutAt '?' (copyName (query.drop 26)))
  match findMonster s.bestiary monster with
  | none => "No knowledge of ".toList ++ monster ++ "\n".toList
  | some e =>
    let counters :=
      (if e.effectivePotion.length > 0 then [copyName e.effectivePotion] else [])
        ++ (if e.effectiveSign.length > 0 then [copyName e.effectiveSign] else [])
    match counters with
    | [] => "No knowledge of ".toList ++ monster ++ "\n".toList
    | [c] => c ++ "\n".toList
    | c0 :: c1 :: _ =>
      if strcasecmp c0 c1 > 0 then c1 ++ ", ".toList ++ c0 ++ "\n".toList
      else c0 ++ ", ".toList ++ c1 ++ "\n".toList

/-- The remainder of a `Total ...` query (main.c 245-251): the text from
`offset` on, cut at the first question mark and trimmed. -/
def queryRemainder (query : Str) (offset : Nat) : Str :=
  trim (cutAt '?' ((query.drop offset).take (MAX_INPUT_LEN - 1)))

/-- Whether the ingredient listing takes the entry (main.c 286-296): not a
trophy name and not the name of a known potion. -/
def isIngredientName (s : State) (it : Item) : Bool :=
  !endsWithTrophy it.name && !matchesFormula s.formulaBook it.name

/-- Ingredient query (main.c 244-310).  The counting loop skips entries with
quantity zero, the filling loop does not; the first `count` slots are sorted
and printed. -/
def queryIngredient (slotOrder : List Item → List Item) (s : State) (query : Str) : Str :=
  let remainder := queryRemainder query 17
  if remainder.length > 0 then fmt_d (totalOf s.inventory remainder) ++ "\n".toList
  else
    let count := (s.inventory.filter (fun it => it.quantity != 0 && isIngredientName s it)).length
    if count = 0 then "None\n".toList
    else
      let ingArr := (s.inventory.filter (isIngredientName s)).take count
      printItems (slotOrder ingArr) ++ "\n".toList

/-- Potion query (main.c 312-357). -/
def queryPotion (slotOrder : List Item → List Item) (s : State) (query : Str) : Str :=
  let remainder := queryRemainder query 13
  if remainder.length > 0 then fmt_d (totalOf s.inventory remainder) ++ "\n".toList
  else
    let potArr := s.inventory.filter (isPotion s)
    if potArr.length = 0 then "None\n".toList
    else printItems (slotOrder potArr) ++ "\n".toList

/-- Trophy query (main.c 359-412); `"%.42s trophy"` keeps 42 characters of
the monster name. -/
def queryTrophy (slotOrder : List Item → List Item) (s : State) (query : Str) : Str :=
  let remainder := queryRemainder query 13
  if remainder.length > 0 then
    let trophyName := remainder.take 42 ++ " trophy".toList
    fmt_d (totalOf s.inventory trophyName) ++ "\n".toList
  else
    let trophyArr := s.inventory.filter isTrophy
    if trophyArr.length = 0 then "None\n".toList
    else
      printItems ((slotOrder trophyArr).map (fun it => ⟨stripTrophy it.name, it.quantity⟩))
        ++ "\n".toList

/-- Formula query (main.c 414-450). -/
def queryFormula (slotOrder : List Item → List Item) (s : State) (query : Str) : Str :=
  let potionQuery := trim (cutAt '?' (copyName (query.drop 10)))
  match findFormula s.formulaBook potionQuery with
  | none => "No formula for ".toList ++ potionQuery ++ "\n".toList
  | some f =>
    if f.components.length = 0 then "No formula for ".toList ++ potionQuery ++ "\n".toList
    else printItems (slotOrder f.components) ++ "\n".toList

/-- The function `processQuery` (main.c 187-455).

Each listing fills an array of `Item *` and calls `qsort` on it with
`compareItems`, `compareTrophies` or `compareComponents`.  Those comparators
read their arguments as `const Item *`, while `qsort` hands them the addresses
of the array slots (`Item **`): what is compared are the bytes of the pointer
array, not the items.  The order in which `qsort` leaves the slots is
therefore not fixed by the source; it is the parameter `slotOrder`. -/
def processQuery (slotOrder : List Item → List Item) (s : State) (input : Str) : Outcome :=
  let query := trim input
  if strncasecmpEq query "What is effective against".toList 25 then
    ⟨true, s, queryEffective s query⟩
  else if strncasecmpEq query "Total ingredient".toList 16 then
    ⟨true, s, queryIngredient slotOrder s query⟩
  else if strncasecmpEq query "Total potion".toList 12 then
    ⟨true, s, queryPotion slotOrder s query⟩
  else if strncasecmpEq query "Total trophy".toList 12 then
    ⟨true, s, queryTrophy slotOrder s query⟩
  else if strncasecmpEq query "What is in".toList 10 then
    ⟨true, s, queryFormula slotOrder s query⟩
  else ⟨true, s, "INVALID\n".toList⟩

/-! ## Action handlers (main.c 460-737) -/

/-- The entry loop of `processLoot` (main.c 466-475) and of the ingredient
part of `processTrade` (main.c 516-525): every token is trimmed, scanned with
`"%d %s"` and added at once; a bad token returns 0 with the earlier entries
already added. -/
def addEntries : State → List Str → Bool × State
  | s, [] => (true, s)
  | s, token :: rest =>
    match sscanf_d_s (trim token) with
    | none => (false, s)
    | some (quantity, name) =>
      if quantity ≤ 0 then (false, s)
      else addEntries (addItem s name quantity) rest

/-- The function `processLoot` (main.c 460-478). -/
def processLoot (s : State) (input : Str) : Outcome :=
  match strstr input "Geralt loots ".toList with
  | none => ⟨false, s, []⟩
  | some pos =>
    let itemList := trim (input.drop (pos + 13))
    match addEntries s (strtok itemList) with
    | (false, s') => ⟨false, s', []⟩
    | (true, s') => ⟨true, s', "Alchemy ingredients obtained\n".toList⟩

/-- How the trophy loop of `processTrade` ends. -/
inductive TrophyCheck where
  | malformed
  | notEnough
  | held (tempTrophies : List Item)
deriving DecidableEq, Repr

/-- The trophy loop of `processTrade` (main.c 498-515).  The C array
`tempTrophies` has room for `MAX_INGREDIENTS` entries; the list here is not
bounded. -/
def trophyLoop (s : State) : List Str → TrophyCheck
  | [] => .held []
  | ttoken :: rest =>
    match sscanf_d_line (trim ttoken) with
    | none => .malformed
    | some (qty, name) =>
      if qty ≤ 0 then .malformed
      else if !hasEnoughItem s name qty then .notEnough
      else match trophyLoop s rest with
        | .held temp => .held (⟨copyName name, qty⟩ :: temp)
        | r => r

/-- The removal loop of `processTrade` (main.c 526-528) and of `processBrew`
(main.c 555-557). -/
def removeAll (s : State) : List Item → State
  | [] => s
  | it :: rest => removeAll (removeItem s it.name it.quantity) rest

/-- The function `processTrade` (main.c 481-531). -/
def processTrade (s : State) (input : Str) : Outcome :=
  if !strncmpEq input "Geralt trades ".toList 14 then ⟨false, s, []⟩
  else
    let tradeLine := trim (input.drop 14)
    match strstr tradeLine "for".toList with
    | none => ⟨false, s, []⟩
    | some pos =>
      let trophyPart := trim (tradeLine.take pos)
      let ingredientPart := trim (tradeLine.drop (pos + 3))
      match trophyLoop s (strtok trophyPart) with
      | .malformed => ⟨false, s, []⟩
      | .notEnough => ⟨true, s, "Not enough trophies\n".toList⟩
      | .held tempTrophies =>
        match addEntries s (strtok ingredientPart) with
        | (false, s') => ⟨false, s', []⟩
        | (true, s') => ⟨true, removeAll s' tempTrophies, "Trade successful\n".toList⟩

/-- The function `processBrew` (main.c 534-561). -/
def processBrew (s : State) (input : Str) : Outcome :=
  if !strncmpEq input "Geralt brews ".toList 13 then ⟨false, s, []⟩
  else
    let potion := trim (input.drop 13)
    match findFormula s.formulaBook potion with
    | none => ⟨true, s, "No formula for ".toList ++ potion ++ "\n".toList⟩
    | some f =>
      if f.components.all (fun c => hasEnoughItem s c.name c.quantity) then
        ⟨true, addItem (removeAll s f.components) potion 1,
          "Alchemy item created: ".toList ++ potion ++ "\n".toList⟩
      else ⟨true, s, "Not enough ingredients\n".toList⟩

/-- Overwrite a slot of the first bestiary entry of that monster
(`bestiary[index]`, main.c 616-634). -/
def updateEntry (f : BestiaryEntry → BestiaryEntry) : List BestiaryEntry → Str → List BestiaryEntry
  | [], _ => []
  | e :: rest, enemy =>
    if strcasecmp e.monsterName enemy = 0 then f e :: rest
    else e :: updateEntry f rest enemy

/-- The effectiveness form of `processLearn` (main.c 573-637): `left` is the
text before "is effective against", `right` the text behind it. -/
def learnEffectiveness (s : State) (left right : Str) : Outcome :=
  let enemy := copyName (trim right)
  match sscanf_s_s left with
  | none => ⟨true, s, "INVALID\n".toList⟩
  | some (counter, type) =>
    let isSign := decide (strcasecmp type "sign".toList = 0)
    if !isSign && !decide (strcasecmp type "potion".toList = 0) then
      ⟨true, s, "INVALID\n".toList⟩
    else
      match findMonster s.bestiary enemy with
      | none =>
        if s.bestiary.length < MAX_BESTIARY then
          let entry : BestiaryEntry :=
            if isSign then ⟨copyName enemy, [], copyName counter⟩
            else ⟨copyName enemy, copyName counter, []⟩
          ⟨true, ⟨s.inventory, s.formulaBook, s.bestiary ++ [entry]⟩,
            "New bestiary entry added: ".toList ++ enemy ++ "\n".toList⟩
        else ⟨true, s, []⟩
      | some e =>
        if isSign then
          if e.effectiveSign.length > 0 && decide (strcasecmp e.effectiveSign counter = 0) then
            ⟨true, s, "Already known effectiveness\n".toList⟩
          else
            ⟨true, ⟨s.inventory, s.formulaBook,
                updateEntry (fun x => ⟨x.monsterName, x.effectivePotion, copyName counter⟩)
                  s.bestiary enemy⟩,
              "Bestiary entry updated: ".toList ++ enemy ++ "\n".toList⟩
        else
          if e.effectivePotion.length > 0 && decide (strcasecmp e.effectivePotion counter = 0) then
            ⟨true, s, "Already known effectiveness\n".toList⟩
          else
            ⟨true, ⟨s.inventory, s.formulaBook,
                updateEntry (fun x => ⟨x.monsterName, copyName counter, x.effectiveSign⟩)
                  s.bestiary enemy⟩,
              "Bestiary entry updated: ".toList ++ enemy ++ "\n".toList⟩

/-- The component loop of `processLearn` (main.c 656-670): at most
`MAX_COMPONENTS` tokens are read, `none` is a malformed token. -/
def componentLoop : List Str → Nat → Option (List Item)
  | [], _ => some []
  | token :: rest, compCount =>
    if compCount < MAX_COMPONENTS then
      match sscanf_d_s (trim token) with
      | none => none
      | some (qty, ingrName) =>
        if qty ≤ 0 then none
        else (componentLoop rest (compCount + 1)).map (⟨copyName ingrName, qty⟩ :: ·)
    else some []

/-- The formula form of `processLearn` (main.c 639-692): `cpos` is the offset
of "consists of" in `learnPart`. -/
def learnFormula (s : State) (learnPart : Str) (cpos : Nat) : Outcome :=
  match strstr learnPart "potion".toList with
  | none => ⟨true, s, "INVALID\n".toList⟩
  | some ppos =>
    let lenName := if ppos ≥ MAX_NAME_LEN then MAX_NAME_LEN - 1 else ppos
    let potionName := trim (learnPart.take lenName)
    let ingrList := trim (learnPart.drop (cpos + 11))
    match componentLoop (strtok ingrList) 0 with
    | none => ⟨true, s, "INVALID\n".toList⟩
    | some tempComponents =>
      if (findFormula s.formulaBook potionName).isSome then
        ⟨true, s, "Already known formula\n".toList⟩
      else if s.formulaBook.length < MAX_FORMULAS then
        ⟨true, ⟨s.inventory, s.formulaBook ++ [⟨copyName potionName, tempComponents⟩], s.bestiary⟩,
          "New alchemy formula obtained: ".toList ++ potionName ++ "\n".toList⟩
      else ⟨true, s, "INVALID\n".toList⟩

/-- The function `processLearn` (main.c 564-693). -/
def processLearn (s : State) (input : Str) : Outcome :=
  if !strncmpEq input "Geralt learns ".toList 14 then ⟨false, s, []⟩
  else
    let learnPart := trim (input.drop 14)
    match strstr learnPart "is effective against".toList with
    | some pos => learnEffectiveness s (learnPart.take pos) (learnPart.drop (pos + 20))
    | none =>
      match strstr learnPart "consists of".toList with
      | some cpos => learnFormula s learnPart cpos
      | none => ⟨true, s, "INVALID\n".toList⟩

/-- The function `processEncounter` (main.c 696-737); `snprintf` keeps 63
characters of the trophy name. -/
def processEncounter (s : State) (input : Str) : Outcome :=
  if !strncmpEq input "Geralt encounters a ".toList 20 then ⟨false, s, []⟩
  else
    let monster := trim (input.drop 20)
    let unprepared : Outcome :=
      ⟨true, s, "Geralt is unprepared and barely escapes with his life\n".toList⟩
    match findMonster s.bestiary monster with
    | none => unprepared
    | some e =>
      let potionHeld := e.effectivePotion.length > 0 && hasEnoughItem s e.effectivePotion 1
      let hasEffective := e.effectiveSign.length > 0 || potionHeld
      if !hasEffective then unprepared
      else
        let s1 := if potionHeld then removeItem s e.effectivePotion 1 else s
        let trophyName := (monster ++ " trophy".toList).take (MAX_NAME_LEN - 1)
        ⟨true, addItem s1 trophyName 1, "Geralt defeats ".toList ++ monster ++ "\n".toList⟩

/-! ## Main input loop (main.c 741-789) -/

/-- The line `if (!handler (input)) printf ("INVALID\n")` of `main`. -/
def reportInvalid (o : Outcome) : State × Str :=
  (o.state, if o.ret then o.out else o.out ++ "INVALID\n".toList)

/-- One turn of the loop of `main` (main.c 757-786) on a line without its
newline: the globals and the output afterwards, `none` when the loop ends. -/
def step (slotOrder : List Item → List Item) (s : State) (input : Str) : Option (State × Str) :=
  if endsWithQuestionMark input then some (reportInvalid (processQuery slotOrder s input))
  else if strncmpEq input "Geralt loots".toList 12 then some (reportInvalid (processLoot s input))
  else if strncmpEq input "Geralt trades".toList 13 then some (reportInvalid (processTrade s input))
  else if strncmpEq input "Geralt brews".toList 12 then some (reportInvalid (processBrew s input))
  else if strncmpEq input "Geralt learns".toList 13 then some (reportInvalid (processLearn s input))
  else if strncmpEq input "Geralt encounters a".toList 19 then
    some (reportInvalid (processEncounter s input))
  else if strcasecmp input "Exit".toList = 0 then none
  else some (s, "INVALID\n".toList)

/-- The loop of `main` over the lines read: the globals at the end and all
the text printed; it stops at `Exit`. -/
def run (slotOrder : List Item → List Item) : State → List Str → State × Str
  | s, [] => (s, [])
  | s, input :: rest =>
    match step slotOrder s input with
    | none => (s, [])
    | some (s', out) =>
      let r := run slotOrder s' rest
      (r.1, out ++ r.2)

/-! ## Vocabulary of the statements -/

/-- Case folding of a name, the key under which `strcasecmp` identifies names. -/
def fold (name : Str) : Str :=
  name.map tolower

/-- Whether the inventory has an entry of that name (some `i` passes the test
`strcasecmp (inventory[i].name, name) == 0`). -/
def hasEntry (inv : List Item) (name : Str) : Bool :=
  inv.any (fun it => decide (strcasecmp it.name name = 0))

/-- The tokens of a loot line as `processLoot` cuts them (main.c 461-466). -/
def lootTokens (input : Str) : List Str :=
  match strstr input "Geralt loots ".toList with
  | none => []
  | some pos => strtok (trim (input.drop (pos + 13)))

/-- The entries `(quantity, name)` read from a list of tokens by `"%d %s"`. -/
def entriesOf (tokens : List Str) : List (Int × Str) :=
  tokens.filterMap (fun t => sscanf_d_s (trim t))

/-- Every token has the shape `<qty> <name>` with a positive quantity. -/
def wellFormedEntries (tokens : List Str) : Bool :=
  tokens.all (fun t =>
    match sscanf_d_s (trim t) with
    | some (q, _) => decide (0 < q)
    | none => false)

/-- A valid loot command: `main` hands the line to `processLoot`, which finds
its keyword, and every entry is `<positive integer> <name>`. -/
def validLoot (input : Str) : Bool :=
  !endsWithQuestionMark input && strncmpEq input "Geralt loots".toList 12
    && (strstr input "Geralt loots ".toList).isSome
    && wellFormedEntries (lootTokens input)

/-- All entries looted by a sequence of loot lines, in order. -/
def lootedEntries (lines : List Str) : List (Int × Str) :=
  (lines.map (fun l => entriesOf (lootTokens l))).flatten

/-- Sum of the looted quantities whose name is `n` up to case. -/
def lootedSum (entries : List (Int × Str)) (n : Str) : Int :=
  ((entries.filter (fun e => decide (strcasecmp e.2 n = 0))).map (fun e => e.1)).sum

/-- A name that a query can carry: one word without a question mark that
fits a name buffer. -/
def queryName (n : Str) : Bool :=
  !n.isEmpty && n.all (fun c => !isspace c && c != '?') && decide (n.length < MAX_NAME_LEN)

/-- An inventory at capacity: the hundred entries `i0`, ..., `i99`, one of each. -/
def fullInventory : List Item :=
  (List.range 100).map (fun i => ⟨'i' :: Nat.toDigits 10 i, 1⟩)

/-- The line `Geralt loots 1 i0, 1 i1, ...` with `n` entries. -/
def lootLineUpTo (n : Nat) : Str :=
  "Geralt loots ".toList ++
    ", ".toList.intercalate ((List.range n).map (fun i => "1 i".toList ++ Nat.toDigits 10 i))

/-- Whether `addItem` can record the name: it has an entry, or there is room
for a new entry and the name fits the name buffer. -/
def canAdd (inv : List Item) (name : Str) : Prop :=
  hasEntry inv name = true ∨ (inv.length < MAX_INGREDIENTS ∧ name.length < MAX_NAME_LEN)

/-- Some component of the formula is short: `hasEnoughItem` fails for it. -/
def brewShort (s : State) (f : Formula) : Prop :=
  ∃ c ∈ f.components, hasEnoughItem s c.name c.quantity = false

instance (s : State) (f : Formula) : Decidable (brewShort s f) := by
  unfold brewShort
  infer_instance

/-- From `s` to `s'` every component of `f` is lowered by exactly its required
quantity and the potion `P` is raised by exactly one. -/
def brewExact (s s' : State) (P : Str) (f : Formula) : Prop :=
  (∀ c ∈ f.components, totalOf s'.inventory c.name = totalOf s.inventory c.name - c.quantity) ∧
    totalOf s'.inventory P = totalOf s.inventory P + 1

instance (s s' : State) (P : Str) (f : Formula) : Decidable (brewExact s s' P f) := by
  unfold brewExact
  infer_instance

/-- Statement C2 for a line `Geralt brews P` and the formula `f` of `P`:
"Not enough ingredients" with the inventory unchanged exactly when a component
is short; otherwise every component is lowered by its required quantity, `P`
is raised by one and the output is "Alchemy item created: P". -/
def brewClaim (slotOrder : List Item → List Item) (s : State) (input : Str) (f : Formula) : Prop :=
  match step slotOrder s input with
  | none => False
  | some (s', out) =>
    ((out = "Not enough ingredients\n".toList ∧ s'.inventory = s.inventory) ↔ brewShort s f) ∧
    (¬ brewShort s f →
      brewExact s s' (trim (input.drop 13)) f ∧
        out = "Alchemy item created: ".toList ++ trim (input.drop 13) ++ "\n".toList)

instance (slotOrder : List Item → List Item) (s : State) (input : Str) (f : Formula) :
    Decidable (brewClaim slotOrder s input f) := by
  unfold brewClaim
  split <;> infer_instance

/-- A state with a full inventory in which `Swallow` is brewed from one `i0`. -/
def brewFullState : State :=
  ⟨fullInventory, [⟨"Swallow".toList, [⟨"i0".toList, 1⟩]⟩], []⟩

/-- The trophy part and the ingredient part of a trade line as `processTrade`
cuts them at the first "for" (main.c 486-495). -/
def tradeParts (input : Str) : Option (Str × Str) :=
  match strstr (trim (input.drop 14)) "for".toList with
  | none => none
  | some pos =>
    some (trim ((trim (input.drop 14)).take pos), trim ((trim (input.drop 14)).drop (pos + 3)))

/-- The trophy entries `(quantity, name)` a trade line lists. -/
def listedTrophies (input : Str) : List (Int × Str) :=
  match tradeParts input with
  | none => []
  | some (trophyPart, _) => (strtok trophyPart).filterMap (fun t => sscanf_d_line (trim t))

/-- The ingredient entries `(quantity, name)` a trade line lists. -/
def listedIngredients (input : Str) : List (Int × Str) :=
  match tradeParts input with
  | none => []
  | some (_, ingredientPart) => entriesOf (strtok ingredientPart)

/-- From `s` to `s'` every listed trophy is lower by exactly its listed
quantity and every listed ingredient higher by exactly its listed quantity. -/
def tradeExact (s s' : State) (input : Str) : Prop :=
  (∀ t ∈ listedTrophies input, totalOf s'.inventory t.2 = totalOf s.inventory t.2 - t.1) ∧
    ∀ e ∈ listedIngredients input, totalOf s'.inventory e.2 = totalOf s.inventory e.2 + e.1

instance (s s' : State) (input : Str) : Decidable (tradeExact s s' input) := by
  unfold tradeExact
  infer_instance

/-- The side conditions under which a successful trade changes the totals
exactly as listed: the listed names are pairwise different up to case and fit
the name buffer, and the inventory has room for the listed ingredients that
have no entry yet. -/
def tradeDistinct (s : State) (input : Str) : Prop :=
  ((listedTrophies input).map (fun t => fold t.2)).Nodup ∧
  (∀ t ∈ listedTrophies input, t.2.length < MAX_NAME_LEN) ∧
  ((listedIngredients input).map (fun e => fold e.2)).Nodup ∧
  (∀ e ∈ listedIngredients input, e.2.length < MAX_NAME_LEN) ∧
  (∀ t ∈ listedTrophies input, fold t.2 ∉ (listedIngredients input).map (fun e => fold e.2)) ∧
  s.inventory.length +
      ((listedIngredients input).filter (fun e => !hasEntry s.inventory e.2)).length ≤
    MAX_INGREDIENTS

/-- A state whose inventory is at capacity and holds one `Leshen trophy`, won
with the sign `Igni`. -/
def tradeFullState : State :=
  ⟨⟨"Leshen trophy".toList, 1⟩ :: (List.range 99).map (fun i => ⟨'i' :: Nat.toDigits 10 i, 1⟩),
    [], [⟨"Leshen".toList, [], "Igni".toList⟩]⟩

/-- Statement C3 for a trade line: either "Trade successful" is printed and
the listed trophies and ingredients changed exactly as listed, or no listed
trophy is lower than before. -/
def tradeClaim (slotOrder : List Item → List Item) (s : State) (input : Str) : Prop :=
  match step slotOrder s input with
  | none => False
  | some (s', out) =>
    (out = "Trade successful\n".toList ∧ tradeExact s s' input) ∨
      ∀ t ∈ listedTrophies input, totalOf s.inventory t.2 ≤ totalOf s'.inventory t.2

instance (slotOrder : List Item → List Item) (s : State) (input : Str) :
    Decidable (tradeClaim slotOrder s input) := by
  unfold tradeClaim
  split <;> infer_instance

/-- The tokens of the trophy part of a trade line, trimmed. -/
def trophyTokens (input : Str) : List Str :=
  match tradeParts input with
  | none => []
  | some (trophyPart, _) => (strtok trophyPart).map trim

/-- Every trophy entry has the shape `<qty> <name>` with a positive quantity. -/
def wellFormedTrophies (tokens : List Str) : Bool :=
  tokens.all (fun t =>
    match sscanf_d_line t with
    | some (q, _) => decide (0 < q)
    | none => false)

/-- Some listed trophy is not held in at least the listed quantity. -/
def someTrophyShort (s : State) (tokens : List Str) : Bool :=
  tokens.any (fun t =>
    match sscanf_d_line t with
    | some (q, name) => !hasEnoughItem s name q
    | none => false)

/-- The monster `M` has no bestiary entry, or its entry has no sign set and no
potion set that is held with quantity at least 1. -/
def unprepared (s : State) (M : Str) : Prop :=
  match findMonster s.bestiary M with
  | none => True
  | some e =>
    e.effectiveSign.length = 0 ∧
      ¬ (e.effectivePotion.length > 0 ∧ hasEnoughItem s e.effectivePotion 1 = true)

instance (s : State) (M : Str) : Decidable (unprepared s M) := by
  unfold unprepared
  split <;> infer_instance

/-- The potion an encounter with `M` consumes: the effective potion of the
entry of `M` when it is set and held. -/
def potionUsed (s : State) (M : Str) : Option Str :=
  match findMonster s.bestiary M with
  | none => none
  | some e =>
    if e.effectivePotion.length > 0 && hasEnoughItem s e.effectivePotion 1 then
      some e.effectivePotion
    else none

/-- From `s` to `s'` the trophy of `M` is raised by exactly one, the potion
used (if any) is lowered by exactly one, no other inventory quantity changes
and the bestiary is the same. -/
def encounterExact (s s' : State) (M : Str) : Prop :=
  totalOf s'.inventory (M ++ " trophy".toList) =
      totalOf s.inventory (M ++ " trophy".toList) + 1 ∧
    (∀ p ∈ potionUsed s M, totalOf s'.inventory p = totalOf s.inventory p - 1) ∧
    (∀ n, fold n ≠ fold (M ++ " trophy".toList) → (∀ p ∈ potionUsed s M, fold n ≠ fold p) →
      totalOf s'.inventory n = totalOf s.inventory n) ∧
    s'.bestiary = s.bestiary

/-- Statement C9 for a line `Geralt encounters a M`. -/
def encounterClaim (slotOrder : List Item → List Item) (s : State) (input : Str) : Prop :=
  match step slotOrder s input with
  | none => False
  | some (s', out) =>
    ((out = "Geralt is unprepared and barely escapes with his life\n".toList ∧ s' = s) ↔
        unprepared s (trim (input.drop 20))) ∧
      (¬ unprepared s (trim (input.drop 20)) →
        out = "Geralt defeats ".toList ++ trim (input.drop 20) ++ "\n".toList ∧
          encounterExact s s' (trim (input.drop 20)))

/-- A state with a full inventory in which the sign `Igni` is known to be
effective against `Leshen`. -/
def encounterFullState : State :=
  ⟨fullInventory, [], [⟨"Leshen".toList, [], "Igni".toList⟩]⟩

/-- What `processLearn` reads from an effectiveness line (main.c 570-584):
the counter, the kind token and the enemy name. -/
def learnParse (input : Str) : Option (Str × Str × Str) :=
  match strstr (trim (input.drop 14)) "is effective against".toList with
  | none => none
  | some pos =>
    match sscanf_s_s ((trim (input.drop 14)).take pos) with
    | none => none
    | some (counter, kind) =>
      some (counter, kind, copyName (trim ((trim (input.drop 14)).drop (pos + 20))))

/-- The slot of a bestiary entry that a kind addresses. -/
def slotOf (isSign : Bool) (e : BestiaryEntry) : Str :=
  if isSign then e.effectiveSign else e.effectivePotion

/-- The entry with the slot of that kind overwritten and nothing else changed. -/
def withSlot (isSign : Bool) (e : BestiaryEntry) (counter : Str) : BestiaryEntry :=
  if isSign then ⟨e.monsterName, e.effectivePotion, counter⟩
  else ⟨e.monsterName, counter, e.effectiveSign⟩

/-- A new entry with only the slot of that kind set. -/
def newEntry (isSign : Bool) (enemy counter : Str) : BestiaryEntry :=
  if isSign then ⟨enemy, [], counter⟩ else ⟨enemy, counter, []⟩

/-- A bestiary at capacity: the hundred monsters `m0`, ..., `m99`, each with
the sign `Igni`. -/
def fullBestiary : List BestiaryEntry :=
  (List.range 100).map (fun i => ⟨'m' :: Nat.toDigits 10 i, [], "Igni".toList⟩)

/-- The lines `Geralt learns Igni sign is effective against m0`, ..., one for
each of `n` monsters. -/
def learnLinesUpTo (n : Nat) : List Str :=
  (List.range n).map (fun i =>
    "Geralt learns Igni sign is effective against m".toList ++ Nat.toDigits 10 i)

/-- A state whose bestiary is at capacity. -/
def learnFullState : State :=
  ⟨[], [], fullBestiary⟩

/-- A counter name as the learn command can carry it: one non-empty word that
fits the name buffer. -/
def isWord (X : Str) : Bool :=
  !X.isEmpty && X.all (fun c => !isspace c) && decide (X.length < MAX_NAME_LEN)

/-- A monster name as both the learn command and the query can carry it: not
empty, no white space at either end, no question mark, and it fits the name
buffer. -/
def isEnemyName (Y : Str) : Bool :=
  !isspace (Y.headD ' ') && !isspace (Y.getLastD ' ') && Y.all (fun c => c != '?')
    && decide (Y.length < MAX_NAME_LEN)

/-- The line `Geralt learns X potion is effective against Y`. -/
def learnLine (X Y : Str) : Str :=
  "Geralt learns ".toList ++ (X ++ (" potion is effective against ".toList ++ Y))

/-- The line `What is effective against Y?`. -/
def effectiveQuery (Y : Str) : Str :=
  "What is effective against ".toList ++ (Y ++ "?".toList)

/-- The output of an effectiveness query reports the counter `X` (names are
identified up to case): alone, or as one of two results joined by ", ". -/
def reportsCounter (out X : Str) : Prop :=
  ∃ X', fold X' = fold X ∧
    (out = X' ++ "\n".toList ∨
      ∃ S, out = X' ++ ", ".toList ++ S ++ "\n".toList ∨
        out = S ++ ", ".toList ++ X' ++ "\n".toList)

/-- Statement C5 for a state, a potion name and a monster name: after the
learn line, the query reports the potion. -/
def roundTripClaim (slotOrder : List Item → List Item) (s : State) (X Y : Str) : Prop :=
  match step slotOrder s (learnLine X Y) with
  | none => False
  | some (s1, _) =>
    match step slotOrder s1 (effectiveQuery Y) with
    | none => False
    | some (_, out) => reportsCounter out X

/-- The name ends with the given suffix up to ASCII case. -/
def endsWithCI (name suffix : Str) : Prop :=
  ∃ front tail, name = front ++ tail ∧ fold tail = fold suffix

/-- The name is the potion name of some formula of the book, up to case. -/
def namesFormula (book : List Formula) (name : Str) : Prop :=
  ∃ f ∈ book, strcasecmp name f.potionName = 0

/-- The line starts, case-sensitively, with one of the five command phrases
that `main` tests (main.c 761-777). -/
def startsCommand (input : Str) : Bool :=
  strncmpEq input "Geralt loots".toList 12 || strncmpEq input "Geralt trades".toList 13
    || strncmpEq input "Geralt brews".toList 12 || strncmpEq input "Geralt learns".toList 13
    || strncmpEq input "Geralt encounters a".toList 19

/-- The trimmed line starts, up to case, with one of the five query phrases
that `processQuery` tests (main.c 194-414). -/
def startsQuery (input : Str) : Bool :=
  strncasecmpEq (trim input) "What is effective against".toList 25
    || strncasecmpEq (trim input) "Total ingredient".toList 16
    || strncasecmpEq (trim input) "Total potion".toList 12
    || strncasecmpEq (trim input) "Total trophy".toList 12
    || strncasecmpEq (trim input) "What is in".toList 10

/-- The line `Total ingredient n?`. -/
def ingredientQuery (n : Str) : Str :=
  "Total ingredient ".toList ++ (n ++ "?".toList)

/-- The line `Total potion n?`. -/
def potionQuery (n : Str) : Str :=
  "Total potion ".toList ++ (n ++ "?".toList)

/-- The line `Total trophy M?`. -/
def trophyQuery (M : Str) : Str :=
  "Total trophy ".toList ++ (M ++ "?".toList)

/-- A monster name of 43 characters. -/
def longMonster : Str :=
  "Ancient Leshen of the Black Forest of Velen".toList

/-- The state after learning the sign `Igni` against `longMonster` and
defeating it once. -/
def longTrophyState : State :=
  ⟨[⟨longMonster ++ " trophy".toList, 1⟩], [], [⟨longMonster, [], "Igni".toList⟩]⟩

/-- The line is handled by the formula form of `processLearn`: it does not
contain "is effective against" and contains "consists of" (main.c 572-639). -/
def isFormulaForm (input : Str) : Bool :=
  (strstr (trim (input.drop 14)) "is effective against".toList).isNone
    && (strstr (trim (input.drop 14)) "consists of".toList).isSome

/-- The component tokens of a formula line as `processLearn` cuts them
(main.c 652-656). -/
def formulaTokens (input : Str) : List Str :=
  match strstr (trim (input.drop 14)) "consists of".toList with
  | none => []
  | some cpos => strtok (trim ((trim (input.drop 14)).drop (cpos + 11)))

/-- The potion name of a formula line as `processLearn` cuts it (main.c
640-651): the text before the first "potion", at most 63 characters, trimmed. -/
def formulaName (input : Str) : Option Str :=
  match strstr (trim (input.drop 14)) "potion".toList with
  | none => none
  | some ppos =>
    some (trim ((trim (input.drop 14)).take
      (if ppos ≥ MAX_NAME_LEN then MAX_NAME_LEN - 1 else ppos)))

/-- The entry fails the shape `<qty> <name>` or its quantity is not positive. -/
def malformedEntry (token : Str) : Bool :=
  match sscanf_d_s (trim token) with
  | some (q, _) => decide (q ≤ 0)
  | none => true

/-- The state after three encounters won against `Leshen` and one against
`Drowner`. -/
def twoTrophiesState : State :=
  ⟨[⟨"Leshen trophy".toList, 3⟩, ⟨"Drowner trophy".toList, 1⟩], [],
    [⟨"Leshen".toList, [], "Igni".toList⟩, ⟨"Drowner".toList, [], "Igni".toList⟩]⟩

/-- The state after the two `Vitriol` looted were brewed into a `Swallow`,
three `Rebis` were looted, the `Swallow` was used against `Leshen` and the
trophy was traded for one more `Rebis`: three entries have quantity zero. -/
def usedUpState : State :=
  ⟨[⟨"Vitriol".toList, 0⟩, ⟨"Swallow".toList, 0⟩, ⟨"Rebis".toList, 4⟩,
      ⟨"Leshen trophy".toList, 0⟩],
    [⟨"Swallow".toList, [⟨"Vitriol".toList, 2⟩]⟩],
    [⟨"Leshen".toList, "Swallow".toList, []⟩]⟩

/-- The needle matches the haystack at index `i` when both are compared with
ASCII case folding: `i` is a position of the haystack (its end included) and
the folded needle is read off the folded haystack from `i` on. -/
def matchesAt (haystack needle : Str) (i : Nat) : Prop :=
  i ≤ haystack.length ∧ fold needle <+: fold (haystack.drop i)

/-- The line ends with a question mark once trailing white space is ignored:
it is some text, a question mark and then white space only. -/
def endsWithQuestion (input : Str) : Prop :=
  ∃ body blanks, input = body ++ '?' :: blanks ∧ ∀ c ∈ blanks, isspace c = true

/-- The tokens of the ingredient part of a trade line (main.c 516). -/
def ingredientTokens (input : Str) : List Str :=
  match tradeParts input with
  | none => []
  | some (_, ingredientPart) => strtok ingredientPart

/-- The well-formed entries `(quantity, name)` of a list of tokens that
precede its first bad token: those that the entry loop hands to `addItem`
(main.c 467-475, 517-525). -/
def entriesBeforeBad (tokens : List Str) : List (Int × Str) :=
  entriesOf (tokens.takeWhile (fun t => !malformedEntry t))

/-- The names that a line hands to `addItem` through `sscanf` with `%s`: the
entry names that a loot command lists before its first bad entry, and those
that the ingredient part of a trade command lists before its first bad entry
(main.c 470-473, 520-523). -/
def lootedNames (input : Str) : List Str :=
  if endsWithQuestionMark input then []
  else if strncmpEq input "Geralt loots".toList 12 then
    (entriesBeforeBad (lootTokens input)).map (fun e => e.2)
  else if strncmpEq input "Geralt trades".toList 13 then
    (entriesBeforeBad (ingredientTokens input)).map (fun e => e.2)
  else []

/-- Every entry name that the line lists for `addItem` has fewer than
`MAX_NAME_LEN` characters: it is stored as it is looked up (main.c 127,
133-134). -/
def namesFit (line : Str) : Bool :=
  (lootedNames line).all (fun n => decide (n.length < MAX_NAME_LEN))

/-- The elementary changes of the globals out of which the handlers compose
the effect of one input line:

* `add`: a call of `addItem` (main.c 473, 523, 558, 734), always with a
  positive quantity and with a name that is an entry name listed by the line
  (a word of the line), or fits the name buffer, or is the name of a known
  formula;
* `remove`: a call of `removeItem` (main.c 527, 556, 730);
* `entry`: a new bestiary entry for an unknown monster (main.c 602-613);
* `slot`: a slot of a bestiary entry is overwritten (main.c 616-634);
* `formula`: a new formula under an unknown name, with positive component
  quantities (main.c 677-688). -/
inductive Update (input : Str) : State → State → Prop where
  | add (s : State) (name : Str) (quantity : Int) (hq : 0 < quantity)
      (hname : (name ∈ lootedNames input ∧ name <:+: input ∧
          ∀ c ∈ name, isspace c = false) ∨
        name.length < MAX_NAME_LEN ∨ ∃ f ∈ s.formulaBook, strcasecmp f.potionName name = 0) :
      Update input s (addItem s name quantity)
  | remove (s : State) (name : Str) (quantity : Int) :
      Update input s (removeItem s name quantity)
  | entry (s : State) (e : BestiaryEntry)
      (hnew : findMonster s.bestiary e.monsterName = none)
      (hroom : s.bestiary.length < MAX_BESTIARY) :
      Update input s ⟨s.inventory, s.formulaBook, s.bestiary ++ [e]⟩
  | slot (s : State) (f : BestiaryEntry → BestiaryEntry) (enemy : Str)
      (hf : ∀ x, (f x).monsterName = x.monsterName) :
      Update input s ⟨s.inventory, s.formulaBook, updateEntry f s.bestiary enemy⟩
  | formula (s : State) (f : Formula)
      (hnew : findFormula s.formulaBook f.potionName = none)
      (hroom : s.formulaBook.length < MAX_FORMULAS)
      (hlen : f.potionName.length < MAX_NAME_LEN)
      (hpos : ∀ c ∈ f.components, 0 < c.quantity) :
      Update input s ⟨s.inventory, s.formulaBook ++ [f], s.bestiary⟩

/-- No two names of the list are equal up to ASCII case. -/
def uniqueNames (names : List Str) : Prop :=
  names.Pairwise (fun a b => strcasecmp a b ≠ 0)

instance (names : List Str) : Decidable (uniqueNames names) := by
  unfold uniqueNames
  infer_instance

/-- A loot line that lists the same word of 70 characters twice. -/
def longLootLine : Str :=
  "Geralt loots 1 ".toList ++ List.replicate 70 'a' ++ ", 1 ".toList ++ List.replicate 70 'a'

/-- A formula book at capacity: the fifty potions `p0`, ..., `p49`, each made
of one `Rebis`. -/
def fullBook : List Formula :=
  (List.range 50).map (fun i => ⟨'p' :: Nat.toDigits 10 i, [⟨"Rebis".toList, 1⟩]⟩)

/-- The lines `Geralt learns p0 potion consists of 1 Rebis`, ..., one for each
of `n` potions. -/
def formulaLinesUpTo (n : Nat) : List Str :=
  (List.range n).map (fun i =>
    "Geralt learns p".toList ++ Nat.toDigits 10 i ++ " potion consists of 1 Rebis".toList)

/-- A state whose formula book is at capacity. -/
def fullBookState : State :=
  ⟨[], fullBook, []⟩

/-- The line `Geralt learns X potion consists of`, with no component. -/
def learnEmpty (X : Str) : Str :=
  "Geralt learns ".toList ++ (X ++ " potion consists of".toList)

/-- The line `What is in X?`. -/
def formulaQuery (X : Str) : Str :=
  "What is in ".toList ++ (X ++ "?".toList)

/-- The line `Geralt brews X`. -/
def brewLine (X : Str) : Str :=
  "Geralt brews ".toList ++ X

/-- A potion name that the three lines above can carry: not empty, no white
space at either end, no question mark, at most 62 characters (the query keeps
63 characters of the text behind "What is in", main.c 417-418), and such that
`processLearn` reads `learnEmpty X` as a formula with the name `X` and no
component (the name holds none of the phrases that `processLearn` searches
for). -/
def isPotionName (X : Str) : Bool :=
  isEnemyName X && decide (X.length ≤ 62) && isFormulaForm (learnEmpty X)
    && decide (formulaName (learnEmpty X) = some X) && (formulaTokens (learnEmpty X)).isEmpty

/-- A state with a full inventory and no formula. -/
def fullInventoryState : State :=
  ⟨fullInventory, [], []⟩

/-- The state after one encounter won against `Drowner` and then three against
`Leshen`: the same two inventory slots as in `twoTrophiesState`, with the two
trophies exchanged. -/
def trophiesInOrderState : State :=
  ⟨[⟨"Drowner trophy".toList, 1⟩, ⟨"Leshen trophy".toList, 3⟩], [],
    [⟨"Drowner".toList, [], "Igni".toList⟩, ⟨"Leshen".toList, [], "Igni".toList⟩]⟩

/-! ## Lemmas on the C library functions -/

theorem char_toNat_inj {a b : Char} (h : a.toNat = b.toNat) : a = b := by
  have := congrArg Char.ofNat h
  simpa using this

theorem strcasecmp_eq_zero_iff (a b : Str) : strcasecmp a b = 0 ↔ fold a = fold b := by
  induction a generalizing b with
  | nil => cases b <;> simp [strcasecmp, fold]
  | cons x xs ih =>
    cases b with
    | nil => simp [strcasecmp, fold]
    | cons y ys =>
      by_cases h : tolower x = tolower y
      · simp [strcasecmp, fold, h] at ih ⊢
        exact ih ys
      · have hne : ((tolower x).toNat : Int) - ((tolower y).toNat : Int) ≠ 0 := by
          intro h0
          apply h
          apply char_toNat_inj
          omega
        simp [strcasecmp, fold, h, hne]

theorem strcasecmp_self (a : Str) : strcasecmp a a = 0 :=
  (strcasecmp_eq_zero_iff a a).2 rfl

theorem strcasecmp_comm_zero (a b : Str) : strcasecmp a b = 0 ↔ strcasecmp b a = 0 := by
  rw [strcasecmp_eq_zero_iff, strcasecmp_eq_zero_iff]
  exact eq_comm

/-! ## Lemmas on the inventory functions -/

theorem hasEntry_cons (it : Item) (rest : List Item) (name : Str) :
    hasEntry (it :: rest) name = (decide (fold it.name = fold name) || hasEntry rest name) := by
  simp [hasEntry, strcasecmp_eq_zero_iff]

theorem totalOf_cons (it : Item) (rest : List Item) (n : Str) :
    totalOf (it :: rest) n = if fold it.name = fold n then it.quantity else totalOf rest n := by
  simp [totalOf, strcasecmp_eq_zero_iff]

theorem totalOf_of_not_hasEntry {inv : List Item} {n : Str} (h : hasEntry inv n = false) :
    totalOf inv n = 0 := by
  induction inv with
  | nil => rfl
  | cons it rest ih =>
    rw [hasEntry_cons] at h
    simp only [Bool.or_eq_false_iff, decide_eq_false_iff_not] at h
    rw [totalOf_cons, if_neg h.1, ih h.2]

theorem addLoop_eq_none_iff (inv : List Item) (name : Str) (q : Int) :
    addLoop inv name q = none ↔ hasEntry inv name = false := by
  induction inv with
  | nil => simp [addLoop, hasEntry]
  | cons it rest ih =>
    rw [hasEntry_cons]
    by_cases h : fold it.name = fold name
    · simp [addLoop, strcasecmp_eq_zero_iff, h]
    · simp [addLoop, strcasecmp_eq_zero_iff, h, ih]

theorem totalOf_addLoop {inv inv' : List Item} {name : Str} {q : Int} (n : Str)
    (h : addLoop inv name q = some inv') :
    totalOf inv' n = totalOf inv n + if fold name = fold n then q else 0 := by
  induction inv generalizing inv' with
  | nil => simp [addLoop] at h
  | cons it rest ih =>
    by_cases hm : fold it.name = fold name
    · simp [addLoop, strcasecmp_eq_zero_iff, hm] at h
      subst h
      rw [totalOf_cons, totalOf_cons]
      simp only [hm]
      split <;> simp
    · simp only [addLoop, strcasecmp_eq_zero_iff, hm, if_false, Option.map_eq_some'] at h
      obtain ⟨r, hr, rfl⟩ := h
      rw [totalOf_cons, totalOf_cons, ih hr]
      by_cases hn : fold it.name = fold n
      · have : fold name ≠ fold n := fun e => hm (hn.trans e.symm)
        simp [hn, this]
      · simp [hn]

theorem names_addLoop {inv inv' : List Item} {name : Str} {q : Int}
    (h : addLoop inv name q = some inv') : inv'.map (·.name) = inv.map (·.name) := by
  induction inv generalizing inv' with
  | nil => simp [addLoop] at h
  | cons it rest ih =>
    by_cases hm : fold it.name = fold name
    · simp [addLoop, strcasecmp_eq_zero_iff, hm] at h
      subst h
      rfl
    · simp only [addLoop, strcasecmp_eq_zero_iff, hm, if_false, Option.map_eq_some'] at h
      obtain ⟨r, hr, rfl⟩ := h
      simp [ih hr]

theorem totalOf_append_single (inv : List Item) (x : Item) (n : Str) :
    totalOf (inv ++ [x]) n =
      if hasEntry inv n then totalOf inv n
      else if fold x.name = fold n then x.quantity else 0 := by
  induction inv with
  | nil => simp [hasEntry, totalOf, strcasecmp_eq_zero_iff]
  | cons it rest ih =>
    rw [List.cons_append, totalOf_cons, totalOf_cons, hasEntry_cons, ih]
    by_cases hn : fold it.name = fold n <;> simp [hn]

theorem copyName_of_short {name : Str} (h : name.length < MAX_NAME_LEN) : copyName name = name := by
  unfold copyName
  apply List.take_of_length_le
  omega

/-- Adding raises exactly the total of that name, when the name has an entry
or there is room for a new one and the name fits the buffer. -/
theorem totalOf_addItemInv (inv : List Item) (name : Str) (q : Int) (n : Str)
    (h : hasEntry inv name = true ∨ (inv.length < MAX_INGREDIENTS ∧ name.length < MAX_NAME_LEN)) :
    totalOf (addItemInv inv name q) n = totalOf inv n + if fold name = fold n then q else 0 := by
  unfold addItemInv
  cases hl : addLoop inv name q with
  | some inv' => exact totalOf_addLoop n hl
  | none =>
    have hno := (addLoop_eq_none_iff inv name q).1 hl
    rcases h with h | ⟨hroom, hlen⟩
    · rw [hno] at h
      cases h
    · simp only [hroom, if_true]
      rw [totalOf_append_single, copyName_of_short hlen]
      by_cases hn : fold name = fold n
      · have : hasEntry inv n = false := by
          rw [← hno]
          simp only [hasEntry, strcasecmp_eq_zero_iff, hn]
        simp [this, hn, totalOf_of_not_hasEntry this]
      · by_cases he : hasEntry inv n = true
        · simp [he, hn]
        · simp only [Bool.not_eq_true] at he
          simp [he, hn, totalOf_of_not_hasEntry he]

theorem hasEntry_eq_false_iff (inv : List Item) (name : Str) :
    hasEntry inv name = false ↔ fold name ∉ inv.map (fun it => fold it.name) := by
  induction inv with
  | nil => simp [hasEntry]
  | cons it rest ih =>
    rw [hasEntry_cons]
    simp only [Bool.or_eq_false_iff, decide_eq_false_iff_not, ih, List.map_cons, List.mem_cons,
      not_or]
    constructor
    · rintro ⟨h1, h2⟩
      exact ⟨fun e => h1 e.symm, h2⟩
    · rintro ⟨h1, h2⟩
      exact ⟨fun e => h1 e.symm, h2⟩

theorem names_addItemInv (inv : List Item) (name : Str) (q : Int) :
    (addItemInv inv name q).map (·.name) =
      if hasEntry inv name = false ∧ inv.length < MAX_INGREDIENTS then
        inv.map (·.name) ++ [copyName name]
      else inv.map (·.name) := by
  unfold addItemInv
  cases hl : addLoop inv name q with
  | some inv' =>
    have hne : ¬ hasEntry inv name = false := by
      rw [← addLoop_eq_none_iff inv name q, hl]
      simp
    simp [hne, names_addLoop hl]
  | none =>
    have hno := (addLoop_eq_none_iff inv name q).1 hl
    by_cases hroom : inv.length < MAX_INGREDIENTS <;> simp [hno, hroom]

theorem lootedSum_append_single (es : List (Int × Str)) (e : Int × Str) (n : Str) :
    lootedSum (es ++ [e]) n = lootedSum es n + if fold e.2 = fold n then e.1 else 0 := by
  unfold lootedSum
  by_cases h : fold e.2 = fold n <;>
    simp [List.filter_append, List.filter_cons, strcasecmp_eq_zero_iff, h]

/-- Looting within the name length and the capacity keeps one entry per
folded name and records for every name the sum of its looted quantities. -/
theorem loot_invariant (es : List (Int × Str))
    (hlen : ∀ e ∈ es, e.2.length < MAX_NAME_LEN)
    (hcap : ((es.map (fun e => fold e.2)).dedup).length ≤ MAX_INGREDIENTS) :
    ((es.foldl (fun inv e => addItemInv inv e.2 e.1) []).map (fun it => fold it.name)).Nodup ∧
    (∀ it ∈ es.foldl (fun inv e => addItemInv inv e.2 e.1) [],
        fold it.name ∈ es.map (fun e => fold e.2)) ∧
    ∀ n, totalOf (es.foldl (fun inv e => addItemInv inv e.2 e.1) []) n = lootedSum es n := by
  induction es using List.reverseRecOn with
  | nil => simp [totalOf, lootedSum]
  | append_singleton es e ih =>
    have hlen' : ∀ x ∈ es, x.2.length < MAX_NAME_LEN := fun x hx =>
      hlen x (List.mem_append_left _ hx)
    have hsub : (es.map (fun e => fold e.2)).dedup ⊆ ((es ++ [e]).map (fun e => fold e.2)).dedup := by
      intro x hx
      rw [List.mem_dedup] at hx ⊢
      rw [List.map_append]
      exact List.mem_append_left _ hx
    have hcap' : ((es.map (fun e => fold e.2)).dedup).length ≤ MAX_INGREDIENTS :=
      le_trans ((List.nodup_dedup _).subperm hsub).length_le hcap
    obtain ⟨hnd, hmem, htot⟩ := ih hlen' hcap'
    rw [List.foldl_append]
    simp only [List.foldl_cons, List.foldl_nil]
    generalize es.foldl (fun inv e => addItemInv inv e.2 e.1) [] = inv at hnd hmem htot ⊢
    have hshort : e.2.length < MAX_NAME_LEN := hlen e (by simp)
    have hroom : hasEntry inv e.2 = true ∨ (inv.length < MAX_INGREDIENTS ∧ e.2.length < MAX_NAME_LEN) := by
      by_cases he : hasEntry inv e.2 = true
      · exact Or.inl he
      · right
        refine ⟨?_, hshort⟩
        simp only [Bool.not_eq_true] at he
        have hnot := (hasEntry_eq_false_iff inv e.2).1 he
        have hnd2 : (fold e.2 :: inv.map (fun it => fold it.name)).Nodup :=
          List.nodup_cons.2 ⟨hnot, hnd⟩
        have hsub2 : (fold e.2 :: inv.map (fun it => fold it.name)) ⊆
            ((es ++ [e]).map (fun e => fold e.2)).dedup := by
          intro x hx
          rw [List.mem_dedup, List.map_append]
          rcases List.mem_cons.1 hx with rfl | hx
          · simp
          · obtain ⟨it, hit, rfl⟩ := List.mem_map.1 hx
            exact List.mem_append_left _ (hmem it hit)
        have hle := (hnd2.subperm hsub2).length_le
        simp only [List.length_cons, List.length_map] at hle
        omega
    have hnames := names_addItemInv inv e.2 e.1
    have hfoldnames : (addItemInv inv e.2 e.1).map (fun it => fold it.name) =
        ((addItemInv inv e.2 e.1).map (·.name)).map fold := by
      simp [List.map_map, Function.comp_def]
    have hinvnames : inv.map (fun it => fold it.name) = (inv.map (·.name)).map fold := by
      simp [List.map_map, Function.comp_def]
    refine ⟨?_, ?_, ?_⟩
    · rw [hfoldnames, hnames]
      split
      · rename_i hc
        rw [List.map_append, ← hinvnames, copyName_of_short hshort]
        have hnot := (hasEntry_eq_false_iff inv e.2).1 hc.1
        rw [List.nodup_append]
        refine ⟨hnd, by simp, ?_⟩
        intro x hx hx2
        simp only [List.map_cons, List.map_nil, List.mem_singleton] at hx2
        subst hx2
        exact hnot hx
      · rw [← hinvnames]
        exact hnd
    · intro it hit
      have hit2 : fold it.name ∈ (addItemInv inv e.2 e.1).map (fun it => fold it.name) :=
        List.mem_map_of_mem (fun it => fold it.name) hit
      rw [hfoldnames, hnames] at hit2
      rw [List.map_append]
      split at hit2
      · rw [List.map_append, ← hinvnames, copyName_of_short hshort] at hit2
        rcases List.mem_append.1 hit2 with h | h
        · obtain ⟨it2, hit2m, heq⟩ := List.mem_map.1 h
          rw [← heq]
          exact List.mem_append_left _ (hmem it2 hit2m)
        · simp only [List.map_cons, List.map_nil, List.mem_singleton] at h
          rw [h]
          simp
      · rw [← hinvnames] at hit2
        obtain ⟨it2, hit2m, heq⟩ := List.mem_map.1 hit2
        rw [← heq]
        exact List.mem_append_left _ (hmem it2 hit2m)
    · intro n
      rw [totalOf_addItemInv inv e.2 e.1 n hroom, htot n, lootedSum_append_single]

/-! ## Lemmas on trimming and cutting -/

theorem trim_cons_concat (a b : Char) (m : Str) (ha : isspace a = false) (hb : isspace b = false) :
    trim (a :: (m ++ [b])) = a :: (m ++ [b]) := by
  unfold trim
  rw [List.dropWhile_cons_of_neg (by simp [ha]), ← List.cons_append,
    List.rdropWhile_concat_neg _ _ _ (by simp [hb])]

theorem trim_word (w : Str) (h : ∀ c ∈ w, isspace c = false) : trim w = w := by
  induction w using List.reverseRecOn with
  | nil => rfl
  | append_singleton m b _ =>
    cases m with
    | nil =>
      unfold trim
      have hb : isspace b = false := h b (by simp)
      simp [List.rdropWhile_singleton, hb]
    | cons a m =>
      exact trim_cons_concat a b m (h a (by simp)) (h b (by simp))

theorem trim_nil : trim [] = [] := rfl

theorem endsWithQuestionMark_concat (m : Str) : endsWithQuestionMark (m ++ ['?']) = true := by
  unfold endsWithQuestionMark
  rw [List.rdropWhile_concat_neg _ _ _ (by decide), List.getLast?_concat]
  rfl

theorem cutAt_append_cons (c : Char) (w r : Str) (h : ∀ x ∈ w, x ≠ c) :
    cutAt c (w ++ c :: r) = w := by
  unfold cutAt
  rw [List.takeWhile_append_of_pos (by simpa using h)]
  simp

theorem cutAt_of_not_mem (c : Char) (w : Str) (h : ∀ x ∈ w, x ≠ c) : cutAt c w = w := by
  unfold cutAt
  rw [List.takeWhile_eq_self_iff]
  simpa using h

theorem queryName_spec {n : Str} (h : queryName n = true) :
    n ≠ [] ∧ (∀ c ∈ n, isspace c = false) ∧ (∀ c ∈ n, c ≠ '?') ∧ n.length < 64 := by
  unfold queryName at h
  simp only [Bool.and_eq_true, Bool.not_eq_true', List.isEmpty_eq_false, List.all_eq_true,
    decide_eq_true_eq, bne_iff_ne, ne_eq] at h
  obtain ⟨⟨h1, h2⟩, h3⟩ := h
  exact ⟨h1, fun c hc => (h2 c hc).1, fun c hc => (h2 c hc).2, h3⟩

/-- The per-name ingredient query prints the total of that name. -/
theorem step_totalIngredient (slotOrder : List Item → List Item) (s : State) (n : Str)
    (hn : queryName n = true) :
    step slotOrder s ("Total ingredient ".toList ++ n ++ "?".toList) =
      some (s, fmt_d (totalOf s.inventory n) ++ "\n".toList) := by
  obtain ⟨hne, hsp, hq, hlen⟩ := queryName_spec hn
  have hQ : "Total ingredient ".toList ++ n ++ "?".toList =
      'T' :: (("otal ingredient ".toList ++ n) ++ ['?']) := by
    simp [List.append_assoc]
  have hend : endsWithQuestionMark ("Total ingredient ".toList ++ n ++ "?".toList) = true := by
    rw [hQ, ← List.cons_append]
    exact endsWithQuestionMark_concat _
  have htrim : trim ("Total ingredient ".toList ++ n ++ "?".toList) =
      "Total ingredient ".toList ++ (n ++ ['?']) := by
    rw [hQ, trim_cons_concat _ _ _ (by decide) (by decide)]
    simp [List.append_assoc]
  have hrem : queryRemainder ("Total ingredient ".toList ++ (n ++ ['?'])) 17 = n := by
    unfold queryRemainder
    have hd : ("Total ingredient ".toList ++ (n ++ ['?'])).drop 17 = n ++ ['?'] := rfl
    rw [hd, List.take_of_length_le (by simp; omega), cutAt_append_cons _ _ _ hq, trim_word n hsp]
  have hpos : n.length > 0 := List.length_pos.2 hne
  unfold step
  rw [hend]
  simp only [if_true]
  unfold processQuery
  rw [htrim]
  have h1 : strncasecmpEq ("Total ingredient ".toList ++ (n ++ ['?']))
      "What is effective against".toList 25 = false := rfl
  have h2 : strncasecmpEq ("Total ingredient ".toList ++ (n ++ ['?']))
      "Total ingredient".toList 16 = true := rfl
  simp only [h1, h2, if_true, Bool.false_eq_true, if_false, reportInvalid, queryIngredient, hrem,
    hpos]

/-! ## Lemmas on the loot handler -/

theorem wellFormedEntries_cons (t : Str) (rest : List Str) :
    wellFormedEntries (t :: rest) =
      ((match sscanf_d_s (trim t) with
        | some (q, _) => decide (0 < q)
        | none => false) && wellFormedEntries rest) := by
  simp [wellFormedEntries]

theorem addEntries_wellFormed (s : State) (toks : List Str) (h : wellFormedEntries toks = true) :
    addEntries s toks = (true, (entriesOf toks).foldl (fun st e => addItem st e.2 e.1) s) := by
  induction toks generalizing s with
  | nil => rfl
  | cons t rest ih =>
    rw [wellFormedEntries_cons, Bool.and_eq_true] at h
    obtain ⟨h1, h2⟩ := h
    cases hs : sscanf_d_s (trim t) with
    | none => simp [hs] at h1
    | some p =>
      obtain ⟨q, name⟩ := p
      simp only [hs, decide_eq_true_eq] at h1
      have hq : ¬ q ≤ 0 := by omega
      simp only [addEntries, hs, hq, if_false, entriesOf, List.filterMap_cons, List.foldl_cons]
      exact ih _ h2

theorem foldl_addItem_inventory (es : List (Int × Str)) (s : State) :
    (es.foldl (fun st e => addItem st e.2 e.1) s).inventory =
      es.foldl (fun inv e => addItemInv inv e.2 e.1) s.inventory := by
  induction es generalizing s with
  | nil => rfl
  | cons e rest ih =>
    rw [List.foldl_cons, List.foldl_cons, ih]
    rfl

theorem step_validLoot (slotOrder : List Item → List Item) (s : State) (input : Str)
    (h : validLoot input = true) :
    step slotOrder s input =
      some ((entriesOf (lootTokens input)).foldl (fun st e => addItem st e.2 e.1) s,
        "Alchemy ingredients obtained\n".toList) := by
  unfold validLoot at h
  simp only [Bool.and_eq_true, Bool.not_eq_true', Option.isSome_iff_exists] at h
  obtain ⟨⟨⟨hq, hp⟩, ⟨pos, hpos⟩⟩, hw⟩ := h
  have hl : lootTokens input = strtok (trim (input.drop (pos + 13))) := by
    unfold lootTokens
    rw [hpos]
  rw [hl] at hw
  unfold step
  simp only [hq, hp, Bool.false_eq_true, if_false, if_true, processLoot, hpos,
    addEntries_wellFormed _ _ hw, reportInvalid, hl]

theorem run_validLoot (slotOrder : List Item → List Item) (s : State) (lines : List Str)
    (h : ∀ l ∈ lines, validLoot l = true) :
    (run slotOrder s lines).1 =
      (lootedEntries lines).foldl (fun st e => addItem st e.2 e.1) s := by
  induction lines generalizing s with
  | nil => rfl
  | cons l rest ih =>
    have hl := step_validLoot slotOrder s l (h l (by simp))
    simp only [run, hl, lootedEntries, List.map_cons, List.flatten_cons, List.foldl_append]
    exact ih _ (fun x hx => h x (by simp [hx]))

/-! ## Lemmas on removal -/

theorem hasEnoughInv_eq (inv : List Item) (name : Str) (q : Int) :
    hasEnoughInv inv name q = (hasEntry inv name && decide (totalOf inv name ≥ q)) := by
  induction inv with
  | nil => simp [hasEnoughInv, hasEntry]
  | cons it rest ih =>
    rw [hasEntry_cons, totalOf_cons]
    by_cases h : fold it.name = fold name
    · simp [hasEnoughInv, strcasecmp_eq_zero_iff, h]
    · simp [hasEnoughInv, strcasecmp_eq_zero_iff, h, ih]

theorem removeItemInv_of_not_enough {inv : List Item} {name : Str} {q : Int}
    (h : hasEnoughInv inv name q = false) : (removeItemInv inv name q).2 = inv := by
  induction inv with
  | nil => rfl
  | cons it rest ih =>
    by_cases hm : fold it.name = fold name
    · simp only [hasEnoughInv, strcasecmp_eq_zero_iff, hm, if_true, decide_eq_false_iff_not] at h
      simp [removeItemInv, strcasecmp_eq_zero_iff, hm, h]
    · simp only [hasEnoughInv, strcasecmp_eq_zero_iff, hm, if_false] at h
      simp [removeItemInv, strcasecmp_eq_zero_iff, hm, ih h]

theorem names_removeItemInv (inv : List Item) (name : Str) (q : Int) :
    (removeItemInv inv name q).2.map (·.name) = inv.map (·.name) := by
  induction inv with
  | nil => rfl
  | cons it rest ih =>
    by_cases hm : fold it.name = fold name
    · by_cases hq : it.quantity ≥ q <;> simp [removeItemInv, strcasecmp_eq_zero_iff, hm, hq]
    · simp [removeItemInv, strcasecmp_eq_zero_iff, hm, ih]

theorem hasEntry_of_names {inv inv' : List Item} (h : inv'.map (·.name) = inv.map (·.name))
    (name : Str) : hasEntry inv' name = hasEntry inv name := by
  have e : ∀ l : List Item, hasEntry l name =
      (l.map (·.name)).any (fun x => decide (strcasecmp x name = 0)) := by
    intro l
    induction l with
    | nil => rfl
    | cons x xs ihx =>
      simp only [hasEntry, List.any_cons, List.map_cons] at ihx ⊢
      rw [ihx]
  rw [e, e, h]

theorem length_of_names {inv inv' : List Item} (h : inv'.map (·.name) = inv.map (·.name)) :
    inv'.length = inv.length := by
  have := congrArg List.length h
  simpa using this

theorem totalOf_removeItemInv (inv : List Item) (name : Str) (q : Int) (n : Str)
    (h : hasEnoughInv inv name q = true) :
    totalOf (removeItemInv inv name q).2 n =
      totalOf inv n - if fold name = fold n then q else 0 := by
  induction inv with
  | nil => simp [hasEnoughInv] at h
  | cons it rest ih =>
    by_cases hm : fold it.name = fold name
    · simp only [hasEnoughInv, strcasecmp_eq_zero_iff, hm, if_true, decide_eq_true_eq] at h
      simp only [removeItemInv, strcasecmp_eq_zero_iff, hm, if_true, h, totalOf_cons]
      by_cases hn : fold name = fold n <;> simp [hn]
    · simp only [hasEnoughInv, strcasecmp_eq_zero_iff, hm, if_false] at h
      simp only [removeItemInv, strcasecmp_eq_zero_iff, hm, if_false, totalOf_cons, ih h]
      by_cases hn : fold it.name = fold n
      · have : fold name ≠ fold n := fun e => hm (hn.trans e.symm)
        simp [hn, this]
      · simp [hn]

/-- The removal loop on the inventory array. -/
theorem removeAll_inventory (s : State) (items : List Item) :
    (removeAll s items).inventory =
        items.foldl (fun inv it => (removeItemInv inv it.name it.quantity).2) s.inventory ∧
      (removeAll s items).formulaBook = s.formulaBook ∧
      (removeAll s items).bestiary = s.bestiary := by
  induction items generalizing s with
  | nil => exact ⟨rfl, rfl, rfl⟩
  | cons it rest ih =>
    obtain ⟨h1, h2, h3⟩ := ih (removeItem s it.name it.quantity)
    exact ⟨h1, h2, h3⟩

theorem names_removeFold (items : List Item) (inv : List Item) :
    (items.foldl (fun inv it => (removeItemInv inv it.name it.quantity).2) inv).map (·.name) =
      inv.map (·.name) := by
  induction items generalizing inv with
  | nil => rfl
  | cons it rest ih => rw [List.foldl_cons, ih, names_removeItemInv]

/-- Removing items that are all held and have pairwise different names lowers
the total of each of them by its quantity and leaves every other name alone. -/
theorem totalOf_removeFold (items : List Item) (inv : List Item)
    (hnd : (items.map (fun c => fold c.name)).Nodup)
    (hall : ∀ c ∈ items, hasEnoughInv inv c.name c.quantity = true) (n : Str) :
    totalOf (items.foldl (fun inv it => (removeItemInv inv it.name it.quantity).2) inv) n =
      totalOf inv n - ((items.filter (fun c => decide (fold c.name = fold n))).map (·.quantity)).sum := by
  induction items generalizing inv with
  | nil => simp
  | cons c rest ih =>
    rw [List.map_cons, List.nodup_cons] at hnd
    have hc := hall c (by simp)
    have hrest : ∀ c' ∈ rest,
        hasEnoughInv (removeItemInv inv c.name c.quantity).2 c'.name c'.quantity = true := by
      intro c' hc'
      have h0 := hall c' (by simp [hc'])
      rw [hasEnoughInv_eq] at h0 ⊢
      have hne : fold c.name ≠ fold c'.name := by
        intro e
        apply hnd.1
        rw [e]
        exact List.mem_map_of_mem (fun c => fold c.name) hc'
      rw [hasEntry_of_names (names_removeItemInv inv c.name c.quantity),
        totalOf_removeItemInv inv c.name c.quantity c'.name hc]
      simpa [hne] using h0
    rw [List.foldl_cons, ih _ hnd.2 hrest, totalOf_removeItemInv inv c.name c.quantity n hc]
    by_cases hn : fold c.name = fold n
    · simp [List.filter_cons, hn]
      omega
    · simp [List.filter_cons, hn]

theorem sum_filter_of_not_mem (items : List Item) (n : Str)
    (h : fold n ∉ items.map (fun c => fold c.name)) :
    ((items.filter (fun c => decide (fold c.name = fold n))).map (·.quantity)).sum = 0 := by
  induction items with
  | nil => rfl
  | cons c rest ih =>
    simp only [List.map_cons, List.mem_cons, not_or] at h
    have hc : ¬ fold c.name = fold n := fun e => h.1 e.symm
    simp [List.filter_cons, hc, ih h.2]

theorem sum_filter_of_mem_nodup (items : List Item) (c : Item) (hc : c ∈ items)
    (hnd : (items.map (fun c => fold c.name)).Nodup) :
    ((items.filter (fun x => decide (fold x.name = fold c.name))).map (·.quantity)).sum =
      c.quantity := by
  induction items with
  | nil => cases hc
  | cons x rest ih =>
    rw [List.map_cons, List.nodup_cons] at hnd
    rcases List.mem_cons.1 hc with rfl | hc'
    · have := sum_filter_of_not_mem rest c.name hnd.1
      simp [List.filter_cons, this]
    · have hne : ¬ fold x.name = fold c.name := by
        intro e
        apply hnd.1
        rw [e]
        exact List.mem_map_of_mem (fun c => fold c.name) hc'
      simp [List.filter_cons, hne, ih hc' hnd.2]

/-! ## Lemmas on dispatch and on the brew handler -/

theorem input_of_strncmpEq {input lit : Str} {k : Nat} (h : strncmpEq input lit k = true)
    (hk : lit.length = k) : input = lit ++ input.drop k := by
  unfold strncmpEq at h
  have h1 : input.take k = lit.take k := by simpa using h
  rw [List.take_of_length_le (le_of_eq hk)] at h1
  rw [← h1, List.take_append_drop]

theorem step_brew (slotOrder : List Item → List Item) (s : State) (input : Str)
    (hq : endsWithQuestionMark input = false)
    (hp : strncmpEq input "Geralt brews ".toList 13 = true) :
    step slotOrder s input = some (reportInvalid (processBrew s input)) := by
  have e := input_of_strncmpEq hp rfl
  generalize input.drop 13 = rest at e
  subst e
  have h1 : strncmpEq ("Geralt brews ".toList ++ rest) "Geralt loots".toList 12 = false := rfl
  have h2 : strncmpEq ("Geralt brews ".toList ++ rest) "Geralt trades".toList 13 = false := rfl
  have h3 : strncmpEq ("Geralt brews ".toList ++ rest) "Geralt brews".toList 12 = true := rfl
  unfold step
  simp only [hq, h1, h2, h3, Bool.false_eq_true, if_false, if_true]

theorem processBrew_of_formula (s : State) (input : Str) (f : Formula)
    (hp : strncmpEq input "Geralt brews ".toList 13 = true)
    (hf : findFormula s.formulaBook (trim (input.drop 13)) = some f) :
    processBrew s input =
      if f.components.all (fun c => hasEnoughItem s c.name c.quantity) then
        ⟨true, addItem (removeAll s f.components) (trim (input.drop 13)) 1,
          "Alchemy item created: ".toList ++ trim (input.drop 13) ++ "\n".toList⟩
      else ⟨true, s, "Not enough ingredients\n".toList⟩ := by
  unfold processBrew
  simp only [hp, Bool.not_true, Bool.false_eq_true, if_false, hf]

theorem created_ne_notEnough (P : Str) :
    "Alchemy item created: ".toList ++ P ++ "\n".toList ≠ "Not enough ingredients\n".toList := by
  intro h
  have := congrArg List.head? h
  simp at this

theorem canAdd_of_names {inv inv' : List Item} (h : inv'.map (·.name) = inv.map (·.name))
    {name : Str} (hc : canAdd inv name) : canAdd inv' name := by
  unfold canAdd at hc ⊢
  rw [hasEntry_of_names h, length_of_names h]
  exact hc

/-! ## Lemmas on adding several entries -/

theorem hasEntry_iff_mem (inv : List Item) (name : Str) :
    hasEntry inv name = true ↔ fold name ∈ inv.map (fun it => fold it.name) := by
  rw [← not_iff_not, Bool.not_eq_true, hasEntry_eq_false_iff]

theorem foldNames_addItemInv (inv : List Item) (name : Str) (q : Int) :
    (addItemInv inv name q).map (fun it => fold it.name) =
      if hasEntry inv name = false ∧ inv.length < MAX_INGREDIENTS then
        inv.map (fun it => fold it.name) ++ [fold (copyName name)]
      else inv.map (fun it => fold it.name) := by
  have e : ∀ l : List Item, l.map (fun it => fold it.name) = (l.map (·.name)).map fold := by
    intro l
    simp [List.map_map, Function.comp_def]
  rw [e, e, names_addItemInv]
  split <;> simp

theorem hasEntry_addItemInv_of_hasEntry {inv : List Item} {n : Str} (name : Str) (q : Int)
    (h : hasEntry inv n = true) : hasEntry (addItemInv inv name q) n = true := by
  rw [hasEntry_iff_mem] at h ⊢
  rw [foldNames_addItemInv]
  split
  · exact List.mem_append_left _ h
  · exact h

theorem hasEntry_addItemInv_of_ne {inv : List Item} {n name : Str} (q : Int)
    (hfit : name.length < MAX_NAME_LEN) (hne : fold name ≠ fold n) :
    hasEntry (addItemInv inv name q) n = hasEntry inv n := by
  rw [Bool.eq_iff_iff, hasEntry_iff_mem, hasEntry_iff_mem, foldNames_addItemInv]
  split
  · rw [copyName_of_short hfit, List.mem_append]
    simp only [List.mem_singleton]
    constructor
    · rintro (h | h)
      · exact h
      · exact absurd h.symm hne
    · exact Or.inl
  · exact Iff.rfl

theorem length_addItemInv (inv : List Item) (name : Str) (q : Int) :
    (addItemInv inv name q).length =
      if hasEntry inv name = false ∧ inv.length < MAX_INGREDIENTS then inv.length + 1
      else inv.length := by
  have := congrArg List.length (names_addItemInv inv name q)
  rw [List.length_map] at this
  rw [this]
  split <;> simp

/-- Adding never lowers a total when the quantity added is not negative. -/
theorem totalOf_addItemInv_ge (inv : List Item) (name : Str) (q : Int) (hq : 0 ≤ q) (n : Str) :
    totalOf inv n ≤ totalOf (addItemInv inv name q) n := by
  unfold addItemInv
  cases hl : addLoop inv name q with
  | some inv' =>
    simp only
    rw [totalOf_addLoop n hl]
    split <;> omega
  | none =>
    simp only
    split
    · rw [totalOf_append_single]
      by_cases he : hasEntry inv n = true
      · simp [he]
      · simp only [Bool.not_eq_true] at he
        rw [totalOf_of_not_hasEntry he]
        simp only [he, Bool.false_eq_true, if_false]
        split
        · exact hq
        · exact le_refl 0
    · exact le_refl _

/-- Adding entries with pairwise different names that fit in the buffer, when
there is room for those that have no entry yet, raises each total by the
quantity listed for it. -/
theorem totalOf_addFold (es : List (Int × Str)) (inv : List Item)
    (hnd : (es.map (fun e => fold e.2)).Nodup)
    (hfit : ∀ e ∈ es, e.2.length < MAX_NAME_LEN)
    (hroom : inv.length + (es.filter (fun e => !hasEntry inv e.2)).length ≤ MAX_INGREDIENTS)
    (n : Str) :
    totalOf (es.foldl (fun inv e => addItemInv inv e.2 e.1) inv) n =
      totalOf inv n + ((es.filter (fun e => decide (fold e.2 = fold n))).map (·.1)).sum := by
  induction es generalizing inv with
  | nil => simp
  | cons e rest ih =>
    rw [List.map_cons, List.nodup_cons] at hnd
    have hefit := hfit e (by simp)
    have hne : ∀ r ∈ rest, fold e.2 ≠ fold r.2 := by
      intro r hr h
      apply hnd.1
      rw [h]
      exact List.mem_map_of_mem (fun e => fold e.2) hr
    have hfilter : rest.filter (fun r => !hasEntry (addItemInv inv e.2 e.1) r.2) =
        rest.filter (fun r => !hasEntry inv r.2) := by
      apply List.filter_congr
      intro r hr
      rw [hasEntry_addItemInv_of_ne e.1 hefit (hne r hr)]
    have hcan : canAdd inv e.2 := by
      by_cases he : hasEntry inv e.2 = true
      · exact Or.inl he
      · right
        simp only [Bool.not_eq_true] at he
        simp only [List.filter_cons, he, Bool.not_false, if_true, List.length_cons] at hroom
        exact ⟨by omega, hefit⟩
    have hroom' : (addItemInv inv e.2 e.1).length +
        (rest.filter (fun r => !hasEntry (addItemInv inv e.2 e.1) r.2)).length ≤
          MAX_INGREDIENTS := by
      rw [hfilter, length_addItemInv]
      by_cases he : hasEntry inv e.2 = true
      · simp only [List.filter_cons, he, Bool.not_true, Bool.false_eq_true, if_false] at hroom
        simp only [he, Bool.true_eq_false, false_and, if_false]
        exact hroom
      · simp only [Bool.not_eq_true] at he
        simp only [List.filter_cons, he, Bool.not_false, if_true, List.length_cons] at hroom
        split <;> omega
    rw [List.foldl_cons, ih _ hnd.2 (fun x hx => hfit x (by simp [hx])) hroom',
      totalOf_addItemInv inv e.2 e.1 n hcan]
    by_cases hn : fold e.2 = fold n
    · simp [List.filter_cons, hn]
      omega
    · simp [List.filter_cons, hn]

theorem hasEntry_addFold_of_hasEntry (es : List (Int × Str)) {inv : List Item} {n : Str}
    (h : hasEntry inv n = true) :
    hasEntry (es.foldl (fun inv e => addItemInv inv e.2 e.1) inv) n = true := by
  induction es generalizing inv with
  | nil => exact h
  | cons e rest ih =>
    rw [List.foldl_cons]
    exact ih (hasEntry_addItemInv_of_hasEntry e.2 e.1 h)

theorem sum_pairs_of_not_mem (es : List (Int × Str)) (n : Str)
    (h : fold n ∉ es.map (fun e => fold e.2)) :
    ((es.filter (fun e => decide (fold e.2 = fold n))).map (·.1)).sum = 0 := by
  induction es with
  | nil => rfl
  | cons c rest ih =>
    simp only [List.map_cons, List.mem_cons, not_or] at h
    have hc : ¬ fold c.2 = fold n := fun e => h.1 e.symm
    simp [List.filter_cons, hc, ih h.2]

theorem sum_pairs_of_mem_nodup (es : List (Int × Str)) (c : Int × Str) (hc : c ∈ es)
    (hnd : (es.map (fun e => fold e.2)).Nodup) :
    ((es.filter (fun x => decide (fold x.2 = fold c.2))).map (·.1)).sum = c.1 := by
  induction es with
  | nil => cases hc
  | cons x rest ih =>
    rw [List.map_cons, List.nodup_cons] at hnd
    rcases List.mem_cons.1 hc with rfl | hc'
    · have := sum_pairs_of_not_mem rest c.2 hnd.1
      simp [List.filter_cons, this]
    · have hne : ¬ fold x.2 = fold c.2 := by
        intro e
        apply hnd.1
        rw [e]
        exact List.mem_map_of_mem (fun e => fold e.2) hc'
      simp [List.filter_cons, hne, ih hc' hnd.2]

/-! ## Lemmas on the trade handler -/

theorem step_trade (slotOrder : List Item → List Item) (s : State) (input : Str)
    (hq : endsWithQuestionMark input = false)
    (hp : strncmpEq input "Geralt trades ".toList 14 = true) :
    step slotOrder s input = some (reportInvalid (processTrade s input)) := by
  have e := input_of_strncmpEq hp rfl
  generalize input.drop 14 = rest at e
  subst e
  have h1 : strncmpEq ("Geralt trades ".toList ++ rest) "Geralt loots".toList 12 = false := rfl
  have h2 : strncmpEq ("Geralt trades ".toList ++ rest) "Geralt trades".toList 13 = true := rfl
  unfold step
  simp only [hq, h1, h2, Bool.false_eq_true, if_false, if_true]

theorem processTrade_eq (s : State) (input : Str)
    (hp : strncmpEq input "Geralt trades ".toList 14 = true) :
    processTrade s input =
      match tradeParts input with
      | none => ⟨false, s, []⟩
      | some (trophyPart, ingredientPart) =>
        match trophyLoop s (strtok trophyPart) with
        | .malformed => ⟨false, s, []⟩
        | .notEnough => ⟨true, s, "Not enough trophies\n".toList⟩
        | .held tempTrophies =>
          match addEntries s (strtok ingredientPart) with
          | (false, s') => ⟨false, s', []⟩
          | (true, s') => ⟨true, removeAll s' tempTrophies, "Trade successful\n".toList⟩ := by
  unfold processTrade tradeParts
  simp only [hp, Bool.not_true, Bool.false_eq_true, if_false]
  cases strstr (trim (input.drop 14)) "for".toList <;> rfl

theorem trophyLoop_held {s : State} {toks : List Str} {temp : List Item}
    (h : trophyLoop s toks = .held temp) :
    temp = (toks.filterMap (fun t => sscanf_d_line (trim t))).map
        (fun t => ⟨copyName t.2, t.1⟩) ∧
      ∀ t ∈ toks.filterMap (fun t => sscanf_d_line (trim t)), hasEnoughItem s t.2 t.1 = true := by
  induction toks generalizing temp with
  | nil =>
    simp only [trophyLoop, TrophyCheck.held.injEq] at h
    subst h
    simp
  | cons tok rest ih =>
    unfold trophyLoop at h
    cases hs : sscanf_d_line (trim tok) with
    | none => simp [hs] at h
    | some p =>
      obtain ⟨qty, name⟩ := p
      simp only [hs] at h
      by_cases hq : qty ≤ 0
      · simp [hq] at h
      · by_cases he : hasEnoughItem s name qty = true
        · simp only [hq, if_false, he, Bool.not_true, Bool.false_eq_true] at h
          cases hr : trophyLoop s rest with
          | malformed => simp [hr] at h
          | notEnough => simp [hr] at h
          | held temp' =>
            simp only [hr, TrophyCheck.held.injEq] at h
            obtain ⟨h1, h2⟩ := ih hr
            subst h
            refine ⟨?_, ?_⟩
            · simp only [List.filterMap_cons, hs, List.map_cons, h1]
            · intro t ht
              simp only [List.filterMap_cons, hs, List.mem_cons] at ht
              rcases ht with rfl | ht
              · exact he
              · exact h2 t ht
        · simp [hq, he] at h

theorem wellFormedEntries_of_addEntries {s s' : State} {toks : List Str}
    (h : addEntries s toks = (true, s')) : wellFormedEntries toks = true := by
  induction toks generalizing s with
  | nil => rfl
  | cons t rest ih =>
    rw [wellFormedEntries_cons]
    unfold addEntries at h
    cases hs : sscanf_d_s (trim t) with
    | none => simp [hs] at h
    | some p =>
      obtain ⟨q, name⟩ := p
      simp only [hs] at h
      by_cases hq : q ≤ 0
      · simp [hq] at h
      · simp only [hq, if_false] at h
        have hq' : 0 < q := by omega
        simp [hq', ih h]

/-- Whatever the entry loop returns, it has lowered no total. -/
theorem totalOf_addEntries_ge (s : State) (toks : List Str) (n : Str) :
    totalOf s.inventory n ≤ totalOf (addEntries s toks).2.inventory n := by
  induction toks generalizing s with
  | nil => exact le_refl _
  | cons t rest ih =>
    unfold addEntries
    cases hs : sscanf_d_s (trim t) with
    | none => exact le_refl _
    | some p =>
      obtain ⟨q, name⟩ := p
      simp only
      by_cases hq : q ≤ 0
      · simp only [hq, if_true]
        exact le_refl _
      · simp only [hq, if_false]
        refine le_trans ?_ (ih (addItem s name q))
        exact totalOf_addItemInv_ge s.inventory name q (by omega) n

theorem trophyLoop_notEnough (s : State) (toks : List Str)
    (hw : wellFormedTrophies (toks.map trim) = true)
    (hs : someTrophyShort s (toks.map trim) = true) :
    trophyLoop s toks = .notEnough := by
  induction toks with
  | nil => simp [someTrophyShort] at hs
  | cons t rest ih =>
    simp only [wellFormedTrophies, List.map_cons, List.all_cons, Bool.and_eq_true] at hw
    simp only [someTrophyShort, List.map_cons, List.any_cons, Bool.or_eq_true] at hs
    obtain ⟨hw1, hw2⟩ := hw
    unfold trophyLoop
    cases hsc : sscanf_d_line (trim t) with
    | none => simp [hsc] at hw1
    | some p =>
      obtain ⟨qty, name⟩ := p
      simp only [hsc, decide_eq_true_eq] at hw1
      have hq : ¬ qty ≤ 0 := by omega
      simp only [hq, if_false]
      by_cases he : hasEnoughItem s name qty = true
      · simp only [he, Bool.not_true, Bool.false_eq_true, if_false]
        have hrest : someTrophyShort s (rest.map trim) = true := by
          rcases hs with h | h
          · simp [hsc, he] at h
          · exact h
        rw [ih hw2 hrest]
      · simp [he]

/-! ## Lemmas on the encounter handler -/

theorem step_encounter (slotOrder : List Item → List Item) (s : State) (input : Str)
    (hq : endsWithQuestionMark input = false)
    (hp : strncmpEq input "Geralt encounters a ".toList 20 = true) :
    step slotOrder s input = some (reportInvalid (processEncounter s input)) := by
  have e := input_of_strncmpEq hp rfl
  generalize input.drop 20 = rest at e
  subst e
  have h1 : strncmpEq ("Geralt encounters a ".toList ++ rest) "Geralt loots".toList 12 = false :=
    rfl
  have h2 : strncmpEq ("Geralt encounters a ".toList ++ rest) "Geralt trades".toList 13 = false :=
    rfl
  have h3 : strncmpEq ("Geralt encounters a ".toList ++ rest) "Geralt brews".toList 12 = false :=
    rfl
  have h4 : strncmpEq ("Geralt encounters a ".toList ++ rest) "Geralt learns".toList 13 = false :=
    rfl
  have h5 : strncmpEq ("Geralt encounters a ".toList ++ rest) "Geralt encounters a".toList 19
      = true := rfl
  unfold step
  simp only [hq, h1, h2, h3, h4, h5, Bool.false_eq_true, if_false, if_true]

theorem defeats_ne_unprepared (M : Str) :
    "Geralt defeats ".toList ++ M ++ "\n".toList ≠
      "Geralt is unprepared and barely escapes with his life\n".toList := by
  intro h
  have h8 := congrArg (List.take 8) h
  have hl : List.take 8 ("Geralt defeats ".toList ++ M ++ "\n".toList) = "Geralt d".toList := rfl
  rw [hl] at h8
  exact absurd h8 (by decide)

theorem processEncounter_eq (s : State) (input : Str)
    (hp : strncmpEq input "Geralt encounters a ".toList 20 = true) :
    processEncounter s input =
      if unprepared s (trim (input.drop 20)) then
        ⟨true, s, "Geralt is unprepared and barely escapes with his life\n".toList⟩
      else
        ⟨true, addItem (match potionUsed s (trim (input.drop 20)) with
            | some p => removeItem s p 1
            | none => s)
            ((trim (input.drop 20) ++ " trophy".toList).take (MAX_NAME_LEN - 1)) 1,
          "Geralt defeats ".toList ++ trim (input.drop 20) ++ "\n".toList⟩ := by
  unfold processEncounter
  simp only [hp, Bool.not_true, Bool.false_eq_true, if_false]
  generalize trim (input.drop 20) = M
  cases hfm : findMonster s.bestiary M with
  | none =>
    have hun : unprepared s M := by
      unfold unprepared
      rw [hfm]
      trivial
    rw [if_pos hun]
  | some e =>
    have hpu : potionUsed s M =
        if (decide (e.effectivePotion.length > 0) && hasEnoughItem s e.effectivePotion 1) = true
        then some e.effectivePotion else none := by
      unfold potionUsed
      rw [hfm]
    have hun : unprepared s M ↔ (e.effectiveSign.length = 0 ∧
        ¬ (e.effectivePotion.length > 0 ∧ hasEnoughItem s e.effectivePotion 1 = true)) := by
      unfold unprepared
      rw [hfm]
    simp only
    by_cases hpot : (decide (e.effectivePotion.length > 0) &&
        hasEnoughItem s e.effectivePotion 1) = true
    · have hpot' := hpot
      simp only [Bool.and_eq_true, decide_eq_true_eq] at hpot'
      have hnu : ¬ unprepared s M := fun h => (hun.1 h).2 hpot'
      rw [if_neg hnu, hpu]
      simp only [hpot, if_true, Bool.or_true, Bool.not_true, Bool.false_eq_true, if_false]
    · by_cases hsign : e.effectiveSign.length = 0
      · have hpot' := hpot
        simp only [Bool.and_eq_true, decide_eq_true_eq] at hpot'
        have hu : unprepared s M := hun.2 ⟨hsign, hpot'⟩
        simp only [Bool.not_eq_true] at hpot
        rw [if_pos hu]
        simp [hsign, hpot]
      · have hnu : ¬ unprepared s M := fun h => hsign (hun.1 h).1
        have hsign' : e.effectiveSign.length > 0 := Nat.pos_of_ne_zero hsign
        simp only [Bool.not_eq_true] at hpot
        rw [if_neg hnu, hpu]
        simp [hsign', hpot]

theorem potionUsed_held {s : State} {M p : Str} (h : p ∈ potionUsed s M) :
    hasEnoughInv s.inventory p 1 = true := by
  unfold potionUsed at h
  cases hfm : findMonster s.bestiary M with
  | none => simp [hfm] at h
  | some e =>
    simp only [hfm] at h
    split at h
    · rename_i hc
      simp only [Option.mem_def, Option.some.injEq] at h
      subst h
      simp only [Bool.and_eq_true] at hc
      exact hc.2
    · simp at h

/-! ## Lemmas on the learn handler -/

theorem step_learn (slotOrder : List Item → List Item) (s : State) (input : Str)
    (hq : endsWithQuestionMark input = false)
    (hp : strncmpEq input "Geralt learns ".toList 14 = true) :
    step slotOrder s input = some (reportInvalid (processLearn s input)) := by
  have e := input_of_strncmpEq hp rfl
  generalize input.drop 14 = rest at e
  subst e
  have h1 : strncmpEq ("Geralt learns ".toList ++ rest) "Geralt loots".toList 12 = false := rfl
  have h2 : strncmpEq ("Geralt learns ".toList ++ rest) "Geralt trades".toList 13 = false := rfl
  have h3 : strncmpEq ("Geralt learns ".toList ++ rest) "Geralt brews".toList 12 = false := rfl
  have h4 : strncmpEq ("Geralt learns ".toList ++ rest) "Geralt learns".toList 13 = true := rfl
  unfold step
  simp only [hq, h1, h2, h3, h4, Bool.false_eq_true, if_false, if_true]

theorem scan_s_nonempty {s w r : Str} (h : scan_s s = some (w, r)) : w ≠ [] := by
  unfold scan_s at h
  simp only at h
  split at h
  · cases h
  · rename_i hne
    simp only [Option.some.injEq, Prod.mk.injEq] at h
    rw [← h.1]
    simpa using hne

theorem sscanf_s_s_nonempty {text a b : Str} (h : sscanf_s_s text = some (a, b)) : a ≠ [] := by
  unfold sscanf_s_s at h
  cases h1 : scan_s text with
  | none => simp [h1] at h
  | some p =>
    obtain ⟨w, r⟩ := p
    simp only [h1] at h
    cases h2 : scan_s r with
    | none => simp [h2] at h
    | some p2 =>
      simp only [h2, Option.some.injEq, Prod.mk.injEq] at h
      rw [← h.1]
      exact scan_s_nonempty h1

theorem copyName_copyName (x : Str) : copyName (copyName x) = copyName x := by
  unfold copyName
  rw [List.take_take]
  simp

theorem updateEntry_spec (f : BestiaryEntry → BestiaryEntry) {b : List BestiaryEntry}
    {enemy : Str} {e : BestiaryEntry} (h : findMonster b enemy = some e) :
    ∃ pre post, b = pre ++ e :: post ∧ (∀ x ∈ pre, strcasecmp x.monsterName enemy ≠ 0) ∧
      updateEntry f b enemy = pre ++ f e :: post := by
  induction b with
  | nil => simp [findMonster] at h
  | cons x rest ih =>
    by_cases hx : strcasecmp x.monsterName enemy = 0
    · simp only [findMonster, hx, if_true, Option.some.injEq] at h
      subst h
      exact ⟨[], rest, rfl, by simp, by simp [updateEntry, hx]⟩
    · simp only [findMonster, hx, if_false] at h
      obtain ⟨pre, post, h1, h2, h3⟩ := ih h
      refine ⟨x :: pre, post, by rw [h1]; rfl, ?_, ?_⟩
      · intro y hy
        rcases List.mem_cons.1 hy with rfl | hy
        · exact hx
        · exact h2 y hy
      · simp only [updateEntry, hx, if_false, h3, List.cons_append]

theorem fold_eq_nil {x : Str} (h : fold x = []) : x = [] := by
  unfold fold at h
  simpa using h

theorem length_pos_of_strcasecmp {slot counter : Str} (hc : counter ≠ [])
    (h : strcasecmp slot counter = 0) : slot.length > 0 := by
  rw [strcasecmp_eq_zero_iff] at h
  apply List.length_pos.2
  intro hs
  subst hs
  exact hc (fold_eq_nil h.symm)

/-- What the effectiveness form does once counter, kind and enemy are read. -/
theorem learnEffectiveness_eq (s : State) (left right : Str) (counter kind : Str)
    (hscan : sscanf_s_s left = some (counter, kind)) (hfit : counter.length < MAX_NAME_LEN) :
    learnEffectiveness s left right =
      if strcasecmp kind "sign".toList = 0 ∨ strcasecmp kind "potion".toList = 0 then
        match findMonster s.bestiary (copyName (trim right)) with
        | none =>
          if s.bestiary.length < MAX_BESTIARY then
            ⟨true, ⟨s.inventory, s.formulaBook, s.bestiary ++
              [newEntry (decide (strcasecmp kind "sign".toList = 0)) (copyName (trim right)) counter]⟩,
              "New bestiary entry added: ".toList ++ copyName (trim right) ++ "\n".toList⟩
          else ⟨true, s, []⟩
        | some e =>
          if strcasecmp (slotOf (decide (strcasecmp kind "sign".toList = 0)) e) counter = 0 then
            ⟨true, s, "Already known effectiveness\n".toList⟩
          else
            ⟨true, ⟨s.inventory, s.formulaBook,
              updateEntry (fun x => withSlot (decide (strcasecmp kind "sign".toList = 0)) x counter)
                s.bestiary (copyName (trim right))⟩,
              "Bestiary entry updated: ".toList ++ copyName (trim right) ++ "\n".toList⟩
      else ⟨true, s, "INVALID\n".toList⟩ := by
  have hc : counter ≠ [] := sscanf_s_s_nonempty hscan
  unfold learnEffectiveness
  simp only [hscan, copyName_copyName, copyName_of_short hfit]
  generalize copyName (trim right) = enemy
  by_cases hsign : strcasecmp kind "sign".toList = 0
  · simp only [hsign, decide_True, Bool.not_true, Bool.false_and, Bool.false_eq_true, if_false,
      true_or, if_true, newEntry, slotOf, withSlot]
    cases findMonster s.bestiary enemy with
    | none => rfl
    | some e =>
      simp only
      by_cases hk : strcasecmp e.effectiveSign counter = 0
      · have := length_pos_of_strcasecmp hc hk
        simp [hk, this]
      · simp [hk]
  · by_cases hpot : strcasecmp kind "potion".toList = 0
    · simp only [hsign, hpot, decide_False, decide_True, Bool.not_false, Bool.not_true,
        Bool.and_false, Bool.false_eq_true, if_false, or_true, if_true, newEntry, slotOf, withSlot]
      cases findMonster s.bestiary enemy with
      | none => rfl
      | some e =>
        simp only
        by_cases hk : strcasecmp e.effectivePotion counter = 0
        · have := length_pos_of_strcasecmp hc hk
          simp [hk, this]
        · simp [hk]
    · simp only [hsign, hpot, decide_False, Bool.not_false, Bool.and_self, if_true, or_self,
        if_false]

theorem processLearn_of_parse (s : State) (input : Str) (counter kind enemy : Str)
    (hp : strncmpEq input "Geralt learns ".toList 14 = true)
    (hparse : learnParse input = some (counter, kind, enemy)) :
    ∃ left right, sscanf_s_s left = some (counter, kind) ∧ enemy = copyName (trim right) ∧
      processLearn s input = learnEffectiveness s left right := by
  unfold learnParse at hparse
  unfold processLearn
  simp only [hp, Bool.not_true, Bool.false_eq_true, if_false]
  cases hpos : strstr (trim (input.drop 14)) "is effective against".toList with
  | none =>
    rw [hpos] at hparse
    cases hparse
  | some pos =>
    simp only [hpos] at hparse ⊢
    cases hsc : sscanf_s_s ((trim (input.drop 14)).take pos) with
    | none =>
      rw [hsc] at hparse
      cases hparse
    | some p =>
      obtain ⟨c, k⟩ := p
      simp only [hsc, Option.some.injEq, Prod.mk.injEq] at hparse
      obtain ⟨rfl, rfl, rfl⟩ := hparse
      exact ⟨_, _, hsc, rfl, rfl⟩

/-! ## Lemmas on the text of the learn line and of the effectiveness query -/

theorem isWord_spec {X : Str} (h : isWord X = true) :
    X ≠ [] ∧ (∀ c ∈ X, isspace c = false) ∧ X.length < 64 := by
  unfold isWord at h
  simp only [Bool.and_eq_true, Bool.not_eq_true', List.isEmpty_eq_false, List.all_eq_true,
    decide_eq_true_eq] at h
  exact ⟨h.1.1, h.1.2, h.2⟩

theorem isEnemyName_spec {Y : Str} (h : isEnemyName Y = true) :
    (∃ m b, Y = m ++ [b] ∧ isspace b = false ∧ b ≠ '?') ∧ isspace (Y.headD ' ') = false ∧
      (∀ c ∈ Y, c ≠ '?') ∧ Y.length < 64 := by
  unfold isEnemyName at h
  simp only [Bool.and_eq_true, Bool.not_eq_true', List.all_eq_true, decide_eq_true_eq,
    bne_iff_ne, ne_eq] at h
  obtain ⟨⟨⟨h1, h2⟩, h3⟩, h4⟩ := h
  refine ⟨?_, h1, h3, h4⟩
  induction Y using List.reverseRecOn with
  | nil => exact absurd h1 (by decide)
  | append_singleton m b _ =>
    rw [List.getLastD_concat] at h2
    exact ⟨m, b, rfl, h2, h3 b (by simp)⟩

theorem trim_of_ends (a b : Char) (m : Str) (ha : isspace a = false) (hb : isspace b = false) :
    trim (a :: (m ++ [b])) = a :: (m ++ [b]) :=
  trim_cons_concat a b m ha hb

theorem startsWith_effective_word (X R : Str) (hne : X ≠ [])
    (hX : ∀ c ∈ X, isspace c = false) :
    startsWith "is effective against".toList
      (X ++ (" potion is effective against ".toList ++ R)) = false := by
  cases X with
  | nil => exact absurd rfl hne
  | cons a X1 =>
    cases X1 with
    | nil =>
      show ('i' == a && false) = false
      simp
    | cons b X2 =>
      cases X2 with
      | nil =>
        show ('i' == a && ('s' == b && false)) = false
        simp
      | cons c X3 =>
        have hc : isspace c = false := hX c (by simp)
        have hc' : (' ' == c) = false := by
          rw [beq_eq_false_iff_ne]
          intro e
          rw [← e] at hc
          exact absurd hc (by decide)
        show ('i' == a && ('s' == b && (' ' == c && _))) = false
        simp [hc']

theorem strstr_effective_word (X R : Str) (hX : ∀ c ∈ X, isspace c = false) :
    strstr (X ++ (" potion is effective against ".toList ++ R)) "is effective against".toList =
      some (X.length + 8) := by
  induction X with
  | nil => rfl
  | cons a X1 ih =>
    have hs := startsWith_effective_word (a :: X1) R (by simp) hX
    rw [List.cons_append] at hs ⊢
    unfold strstr
    rw [hs]
    simp only [Bool.false_eq_true, if_false]
    rw [ih (fun c hc => hX c (by simp [hc]))]
    simp only [Option.map_some', List.length_cons, Option.some.injEq]

theorem scan_s_word (X rest : Str) (hne : X ≠ []) (hX : ∀ c ∈ X, isspace c = false) :
    scan_s (X ++ ' ' :: rest) = some (X, ' ' :: rest) := by
  unfold scan_s
  have hd : (X ++ ' ' :: rest).dropWhile isspace = X ++ ' ' :: rest := by
    cases X with
    | nil => exact absurd rfl hne
    | cons a X1 =>
      rw [List.cons_append, List.dropWhile_cons_of_neg]
      simp [hX a (by simp)]
  simp only [hd]
  have ht : (X ++ ' ' :: rest).takeWhile (fun c => !isspace c) = X := by
    rw [List.takeWhile_append_of_pos (by simpa using hX)]
    simp
    rfl
  have hdr : (X ++ ' ' :: rest).dropWhile (fun c => !isspace c) = ' ' :: rest := by
    rw [List.dropWhile_append_of_pos (by simpa using hX)]
    rw [List.dropWhile_cons_of_neg]
    simp
    rfl
  rw [ht, hdr]
  cases X with
  | nil => exact absurd rfl hne
  | cons a X1 => rfl

theorem sscanf_s_s_word_potion (X : Str) (hne : X ≠ []) (hX : ∀ c ∈ X, isspace c = false) :
    sscanf_s_s (X ++ " potion ".toList) = some (X, "potion".toList) := by
  unfold sscanf_s_s
  have h : X ++ " potion ".toList = X ++ ' ' :: "potion ".toList := rfl
  rw [h, scan_s_word X _ hne hX]
  rfl

theorem trim_enemy {Y : Str} (h : isEnemyName Y = true) : trim Y = Y := by
  obtain ⟨⟨m, b, rfl, hb, _⟩, hh, _, _⟩ := isEnemyName_spec h
  cases m with
  | nil =>
    unfold trim
    simp [List.rdropWhile_singleton, hb]
  | cons a m1 => exact trim_cons_concat a b m1 hh hb

theorem endsWithQuestionMark_learnLine (X Y : Str) (hY : isEnemyName Y = true) :
    endsWithQuestionMark (learnLine X Y) = false := by
  obtain ⟨⟨m, b, rfl, hb, hb2⟩, _, _, _⟩ := isEnemyName_spec hY
  have e : learnLine X (m ++ [b]) =
      ("Geralt learns ".toList ++ (X ++ (" potion is effective against ".toList ++ m))) ++ [b] := by
    unfold learnLine
    simp only [List.append_assoc]
  rw [e]
  unfold endsWithQuestionMark
  rw [List.rdropWhile_concat_neg _ _ _ (by simp [hb]), List.getLast?_concat]
  simpa using hb2

theorem learnParse_learnLine (X Y : Str) (hX : isWord X = true) (hY : isEnemyName Y = true) :
    learnParse (learnLine X Y) = some (X, "potion".toList, Y) := by
  obtain ⟨hne, hsp, _⟩ := isWord_spec hX
  obtain ⟨⟨m, b, hYeq, hb, _⟩, _, _, hlen⟩ := isEnemyName_spec hY
  have hdrop : (learnLine X Y).drop 14 = X ++ (" potion is effective against ".toList ++ Y) := rfl
  have htrim : trim (X ++ (" potion is effective against ".toList ++ Y)) =
      X ++ (" potion is effective against ".toList ++ Y) := by
    cases X with
    | nil => exact absurd rfl hne
    | cons a X1 =>
      rw [hYeq]
      have e : (a :: X1) ++ (" potion is effective against ".toList ++ (m ++ [b])) =
          a :: ((X1 ++ (" potion is effective against ".toList ++ m)) ++ [b]) := by
        simp only [List.cons_append, List.append_assoc]
      rw [e]
      exact trim_cons_concat a b _ (hsp a (by simp)) hb
  have htake : (X ++ (" potion is effective against ".toList ++ Y)).take (X.length + 8) =
      X ++ " potion ".toList := by
    rw [List.take_append]
    rfl
  have hdrop2 : (X ++ (" potion is effective against ".toList ++ Y)).drop (X.length + 8 + 20) =
      ' ' :: Y := by
    rw [Nat.add_assoc, List.drop_append]
    rfl
  have htrimY : trim (' ' :: Y) = Y := by
    have : trim (' ' :: Y) = trim Y := by
      unfold trim
      rw [List.dropWhile_cons_of_pos (by decide)]
    rw [this, trim_enemy hY]
  unfold learnParse
  rw [hdrop, htrim, strstr_effective_word X Y hsp]
  simp only [htake, sscanf_s_s_word_potion X hne hsp, hdrop2, htrimY]
  rw [copyName_of_short (by simpa using hlen)]

theorem copyName_query (Y : Str) (hq : ∀ c ∈ Y, c ≠ '?') (hlen : Y.length < 64) :
    cutAt '?' (copyName (Y ++ ['?'])) = Y := by
  unfold copyName
  rw [List.take_append_eq_append_take]
  have h63 : MAX_NAME_LEN - 1 = 63 := rfl
  rw [h63, List.take_of_length_le (by omega)]
  rcases Nat.lt_or_ge Y.length 63 with h | h
  · have e : ['?'].take (63 - Y.length) = ['?'] := by
      apply List.take_of_length_le
      simp only [List.length_singleton]
      omega
    rw [e]
    exact cutAt_append_cons '?' Y [] hq
  · have e : 63 - Y.length = 0 := by omega
    rw [e, List.take_zero, List.append_nil]
    exact cutAt_of_not_mem '?' Y hq

/-- The effectiveness query for a monster whose entry has its potion slot set
reports that potion. -/
theorem step_effectiveQuery (slotOrder : List Item → List Item) (s : State) (Y : Str)
    (e : BestiaryEntry) (hY : isEnemyName Y = true)
    (hfm : findMonster s.bestiary Y = some e)
    (hpot : e.effectivePotion ≠ []) (hfit : e.effectivePotion.length < MAX_NAME_LEN) :
    ∃ out, step slotOrder s (effectiveQuery Y) = some (s, out) ∧
      (out = e.effectivePotion ++ "\n".toList ∨
        ∃ S, out = e.effectivePotion ++ ", ".toList ++ S ++ "\n".toList ∨
          out = S ++ ", ".toList ++ e.effectivePotion ++ "\n".toList) := by
  obtain ⟨_, _, hq, hlen⟩ := isEnemyName_spec hY
  have hQ : effectiveQuery Y = 'W' :: (("hat is effective against ".toList ++ Y) ++ ['?']) := by
    unfold effectiveQuery
    simp only [List.append_assoc]
    rfl
  have hend : endsWithQuestionMark (effectiveQuery Y) = true := by
    rw [hQ, ← List.cons_append]
    exact endsWithQuestionMark_concat _
  have htrim : trim (effectiveQuery Y) = "What is effective against ".toList ++ (Y ++ ['?']) := by
    rw [hQ, trim_cons_concat _ _ _ (by decide) (by decide)]
    simp only [List.append_assoc]
    rfl
  have hpre : strncasecmpEq ("What is effective against ".toList ++ (Y ++ ['?']))
      "What is effective against".toList 25 = true := rfl
  have hmon : trim (cutAt '?' (copyName
      (("What is effective against ".toList ++ (Y ++ ['?'])).drop 26))) = Y := by
    have hd : ("What is effective against ".toList ++ (Y ++ ['?'])).drop 26 = Y ++ ['?'] := rfl
    rw [hd, copyName_query Y hq hlen, trim_enemy hY]
  have hposlen : e.effectivePotion.length > 0 := List.length_pos.2 hpot
  unfold step
  rw [hend]
  simp only [if_true]
  unfold processQuery
  rw [htrim]
  simp only [hpre, if_true, reportInvalid, queryEffective, hmon, hfm, hposlen,
    copyName_of_short hfit, List.singleton_append]
  by_cases hs : e.effectiveSign.length > 0
  · simp only [hs, if_true]
    by_cases hc : strcasecmp e.effectivePotion (copyName e.effectiveSign) > 0
    · simp only [hc, if_true]
      exact ⟨_, rfl, Or.inr ⟨copyName e.effectiveSign, Or.inr rfl⟩⟩
    · simp only [hc, if_false]
      exact ⟨_, rfl, Or.inr ⟨copyName e.effectiveSign, Or.inl rfl⟩⟩
  · simp only [hs, if_false]
    exact ⟨_, rfl, Or.inl rfl⟩

theorem findMonster_append_new {b : List BestiaryEntry} {Y : Str} (x : BestiaryEntry)
    (h : findMonster b Y = none) (hx : strcasecmp x.monsterName Y = 0) :
    findMonster (b ++ [x]) Y = some x := by
  induction b with
  | nil => simp [findMonster, hx]
  | cons y rest ih =>
    by_cases hy : strcasecmp y.monsterName Y = 0
    · simp [findMonster, hy] at h
    · simp only [findMonster, hy, if_false] at h
      rw [List.cons_append]
      simp only [findMonster, hy, if_false]
      exact ih h

theorem findMonster_split {pre post : List BestiaryEntry} {Y : Str} (x : BestiaryEntry)
    (hpre : ∀ y ∈ pre, strcasecmp y.monsterName Y ≠ 0) (hx : strcasecmp x.monsterName Y = 0) :
    findMonster (pre ++ x :: post) Y = some x := by
  induction pre with
  | nil => simp [findMonster, hx]
  | cons y rest ih =>
    have hy := hpre y (by simp)
    simp only [List.cons_append, findMonster, hy, if_false]
    exact ih (fun z hz => hpre z (by simp [hz]))

theorem findMonster_name {b : List BestiaryEntry} {Y : Str} {e : BestiaryEntry}
    (h : findMonster b Y = some e) : strcasecmp e.monsterName Y = 0 := by
  induction b with
  | nil => simp [findMonster] at h
  | cons y rest ih =>
    by_cases hy : strcasecmp y.monsterName Y = 0
    · simp only [findMonster, hy, if_true, Option.some.injEq] at h
      rw [← h]
      exact hy
    · simp only [findMonster, hy, if_false] at h
      exact ih h

/-- After the learn line for the potion `X` and the monster `Y`, the first
entry of `Y` holds `X` (up to case) in its potion slot. -/
theorem learnLine_entry (slotOrder : List Item → List Item) (s : State) (X Y : Str)
    (hX : isWord X = true) (hY : isEnemyName Y = true)
    (hroom : (findMonster s.bestiary Y).isSome = true ∨ s.bestiary.length < MAX_BESTIARY) :
    ∃ s1 out1, step slotOrder s (learnLine X Y) = some (s1, out1) ∧
      ∃ e1, findMonster s1.bestiary Y = some e1 ∧ fold e1.effectivePotion = fold X := by
  obtain ⟨_, _, hlen⟩ := isWord_spec hX
  have hfit : X.length < MAX_NAME_LEN := hlen
  have hp : strncmpEq (learnLine X Y) "Geralt learns ".toList 14 = true := rfl
  obtain ⟨left, right, hscan, henemy, hproc⟩ := processLearn_of_parse s (learnLine X Y) X
    "potion".toList Y hp (learnParse_learnLine X Y hX hY)
  have hk : strcasecmp "potion".toList "sign".toList = 0 ∨
      strcasecmp "potion".toList "potion".toList = 0 := Or.inr (by decide)
  have hsign : decide (strcasecmp "potion".toList "sign".toList = 0) = false := by decide
  rw [step_learn slotOrder s (learnLine X Y) (endsWithQuestionMark_learnLine X Y hY) hp, hproc,
    learnEffectiveness_eq s left right X "potion".toList hscan hfit, ← henemy, if_pos hk, hsign]
  cases hfm : findMonster s.bestiary Y with
  | none =>
    have hlt : s.bestiary.length < MAX_BESTIARY := by
      rcases hroom with h | h
      · rw [hfm] at h
        cases h
      · exact h
    dsimp only
    rw [if_pos hlt]
    exact ⟨_, _, rfl, newEntry false Y X, findMonster_append_new _ hfm (strcasecmp_self Y), rfl⟩
  | some e =>
    dsimp only
    by_cases hslot : strcasecmp (slotOf false e) X = 0
    · rw [if_pos hslot]
      exact ⟨_, _, rfl, e, hfm, (strcasecmp_eq_zero_iff _ _).1 hslot⟩
    · rw [if_neg hslot]
      obtain ⟨pre, post, _, hpre, hb⟩ :=
        updateEntry_spec (fun x => withSlot false x X) hfm
      have hname : strcasecmp (withSlot false e X).monsterName Y = 0 := by
        show strcasecmp e.monsterName Y = 0
        exact findMonster_name hfm
      refine ⟨_, _, rfl, withSlot false e X, ?_, rfl⟩
      show findMonster (updateEntry (fun x => withSlot false x X) s.bestiary Y) Y = _
      rw [hb]
      exact findMonster_split _ hpre hname

/-! ## Lemmas on classification -/

theorem fold_length (x : Str) : (fold x).length = x.length := by
  unfold fold
  simp

theorem endsWithTrophy_iff (name : Str) :
    endsWithTrophy name = true ↔ endsWithCI name " trophy".toList := by
  unfold endsWithTrophy endsWithCI
  simp only [Bool.and_eq_true, decide_eq_true_eq, strcasecmp_eq_zero_iff]
  constructor
  · rintro ⟨_, h⟩
    exact ⟨name.take (name.length - 7), name.drop (name.length - 7),
      (List.take_append_drop _ _).symm, h⟩
  · rintro ⟨front, tail, rfl, h⟩
    have hl : tail.length = 7 := by
      have := congrArg List.length h
      rw [fold_length, fold_length] at this
      exact this
    have hlen : (front ++ tail).length - 7 = front.length := by
      rw [List.length_append, hl]
      omega
    refine ⟨?_, ?_⟩
    · rw [List.length_append, hl]
      omega
    · rw [hlen, List.drop_left]
      exact h

theorem matchesFormula_iff (book : List Formula) (name : Str) :
    matchesFormula book name = true ↔ namesFormula book name := by
  unfold matchesFormula namesFormula
  simp only [List.any_eq_true, decide_eq_true_eq]

/-! ## Lemmas on the per-name queries -/

theorem isEnemyName_ne_nil {n : Str} (h : isEnemyName n = true) : n ≠ [] := by
  obtain ⟨⟨m, b, rfl, _, _⟩, _, _, _⟩ := isEnemyName_spec h
  simp

theorem remainder_name (n : Str) (h : isEnemyName n = true) :
    trim (cutAt '?' ((n ++ ['?']).take (MAX_INPUT_LEN - 1))) = n := by
  obtain ⟨_, _, hq, hlen⟩ := isEnemyName_spec h
  rw [List.take_of_length_le (by simp; omega), cutAt_append_cons _ _ _ hq, trim_enemy h]

theorem step_ingredientQuery (slotOrder : List Item → List Item) (s : State) (n : Str)
    (hn : isEnemyName n = true) :
    step slotOrder s (ingredientQuery n) =
      some (s, fmt_d (totalOf s.inventory n) ++ "\n".toList) := by
  have hQ : ingredientQuery n = 'T' :: (("otal ingredient ".toList ++ n) ++ ['?']) := by
    unfold ingredientQuery
    simp only [List.append_assoc]
    rfl
  have hend : endsWithQuestionMark (ingredientQuery n) = true := by
    rw [hQ, ← List.cons_append]
    exact endsWithQuestionMark_concat _
  have htrim : trim (ingredientQuery n) = "Total ingredient ".toList ++ (n ++ ['?']) := by
    rw [hQ, trim_cons_concat _ _ _ (by decide) (by decide)]
    simp only [List.append_assoc]
    rfl
  have hrem : queryRemainder ("Total ingredient ".toList ++ (n ++ ['?'])) 17 = n := by
    unfold queryRemainder
    have hd : ("Total ingredient ".toList ++ (n ++ ['?'])).drop 17 = n ++ ['?'] := rfl
    rw [hd, remainder_name n hn]
  have hpos : n.length > 0 := List.length_pos.2 (isEnemyName_ne_nil hn)
  have h1 : strncasecmpEq ("Total ingredient ".toList ++ (n ++ ['?']))
      "What is effective against".toList 25 = false := rfl
  have h2 : strncasecmpEq ("Total ingredient ".toList ++ (n ++ ['?']))
      "Total ingredient".toList 16 = true := rfl
  unfold step
  rw [hend]
  simp only [if_true]
  unfold processQuery
  rw [htrim]
  simp only [h1, h2, if_true, Bool.false_eq_true, if_false, reportInvalid, queryIngredient, hrem,
    hpos]

theorem step_potionQuery (slotOrder : List Item → List Item) (s : State) (n : Str)
    (hn : isEnemyName n = true) :
    step slotOrder s (potionQuery n) =
      some (s, fmt_d (totalOf s.inventory n) ++ "\n".toList) := by
  have hQ : potionQuery n = 'T' :: (("otal potion ".toList ++ n) ++ ['?']) := by
    unfold potionQuery
    simp only [List.append_assoc]
    rfl
  have hend : endsWithQuestionMark (potionQuery n) = true := by
    rw [hQ, ← List.cons_append]
    exact endsWithQuestionMark_concat _
  have htrim : trim (potionQuery n) = "Total potion ".toList ++ (n ++ ['?']) := by
    rw [hQ, trim_cons_concat _ _ _ (by decide) (by decide)]
    simp only [List.append_assoc]
    rfl
  have hrem : queryRemainder ("Total potion ".toList ++ (n ++ ['?'])) 13 = n := by
    unfold queryRemainder
    have hd : ("Total potion ".toList ++ (n ++ ['?'])).drop 13 = n ++ ['?'] := rfl
    rw [hd, remainder_name n hn]
  have hpos : n.length > 0 := List.length_pos.2 (isEnemyName_ne_nil hn)
  have h1 : strncasecmpEq ("Total potion ".toList ++ (n ++ ['?']))
      "What is effective against".toList 25 = false := rfl
  have h2 : strncasecmpEq ("Total potion ".toList ++ (n ++ ['?']))
      "Total ingredient".toList 16 = false := rfl
  have h3 : strncasecmpEq ("Total potion ".toList ++ (n ++ ['?']))
      "Total potion".toList 12 = true := rfl
  unfold step
  rw [hend]
  simp only [if_true]
  unfold processQuery
  rw [htrim]
  simp only [h1, h2, h3, if_true, Bool.false_eq_true, if_false, reportInvalid, queryPotion, hrem,
    hpos]

theorem step_trophyQuery (slotOrder : List Item → List Item) (s : State) (M : Str)
    (hM : isEnemyName M = true) :
    step slotOrder s (trophyQuery M) =
      some (s, fmt_d (totalOf s.inventory (M.take 42 ++ " trophy".toList)) ++ "\n".toList) := by
  have hQ : trophyQuery M = 'T' :: (("otal trophy ".toList ++ M) ++ ['?']) := by
    unfold trophyQuery
    simp only [List.append_assoc]
    rfl
  have hend : endsWithQuestionMark (trophyQuery M) = true := by
    rw [hQ, ← List.cons_append]
    exact endsWithQuestionMark_concat _
  have htrim : trim (trophyQuery M) = "Total trophy ".toList ++ (M ++ ['?']) := by
    rw [hQ, trim_cons_concat _ _ _ (by decide) (by decide)]
    simp only [List.append_assoc]
    rfl
  have hrem : queryRemainder ("Total trophy ".toList ++ (M ++ ['?'])) 13 = M := by
    unfold queryRemainder
    have hd : ("Total trophy ".toList ++ (M ++ ['?'])).drop 13 = M ++ ['?'] := rfl
    rw [hd, remainder_name M hM]
  have hpos : M.length > 0 := List.length_pos.2 (isEnemyName_ne_nil hM)
  have h1 : strncasecmpEq ("Total trophy ".toList ++ (M ++ ['?']))
      "What is effective against".toList 25 = false := rfl
  have h2 : strncasecmpEq ("Total trophy ".toList ++ (M ++ ['?']))
      "Total ingredient".toList 16 = false := rfl
  have h3 : strncasecmpEq ("Total trophy ".toList ++ (M ++ ['?']))
      "Total potion".toList 12 = false := rfl
  have h4 : strncasecmpEq ("Total trophy ".toList ++ (M ++ ['?']))
      "Total trophy".toList 12 = true := rfl
  unfold step
  rw [hend]
  simp only [if_true]
  unfold processQuery
  rw [htrim]
  simp only [h1, h2, h3, h4, if_true, Bool.false_eq_true, if_false, reportInvalid, queryTrophy,
    hrem, hpos]

theorem totalOf_split {inv front back : List Item} {it : Item} {n : Str}
    (h : inv = front ++ it :: back) (hfront : ∀ x ∈ front, strcasecmp x.name n ≠ 0)
    (hit : strcasecmp it.name n = 0) : totalOf inv n = it.quantity := by
  subst h
  induction front with
  | nil => simp [totalOf, hit]
  | cons x rest ih =>
    have hx := hfront x (by simp)
    rw [List.cons_append]
    simp only [totalOf, hx, if_false]
    exact ih (fun y hy => hfront y (by simp [hy]))

/-! ## Lemmas on the effectiveness query -/

theorem strcasecmp_antisymm {a b : Str} (h : strcasecmp a b > 0) : strcasecmp b a < 0 := by
  induction a generalizing b with
  | nil =>
    cases b with
    | nil => simp [strcasecmp] at h
    | cons y ys => simp [strcasecmp] at h
  | cons x xs ih =>
    cases b with
    | nil => simp [strcasecmp]
    | cons y ys =>
      by_cases hxy : tolower x = tolower y
      · simp only [strcasecmp, hxy, if_true] at h ⊢
        exact ih h
      · have hyx : ¬ tolower y = tolower x := fun e => hxy e.symm
        simp only [strcasecmp, hxy, hyx, if_false] at h ⊢
        omega

theorem findMonster_mem {b : List BestiaryEntry} {Y : Str} {e : BestiaryEntry}
    (h : findMonster b Y = some e) : e ∈ b := by
  induction b with
  | nil => simp [findMonster] at h
  | cons y rest ih =>
    by_cases hy : strcasecmp y.monsterName Y = 0
    · simp only [findMonster, hy, if_true, Option.some.injEq] at h
      rw [← h]
      simp
    · simp only [findMonster, hy, if_false] at h
      exact List.mem_cons_of_mem _ (ih h)

theorem step_effectiveQuery_eq (slotOrder : List Item → List Item) (s : State) (Y : Str)
    (hY : isEnemyName Y = true) :
    step slotOrder s (effectiveQuery Y) =
      some (s, queryEffective s ("What is effective against ".toList ++ (Y ++ ['?']))) ∧
    trim (cutAt '?' (copyName
      (("What is effective against ".toList ++ (Y ++ ['?'])).drop 26))) = Y := by
  obtain ⟨_, _, hq, hlen⟩ := isEnemyName_spec hY
  have hQ : effectiveQuery Y = 'W' :: (("hat is effective against ".toList ++ Y) ++ ['?']) := by
    unfold effectiveQuery
    simp only [List.append_assoc]
    rfl
  have hend : endsWithQuestionMark (effectiveQuery Y) = true := by
    rw [hQ, ← List.cons_append]
    exact endsWithQuestionMark_concat _
  have htrim : trim (effectiveQuery Y) = "What is effective against ".toList ++ (Y ++ ['?']) := by
    rw [hQ, trim_cons_concat _ _ _ (by decide) (by decide)]
    simp only [List.append_assoc]
    rfl
  have hpre : strncasecmpEq ("What is effective against ".toList ++ (Y ++ ['?']))
      "What is effective against".toList 25 = true := rfl
  refine ⟨?_, ?_⟩
  · unfold step
    rw [hend]
    simp only [if_true]
    unfold processQuery
    rw [htrim]
    simp only [hpre, if_true, reportInvalid]
  · have hd : ("What is effective against ".toList ++ (Y ++ ['?'])).drop 26 = Y ++ ['?'] := rfl
    rw [hd, copyName_query Y hq hlen, trim_enemy hY]

/-! ## Lemmas on the formula form of the learn handler -/

theorem componentLoop_malformed (toks : List Str) (k : Nat)
    (h : (toks.take (MAX_COMPONENTS - k)).any malformedEntry = true) :
    componentLoop toks k = none := by
  induction toks generalizing k with
  | nil => simp at h
  | cons t rest ih =>
    by_cases hk : k < MAX_COMPONENTS
    · have hsub : MAX_COMPONENTS - k = (MAX_COMPONENTS - (k + 1)) + 1 := by omega
      rw [hsub, List.take_succ_cons, List.any_cons, Bool.or_eq_true] at h
      unfold componentLoop
      simp only [hk, if_true]
      cases hs : sscanf_d_s (trim t) with
      | none => rfl
      | some p =>
        obtain ⟨q, name⟩ := p
        simp only
        by_cases hq : q ≤ 0
        · simp only [hq, if_true]
        · simp only [hq, if_false]
          rcases h with h | h
          · simp [malformedEntry, hs, hq] at h
          · rw [ih (k + 1) h]
            rfl
    · have h0 : MAX_COMPONENTS - k = 0 := by omega
      rw [h0] at h
      simp at h

theorem componentLoop_wellFormed (toks : List Str) (k : Nat)
    (h : (toks.take (MAX_COMPONENTS - k)).any malformedEntry = false) :
    ∃ comps, componentLoop toks k = some comps := by
  induction toks generalizing k with
  | nil => exact ⟨[], rfl⟩
  | cons t rest ih =>
    by_cases hk : k < MAX_COMPONENTS
    · have hsub : MAX_COMPONENTS - k = (MAX_COMPONENTS - (k + 1)) + 1 := by omega
      rw [hsub, List.take_succ_cons, List.any_cons, Bool.or_eq_false_iff] at h
      obtain ⟨h1, h2⟩ := h
      unfold componentLoop
      simp only [hk, if_true]
      cases hs : sscanf_d_s (trim t) with
      | none => simp [malformedEntry, hs] at h1
      | some p =>
        obtain ⟨q, name⟩ := p
        simp only [malformedEntry, hs, decide_eq_false_iff_not] at h1
        obtain ⟨comps, hc⟩ := ih (k + 1) h2
        simp only [h1, if_false, hc, Option.map_some']
        exact ⟨_, rfl⟩
    · unfold componentLoop
      simp only [hk, if_false]
      exact ⟨[], rfl⟩

theorem processLearn_formulaForm (s : State) (input : Str)
    (hp : strncmpEq input "Geralt learns ".toList 14 = true)
    (hform : isFormulaForm input = true) :
    ∃ cpos, strstr (trim (input.drop 14)) "consists of".toList = some cpos ∧
      processLearn s input = learnFormula s (trim (input.drop 14)) cpos := by
  unfold isFormulaForm at hform
  rw [Bool.and_eq_true, Option.isNone_iff_eq_none, Option.isSome_iff_exists] at hform
  obtain ⟨hnone, cpos, hc⟩ := hform
  refine ⟨cpos, hc, ?_⟩
  unfold processLearn
  simp only [hp, Bool.not_true, Bool.false_eq_true, if_false]
  rw [hnone]
  simp only
  rw [hc]

/-! ## The formula book under the handlers -/

theorem addEntries_formulaBook (s : State) (toks : List Str) :
    (addEntries s toks).2.formulaBook = s.formulaBook := by
  induction toks generalizing s with
  | nil => rfl
  | cons t rest ih =>
    unfold addEntries
    cases sscanf_d_s (trim t) with
    | none => rfl
    | some p =>
      obtain ⟨q, name⟩ := p
      simp only
      by_cases hq : q ≤ 0
      · simp only [hq, if_true]
      · simp only [hq, if_false]
        rw [ih]
        rfl

theorem processQuery_state (slotOrder : List Item → List Item) (s : State) (input : Str) :
    (processQuery slotOrder s input).state = s := by
  unfold processQuery
  simp only
  split
  · rfl
  · split
    · rfl
    · split
      · rfl
      · split
        · rfl
        · split <;> rfl

theorem processLoot_formulaBook (s : State) (input : Str) :
    (processLoot s input).state.formulaBook = s.formulaBook := by
  unfold processLoot
  cases strstr input "Geralt loots ".toList with
  | none => rfl
  | some pos =>
    simp only
    have h := addEntries_formulaBook s (strtok (trim (input.drop (pos + 13))))
    cases hadd : addEntries s (strtok (trim (input.drop (pos + 13)))) with
    | mk b s1 =>
      rw [hadd] at h
      cases b <;> exact h

theorem processTrade_formulaBook (s : State) (input : Str) :
    (processTrade s input).state.formulaBook = s.formulaBook := by
  unfold processTrade
  split
  · rfl
  · dsimp only
    cases strstr (trim (input.drop 14)) "for".toList with
    | none => rfl
    | some pos =>
      simp only
      cases trophyLoop s (strtok (trim ((trim (input.drop 14)).take pos))) with
      | malformed => rfl
      | notEnough => rfl
      | held temp =>
        simp only
        have h := addEntries_formulaBook s
          (strtok (trim ((trim (input.drop 14)).drop (pos + 3))))
        cases hadd : addEntries s (strtok (trim ((trim (input.drop 14)).drop (pos + 3)))) with
        | mk b s1 =>
          rw [hadd] at h
          cases b
          · exact h
          · simp only
            rw [(removeAll_inventory s1 temp).2.1]
            exact h

theorem processBrew_formulaBook (s : State) (input : Str) :
    (processBrew s input).state.formulaBook = s.formulaBook := by
  unfold processBrew
  split
  · rfl
  · dsimp only
    cases findFormula s.formulaBook (trim (input.drop 13)) with
    | none => rfl
    | some f =>
      simp only
      split
      · exact (removeAll_inventory s f.components).2.1
      · rfl

theorem processEncounter_formulaBook (s : State) (input : Str) :
    (processEncounter s input).state.formulaBook = s.formulaBook := by
  unfold processEncounter
  split
  · rfl
  · dsimp only
    cases findMonster s.bestiary (trim (input.drop 20)) with
    | none => rfl
    | some e =>
      simp only
      split
      · rfl
      · split <;> rfl

theorem learnEffectiveness_formulaBook (s : State) (left right : Str) :
    (learnEffectiveness s left right).state.formulaBook = s.formulaBook := by
  unfold learnEffectiveness
  dsimp only
  cases sscanf_s_s left with
  | none => rfl
  | some p =>
    obtain ⟨counter, type⟩ := p
    simp only
    split
    · rfl
    · cases findMonster s.bestiary (copyName (trim right)) with
      | none =>
        simp only
        split <;> rfl
      | some e =>
        simp only
        split
        · split <;> rfl
        · split <;> rfl

theorem learnFormula_formulaBook (s : State) (learnPart : Str) (cpos : Nat) :
    ∃ extra, (learnFormula s learnPart cpos).state.formulaBook = s.formulaBook ++ extra := by
  unfold learnFormula
  dsimp only
  cases strstr learnPart "potion".toList with
  | none => exact ⟨[], (List.append_nil _).symm⟩
  | some ppos =>
    simp only
    cases componentLoop (strtok (trim (learnPart.drop (cpos + 11)))) 0 with
    | none => exact ⟨[], (List.append_nil _).symm⟩
    | some comps =>
      simp only
      generalize trim (List.take _ learnPart) = name
      by_cases hk : (findFormula s.formulaBook name).isSome = true
      · rw [if_pos hk]
        exact ⟨[], (List.append_nil _).symm⟩
      · rw [if_neg hk]
        by_cases hroom : s.formulaBook.length < MAX_FORMULAS
        · rw [if_pos hroom]
          exact ⟨_, rfl⟩
        · rw [if_neg hroom]
          exact ⟨[], (List.append_nil _).symm⟩

theorem processLearn_formulaBook (s : State) (input : Str) :
    ∃ extra, (processLearn s input).state.formulaBook = s.formulaBook ++ extra := by
  unfold processLearn
  split
  · exact ⟨[], (List.append_nil _).symm⟩
  · dsimp only
    cases strstr (trim (input.drop 14)) "is effective against".toList with
    | some pos =>
      simp only
      exact ⟨[], by rw [learnEffectiveness_formulaBook, List.append_nil]⟩
    | none =>
      simp only
      cases strstr (trim (input.drop 14)) "consists of".toList with
      | some cpos => exact learnFormula_formulaBook s _ cpos
      | none => exact ⟨[], (List.append_nil _).symm⟩

/-- Every turn of the loop keeps the formulas it found, in place, and at most
appends to them. -/
theorem step_formulaBook (slotOrder : List Item → List Item) (s s' : State) (input out : Str)
    (h : step slotOrder s input = some (s', out)) :
    ∃ extra, s'.formulaBook = s.formulaBook ++ extra := by
  unfold step at h
  split at h
  · obtain ⟨rfl, _⟩ := Prod.mk.inj (Option.some.inj h)
    exact ⟨[], by simp only [reportInvalid, processQuery_state, List.append_nil]⟩
  · split at h
    · obtain ⟨rfl, _⟩ := Prod.mk.inj (Option.some.inj h)
      exact ⟨[], by simp only [reportInvalid, processLoot_formulaBook, List.append_nil]⟩
    · split at h
      · obtain ⟨rfl, _⟩ := Prod.mk.inj (Option.some.inj h)
        exact ⟨[], by simp only [reportInvalid, processTrade_formulaBook, List.append_nil]⟩
      · split at h
        · obtain ⟨rfl, _⟩ := Prod.mk.inj (Option.some.inj h)
          exact ⟨[], by simp only [reportInvalid, processBrew_formulaBook, List.append_nil]⟩
        · split at h
          · obtain ⟨rfl, _⟩ := Prod.mk.inj (Option.some.inj h)
            exact processLearn_formulaBook s input
          · split at h
            · obtain ⟨rfl, _⟩ := Prod.mk.inj (Option.some.inj h)
              exact ⟨[], by
                simp only [reportInvalid, processEncounter_formulaBook, List.append_nil]⟩
            · split at h
              · cases h
              · obtain ⟨rfl, _⟩ := Prod.mk.inj (Option.some.inj h)
                exact ⟨[], (List.append_nil _).symm⟩

/-! ## Lemmas on the substring search -/

theorem matchNeedle_iff (h n : Str) : matchNeedle h n = true ↔ fold n <+: fold h := by
  induction h generalizing n with
  | nil =>
    cases n with
    | nil => simp [matchNeedle, fold]
    | cons c ns => simp [matchNeedle, fold]
  | cons a hs ih =>
    cases n with
    | nil => simp [matchNeedle, fold]
    | cons c ns =>
      unfold matchNeedle
      by_cases hc : tolower a = tolower c
      · rw [if_pos hc, ih ns]
        simp only [fold, List.map_cons, List.cons_prefix_cons, hc, true_and]
      · rw [if_neg hc]
        simp only [fold, List.map_cons, List.cons_prefix_cons]
        constructor
        · intro h
          cases h
        · intro h
          exact absurd h.1.symm hc

theorem matchNeedle_nil (h : Str) : matchNeedle h [] = true := by
  cases h <;> rfl

theorem strcasestr_custom_nil (h : Str) : strcasestr_custom h [] = some 0 := by
  cases h <;> rfl

theorem matchesAt_zero (h n : Str) : matchesAt h n 0 ↔ matchNeedle h n = true := by
  unfold matchesAt
  rw [matchNeedle_iff]
  simp

theorem matchesAt_succ (a : Char) (hs n : Str) (i : Nat) :
    matchesAt (a :: hs) n (i + 1) ↔ matchesAt hs n i := by
  unfold matchesAt
  simp

theorem matchNeedle_head {a c : Char} {hs ns : Str} (h : matchNeedle (a :: hs) (c :: ns) = true) :
    tolower a = tolower c := by
  unfold matchNeedle at h
  by_contra hc
  rw [if_neg hc] at h
  cases h

theorem strcasestr_custom_some {h n : Str} {i : Nat} (hr : strcasestr_custom h n = some i) :
    matchesAt h n i ∧ ∀ j < i, ¬ matchesAt h n j := by
  cases n with
  | nil =>
    rw [strcasestr_custom_nil] at hr
    obtain rfl := Option.some.inj hr
    exact ⟨(matchesAt_zero h []).2 (matchNeedle_nil h), fun j hj => absurd hj (Nat.not_lt_zero j)⟩
  | cons c ns =>
    induction h generalizing i with
    | nil => simp [strcasestr_custom] at hr
    | cons a hs ih =>
      unfold strcasestr_custom at hr
      by_cases hm : tolower a = tolower c ∧ matchNeedle (a :: hs) (c :: ns) = true
      · rw [if_pos hm] at hr
        obtain rfl := Option.some.inj hr
        exact ⟨(matchesAt_zero _ _).2 hm.2, fun j hj => absurd hj (Nat.not_lt_zero j)⟩
      · rw [if_neg hm] at hr
        cases hrec : strcasestr_custom hs (c :: ns) with
        | none => rw [hrec] at hr; cases hr
        | some k =>
          rw [hrec, Option.map_some'] at hr
          obtain rfl := Option.some.inj hr
          obtain ⟨h1, h2⟩ := ih hrec
          refine ⟨(matchesAt_succ a hs _ k).2 h1, fun j hj => ?_⟩
          cases j with
          | zero =>
            intro h0
            have hmn := (matchesAt_zero _ _).1 h0
            exact hm ⟨matchNeedle_head hmn, hmn⟩
          | succ j =>
            rw [matchesAt_succ]
            exact h2 j (by omega)

theorem strcasestr_custom_none {h n : Str} (hr : strcasestr_custom h n = none) :
    ∀ i, ¬ matchesAt h n i := by
  cases n with
  | nil =>
    rw [strcasestr_custom_nil] at hr
    cases hr
  | cons c ns =>
    induction h with
    | nil =>
      intro i hi
      unfold matchesAt at hi
      simp [fold] at hi
    | cons a hs ih =>
      unfold strcasestr_custom at hr
      by_cases hm : tolower a = tolower c ∧ matchNeedle (a :: hs) (c :: ns) = true
      · rw [if_pos hm] at hr
        cases hr
      · rw [if_neg hm] at hr
        cases hrec : strcasestr_custom hs (c :: ns) with
        | some k => rw [hrec] at hr; cases hr
        | none =>
          intro i
          cases i with
          | zero =>
            intro h0
            have hmn := (matchesAt_zero _ _).1 h0
            exact hm ⟨matchNeedle_head hmn, hmn⟩
          | succ j =>
            rw [matchesAt_succ]
            exact ih hrec j

/-! ## Lemmas on the query test of `main` -/

theorem endsWithQuestionMark_iff (input : Str) :
    endsWithQuestionMark input = true ↔ endsWithQuestion input := by
  constructor
  · intro h
    induction input using List.reverseRecOn with
    | nil => exact absurd h (by decide)
    | append_singleton l x ih =>
      by_cases hx : isspace x = true
      · unfold endsWithQuestionMark at h ih
        rw [List.rdropWhile_concat_pos _ _ _ hx] at h
        obtain ⟨body, blanks, rfl, hb⟩ := ih h
        refine ⟨body, blanks ++ [x], by simp, fun c hc => ?_⟩
        rcases List.mem_append.1 hc with hc | hc
        · exact hb c hc
        · rw [List.mem_singleton.1 hc]
          exact hx
      · unfold endsWithQuestionMark at h
        rw [List.rdropWhile_concat_neg _ _ _ hx, List.getLast?_concat] at h
        have hx2 : x = '?' := by simpa using h
        exact ⟨l, [], by rw [hx2], fun c hc => absurd hc (List.not_mem_nil c)⟩
  · rintro ⟨body, blanks, rfl, hb⟩
    induction blanks using List.reverseRecOn with
    | nil => exact endsWithQuestionMark_concat body
    | append_singleton bl b ih =>
      have e : body ++ '?' :: (bl ++ [b]) = (body ++ '?' :: bl) ++ [b] := by simp
      have hbs : isspace b = true := hb b (by simp)
      have h1 := ih (fun c hc => hb c (by simp [hc]))
      unfold endsWithQuestionMark at h1 ⊢
      rw [e, List.rdropWhile_concat_pos _ _ _ hbs]
      exact h1

theorem step_query (slotOrder : List Item → List Item) (s : State) (input : Str)
    (hq : endsWithQuestionMark input = true) :
    step slotOrder s input = some (s, (processQuery slotOrder s input).out) := by
  have hret : (processQuery slotOrder s input).ret = true := by
    unfold processQuery
    simp only
    split
    · rfl
    · split
      · rfl
      · split
        · rfl
        · split
          · rfl
          · split <;> rfl
  unfold step
  rw [if_pos hq]
  simp only [reportInvalid, processQuery_state, hret, if_true]

/-! ## The words that `sscanf` reads are words of the line -/

theorem trim_within (s : Str) : trim s <:+: s := by
  unfold trim
  exact (List.rdropWhile_prefix _ _).isInfix.trans (List.dropWhile_suffix _).isInfix

theorem trim_length_le (s : Str) : (trim s).length ≤ s.length :=
  (trim_within s).length_le

theorem commaFields_within (s : Str) :
    ∃ g fs, commaFields s = g :: fs ∧ g <+: s ∧ ∀ f ∈ fs, f <:+: s := by
  induction s with
  | nil => exact ⟨[], [], rfl, List.prefix_refl _, fun f hf => absurd hf (List.not_mem_nil f)⟩
  | cons c cs ih =>
    obtain ⟨g, fs, hg, hpre, hfs⟩ := ih
    unfold commaFields
    by_cases hc : c = ','
    · rw [if_pos hc]
      refine ⟨[], commaFields cs, rfl, List.nil_prefix, fun f hf => ?_⟩
      rw [hg] at hf
      rcases List.mem_cons.1 hf with hf | hf
      · rw [hf]
        exact hpre.isInfix.trans (List.suffix_cons c cs).isInfix
      · exact (hfs f hf).trans (List.suffix_cons c cs).isInfix
    · rw [if_neg hc, hg]
      refine ⟨c :: g, fs, rfl, ?_, fun f hf => (hfs f hf).trans (List.suffix_cons c cs).isInfix⟩
      obtain ⟨t, ht⟩ := hpre
      exact ⟨t, by rw [← ht]; rfl⟩

theorem strtok_within {s t : Str} (h : t ∈ strtok s) : t <:+: s := by
  unfold strtok at h
  have hm := (List.mem_filter.1 h).1
  obtain ⟨g, fs, hg, hpre, hfs⟩ := commaFields_within s
  rw [hg] at hm
  rcases List.mem_cons.1 hm with hm | hm
  · rw [hm]
    exact hpre.isInfix
  · exact hfs t hm

theorem scanDigits_suffix {s r : Str} {q : Int} (h : scanDigits s = some (q, r)) : r <:+ s := by
  unfold scanDigits at h
  simp only at h
  split at h
  · cases h
  · obtain ⟨_, rfl⟩ := Prod.mk.inj (Option.some.inj h)
    exact List.dropWhile_suffix _

theorem scan_d_suffix {s r : Str} {q : Int} (h : scan_d s = some (q, r)) : r <:+ s := by
  unfold scan_d at h
  have hd : s.dropWhile isspace <:+ s := List.dropWhile_suffix _
  split at h
  · rename_i r1 heq
    cases hs : scanDigits r1 with
    | none => rw [hs] at h; cases h
    | some p =>
      rw [hs] at h
      obtain ⟨q1, r2⟩ := p
      obtain ⟨_, rfl⟩ := Prod.mk.inj (Option.some.inj h)
      rw [heq] at hd
      exact ((scanDigits_suffix hs).trans (List.suffix_cons _ _)).trans hd
  · rename_i r1 heq
    rw [heq] at hd
    exact ((scanDigits_suffix h).trans (List.suffix_cons _ _)).trans hd
  · exact (scanDigits_suffix h).trans hd

theorem scan_s_word_of {s w r : Str} (h : scan_s s = some (w, r)) :
    w <:+: s ∧ ∀ c ∈ w, isspace c = false := by
  unfold scan_s at h
  simp only at h
  split at h
  · cases h
  · obtain ⟨rfl, _⟩ := Prod.mk.inj (Option.some.inj h)
    refine ⟨(List.takeWhile_prefix _).isInfix.trans (List.dropWhile_suffix _).isInfix,
      fun c hc => ?_⟩
    have := List.mem_takeWhile_imp hc
    simpa using this

theorem sscanf_d_s_word_of {token name : Str} {q : Int} (h : sscanf_d_s token = some (q, name)) :
    name <:+: token ∧ ∀ c ∈ name, isspace c = false := by
  unfold sscanf_d_s at h
  cases hd : scan_d token with
  | none => rw [hd] at h; cases h
  | some p =>
    obtain ⟨q1, r⟩ := p
    rw [hd] at h
    simp only at h
    cases hs : scan_s r with
    | none => rw [hs] at h; cases h
    | some p2 =>
      obtain ⟨w, r2⟩ := p2
      rw [hs] at h
      simp only at h
      obtain ⟨_, rfl⟩ := Prod.mk.inj (Option.some.inj h)
      obtain ⟨h1, h2⟩ := scan_s_word_of hs
      exact ⟨h1.trans (scan_d_suffix hd).isInfix, h2⟩

/-! ## Every turn of the loop is a sequence of elementary updates -/

theorem findFormula_some {b : List Formula} {n : Str} {f : Formula}
    (h : findFormula b n = some f) : f ∈ b ∧ strcasecmp f.potionName n = 0 := by
  induction b with
  | nil => simp [findFormula] at h
  | cons y rest ih =>
    by_cases hy : strcasecmp y.potionName n = 0
    · simp only [findFormula, hy, if_true, Option.some.injEq] at h
      rw [← h]
      exact ⟨by simp, hy⟩
    · simp only [findFormula, hy, if_false] at h
      exact ⟨List.mem_cons_of_mem _ (ih h).1, (ih h).2⟩

theorem addEntries_updates (input : Str) (s : State) (toks : List Str)
    (h : ∀ t ∈ toks, t <:+: input)
    (hN : ∀ e ∈ entriesBeforeBad toks, e.2 ∈ lootedNames input) :
    Relation.ReflTransGen (Update input) s (addEntries s toks).2 := by
  induction toks generalizing s with
  | nil => exact Relation.ReflTransGen.refl
  | cons t rest ih =>
    unfold addEntries
    cases hs : sscanf_d_s (trim t) with
    | none => exact Relation.ReflTransGen.refl
    | some p =>
      obtain ⟨q, name⟩ := p
      simp only
      by_cases hq : q ≤ 0
      · rw [if_pos hq]
      · rw [if_neg hq]
        obtain ⟨h1, h2⟩ := sscanf_d_s_word_of hs
        have hin : name <:+: input := (h1.trans (trim_within t)).trans (h t (by simp))
        have hm : malformedEntry t = false := by
          unfold malformedEntry
          rw [hs]
          simpa using hq
        have hcons : entriesBeforeBad (t :: rest) = (q, name) :: entriesBeforeBad rest := by
          simp only [entriesBeforeBad, List.takeWhile_cons, hm, Bool.not_false, if_true,
            entriesOf, List.filterMap_cons, hs]
        have hmem : name ∈ lootedNames input :=
          hN (q, name) (by rw [hcons]; exact List.mem_cons_self _ _)
        exact Relation.ReflTransGen.head
          (Update.add s name q (by omega) (Or.inl ⟨hmem, hin, h2⟩))
          (ih _ (fun t' ht' => h t' (by simp [ht']))
            (fun e he => hN e (by rw [hcons]; exact List.mem_cons_of_mem _ he)))

theorem removeAll_updates (input : Str) (s : State) (items : List Item) :
    Relation.ReflTransGen (Update input) s (removeAll s items) := by
  induction items generalizing s with
  | nil => exact Relation.ReflTransGen.refl
  | cons it rest ih =>
    exact Relation.ReflTransGen.head (Update.remove s it.name it.quantity) (ih _)

theorem processLoot_updates (s : State) (input : Str)
    (hq : ¬ endsWithQuestionMark input = true)
    (hp : strncmpEq input "Geralt loots".toList 12 = true) :
    Relation.ReflTransGen (Update input) s (processLoot s input).state := by
  have hL : lootedNames input = (entriesBeforeBad (lootTokens input)).map (fun e => e.2) := by
    unfold lootedNames
    rw [if_neg hq, if_pos hp]
  unfold processLoot
  cases hpos : strstr input "Geralt loots ".toList with
  | none => exact Relation.ReflTransGen.refl
  | some pos =>
    simp only
    have htok : lootTokens input = strtok (trim (input.drop (pos + 13))) := by
      unfold lootTokens
      rw [hpos]
    have h := addEntries_updates input s (strtok (trim (input.drop (pos + 13))))
      (fun t ht => ((strtok_within ht).trans (trim_within _)).trans (List.drop_suffix _ _).isInfix)
      (fun e he => by
        rw [hL, htok]
        exact List.mem_map_of_mem (fun e : Int × Str => e.2) he)
    cases hadd : addEntries s (strtok (trim (input.drop (pos + 13)))) with
    | mk b s1 =>
      rw [hadd] at h
      cases b <;> exact h

theorem processTrade_updates (s : State) (input : Str)
    (hq : ¬ endsWithQuestionMark input = true)
    (hl : ¬ strncmpEq input "Geralt loots".toList 12 = true)
    (hp : strncmpEq input "Geralt trades".toList 13 = true) :
    Relation.ReflTransGen (Update input) s (processTrade s input).state := by
  have hL : lootedNames input =
      (entriesBeforeBad (ingredientTokens input)).map (fun e => e.2) := by
    unfold lootedNames
    rw [if_neg hq, if_neg hl, if_pos hp]
  unfold processTrade
  split
  · exact Relation.ReflTransGen.refl
  · dsimp only
    cases hpos : strstr (trim (input.drop 14)) "for".toList with
    | none => exact Relation.ReflTransGen.refl
    | some pos =>
      simp only
      have hI : ingredientTokens input =
          strtok (trim ((trim (input.drop 14)).drop (pos + 3))) := by
        unfold ingredientTokens tradeParts
        rw [hpos]
      cases trophyLoop s (strtok (trim ((trim (input.drop 14)).take pos))) with
      | malformed => exact Relation.ReflTransGen.refl
      | notEnough => exact Relation.ReflTransGen.refl
      | held temp =>
        simp only
        have h := addEntries_updates input s
          (strtok (trim ((trim (input.drop 14)).drop (pos + 3))))
          (fun t ht => ((((strtok_within ht).trans (trim_within _)).trans
            (List.drop_suffix _ _).isInfix).trans (trim_within _)).trans
            (List.drop_suffix _ _).isInfix)
          (fun e he => by
            rw [hL, hI]
            exact List.mem_map_of_mem (fun e : Int × Str => e.2) he)
        cases hadd : addEntries s (strtok (trim ((trim (input.drop 14)).drop (pos + 3)))) with
        | mk b s1 =>
          rw [hadd] at h
          cases b
          · exact h
          · exact h.trans (removeAll_updates input s1 temp)

theorem processBrew_updates (s : State) (input : Str) :
    Relation.ReflTransGen (Update input) s (processBrew s input).state := by
  unfold processBrew
  split
  · exact Relation.ReflTransGen.refl
  · dsimp only
    cases hf : findFormula s.formulaBook (trim (input.drop 13)) with
    | none => exact Relation.ReflTransGen.refl
    | some f =>
      simp only
      split
      · obtain ⟨hmem, hname⟩ := findFormula_some hf
        refine (removeAll_updates input s f.components).tail
          (Update.add _ _ 1 (by decide) (Or.inr (Or.inr ⟨f, ?_, hname⟩)))
        rw [(removeAll_inventory s f.components).2.1]
        exact hmem
      · exact Relation.ReflTransGen.refl

theorem processEncounter_updates (s : State) (input : Str) :
    Relation.ReflTransGen (Update input) s (processEncounter s input).state := by
  unfold processEncounter
  split
  · exact Relation.ReflTransGen.refl
  · dsimp only
    cases findMonster s.bestiary (trim (input.drop 20)) with
    | none => exact Relation.ReflTransGen.refl
    | some e =>
      simp only
      have hlen : ((trim (input.drop 20) ++ " trophy".toList).take (MAX_NAME_LEN - 1)).length
          < MAX_NAME_LEN := by
        rw [List.length_take]
        simp only [MAX_NAME_LEN]
        omega
      split
      · exact Relation.ReflTransGen.refl
      · split
        · exact Relation.ReflTransGen.head (Update.remove s _ _)
            (Relation.ReflTransGen.single (Update.add _ _ 1 (by decide) (Or.inr (Or.inl hlen))))
        · exact Relation.ReflTransGen.single (Update.add _ _ 1 (by decide) (Or.inr (Or.inl hlen)))

theorem copyName_length (x : Str) : (copyName x).length < MAX_NAME_LEN := by
  unfold copyName
  rw [List.length_take]
  simp only [MAX_NAME_LEN]
  omega

theorem learnEffectiveness_updates (input : Str) (s : State) (left right : Str) :
    Relation.ReflTransGen (Update input) s (learnEffectiveness s left right).state := by
  unfold learnEffectiveness
  dsimp only
  cases sscanf_s_s left with
  | none => exact Relation.ReflTransGen.refl
  | some p =>
    obtain ⟨counter, type⟩ := p
    simp only
    split
    · exact Relation.ReflTransGen.refl
    · cases hfm : findMonster s.bestiary (copyName (trim right)) with
      | none =>
        simp only
        split
        · refine Relation.ReflTransGen.single (Update.entry s _ ?_ (by assumption))
          split
          · simp only [copyName_copyName]
            exact hfm
          · simp only [copyName_copyName]
            exact hfm
        · exact Relation.ReflTransGen.refl
      | some e =>
        simp only
        split
        · split
          · exact Relation.ReflTransGen.refl
          · exact Relation.ReflTransGen.single (Update.slot s _ _ (fun _ => rfl))
        · split
          · exact Relation.ReflTransGen.refl
          · exact Relation.ReflTransGen.single (Update.slot s _ _ (fun _ => rfl))

theorem componentLoop_pos {toks : List Str} {k : Nat} {comps : List Item}
    (h : componentLoop toks k = some comps) : ∀ c ∈ comps, 0 < c.quantity := by
  induction toks generalizing k comps with
  | nil =>
    simp only [componentLoop, Option.some.injEq] at h
    rw [← h]
    exact fun c hc => absurd hc (List.not_mem_nil c)
  | cons t rest ih =>
    unfold componentLoop at h
    by_cases hk : k < MAX_COMPONENTS
    · rw [if_pos hk] at h
      cases hs : sscanf_d_s (trim t) with
      | none => rw [hs] at h; cases h
      | some p =>
        obtain ⟨q, name⟩ := p
        rw [hs] at h
        simp only at h
        by_cases hq : q ≤ 0
        · rw [if_pos hq] at h
          cases h
        · rw [if_neg hq] at h
          cases hr : componentLoop rest (k + 1) with
          | none => rw [hr] at h; cases h
          | some cs =>
            rw [hr, Option.map_some'] at h
            obtain rfl := Option.some.inj h
            intro c hc
            rcases List.mem_cons.1 hc with hc | hc
            · rw [hc]
              show 0 < q
              omega
            · exact ih hr c hc
    · rw [if_neg hk] at h
      obtain rfl := Option.some.inj h
      exact fun c hc => absurd hc (List.not_mem_nil c)

theorem learnFormula_updates (input : Str) (s : State) (learnPart : Str) (cpos : Nat) :
    Relation.ReflTransGen (Update input) s (learnFormula s learnPart cpos).state := by
  unfold learnFormula
  dsimp only
  cases strstr learnPart "potion".toList with
  | none => exact Relation.ReflTransGen.refl
  | some ppos =>
    simp only
    cases hcl : componentLoop (strtok (trim (learnPart.drop (cpos + 11)))) 0 with
    | none => exact Relation.ReflTransGen.refl
    | some comps =>
      simp only
      have hlen : (trim (learnPart.take (if ppos ≥ MAX_NAME_LEN then MAX_NAME_LEN - 1 else ppos))).length
          < MAX_NAME_LEN := by
        refine lt_of_le_of_lt (trim_length_le _) ?_
        rw [List.length_take]
        simp only [MAX_NAME_LEN]
        split <;> omega
      revert hlen
      generalize trim (List.take _ learnPart) = name
      intro hlen
      by_cases hk : (findFormula s.formulaBook name).isSome = true
      · rw [if_pos hk]
      · rw [if_neg hk]
        by_cases hroom : s.formulaBook.length < MAX_FORMULAS
        · rw [if_pos hroom]
          have hc : copyName name = name := copyName_of_short hlen
          rw [hc]
          have hnone : findFormula s.formulaBook name = none := by
            cases hff : findFormula s.formulaBook name with
            | none => rfl
            | some f => rw [hff] at hk; exact absurd rfl hk
          exact Relation.ReflTransGen.single
            (Update.formula s ⟨name, comps⟩ hnone hroom hlen (componentLoop_pos hcl))
        · rw [if_neg hroom]

theorem processLearn_updates (s : State) (input : Str) :
    Relation.ReflTransGen (Update input) s (processLearn s input).state := by
  unfold processLearn
  split
  · exact Relation.ReflTransGen.refl
  · dsimp only
    cases strstr (trim (input.drop 14)) "is effective against".toList with
    | some pos =>
      simp only
      exact learnEffectiveness_updates input s _ _
    | none =>
      simp only
      cases strstr (trim (input.drop 14)) "consists of".toList with
      | some cpos => exact learnFormula_updates input s _ cpos
      | none => exact Relation.ReflTransGen.refl

/-- Every turn of the loop changes the globals by a sequence of elementary
updates. -/
theorem step_updates (slotOrder : List Item → List Item) (s s' : State) (input out : Str)
    (h : step slotOrder s input = some (s', out)) :
    Relation.ReflTransGen (Update input) s s' := by
  unfold step at h
  by_cases hq : endsWithQuestionMark input = true
  · rw [if_pos hq] at h
    obtain ⟨rfl, _⟩ := Prod.mk.inj (Option.some.inj h)
    simp only [reportInvalid, processQuery_state]
    exact Relation.ReflTransGen.refl
  · rw [if_neg hq] at h
    by_cases hl : strncmpEq input "Geralt loots".toList 12 = true
    · rw [if_pos hl] at h
      obtain ⟨rfl, _⟩ := Prod.mk.inj (Option.some.inj h)
      exact processLoot_updates s input hq hl
    · rw [if_neg hl] at h
      by_cases ht : strncmpEq input "Geralt trades".toList 13 = true
      · rw [if_pos ht] at h
        obtain ⟨rfl, _⟩ := Prod.mk.inj (Option.some.inj h)
        exact processTrade_updates s input hq hl ht
      · rw [if_neg ht] at h
        split at h
        · obtain ⟨rfl, _⟩ := Prod.mk.inj (Option.some.inj h)
          exact processBrew_updates s input
        · split at h
          · obtain ⟨rfl, _⟩ := Prod.mk.inj (Option.some.inj h)
            exact processLearn_updates s input
          · split at h
            · obtain ⟨rfl, _⟩ := Prod.mk.inj (Option.some.inj h)
              exact processEncounter_updates s input
            · split at h
              · cases h
              · obtain ⟨rfl, _⟩ := Prod.mk.inj (Option.some.inj h)
                exact Relation.ReflTransGen.refl

/-- A property of the globals that every elementary update of the lines
admitted by `Q` preserves holds after the loop has read such lines. -/
theorem run_invariant (slotOrder : List Item → List Item) (P : State → Prop) (Q : Str → Prop)
    (hP : ∀ input s s', Q input → Update input s s' → P s → P s') :
    ∀ (lines : List Str) (s : State), (∀ l ∈ lines, Q l) → P s →
      P (run slotOrder s lines).1 := by
  intro lines
  induction lines with
  | nil => exact fun s _ hs => hs
  | cons l rest ih =>
    intro s hQ hs
    unfold run
    cases hstep : step slotOrder s l with
    | none => exact hs
    | some r =>
      obtain ⟨s1, out⟩ := r
      simp only
      refine ih s1 (fun x hx => hQ x (by simp [hx])) ?_
      have hu := step_updates slotOrder s s1 l out hstep
      clear hstep
      induction hu with
      | refl => exact hs
      | tail _ hlast ih2 => exact hP l _ _ (hQ l (by simp)) hlast ih2

/-! ## Invariants of the elementary updates -/

theorem updates_invariant {input : Str} (P : State → Prop)
    (hP : ∀ s s', Update input s s' → P s → P s') {s s' : State}
    (h : Relation.ReflTransGen (Update input) s s') (hs : P s) : P s' := by
  induction h with
  | refl => exact hs
  | tail _ hlast ih => exact hP _ _ hlast ih

theorem nonneg_addItemInv {inv : List Item} (name : Str) {q : Int} (hq : 0 ≤ q)
    (h : ∀ it ∈ inv, 0 ≤ it.quantity) : ∀ it ∈ addItemInv inv name q, 0 ≤ it.quantity := by
  have hloop : ∀ (l l' : List Item), (∀ it ∈ l, 0 ≤ it.quantity) → addLoop l name q = some l' →
      ∀ it ∈ l', 0 ≤ it.quantity := by
    intro l
    induction l with
    | nil =>
      intro l' _ hl
      simp [addLoop] at hl
    | cons x rest ih =>
      intro l' hx hl
      unfold addLoop at hl
      by_cases hm : strcasecmp x.name name = 0
      · rw [if_pos hm] at hl
        obtain rfl := Option.some.inj hl
        intro it hit
        rcases List.mem_cons.1 hit with hit | hit
        · rw [hit]
          have := hx x (by simp)
          show 0 ≤ x.quantity + q
          omega
        · exact hx it (by simp [hit])
      · rw [if_neg hm] at hl
        cases hr : addLoop rest name q with
        | none => rw [hr] at hl; cases hl
        | some r =>
          rw [hr, Option.map_some'] at hl
          obtain rfl := Option.some.inj hl
          intro it hit
          rcases List.mem_cons.1 hit with hit | hit
          · rw [hit]
            exact hx x (by simp)
          · exact ih r (fun y hy => hx y (by simp [hy])) hr it hit
  unfold addItemInv
  cases hl : addLoop inv name q with
  | some inv' => exact hloop inv inv' h hl
  | none =>
    simp only
    split
    · intro it hit
      rcases List.mem_append.1 hit with hit | hit
      · exact h it hit
      · rw [List.mem_singleton.1 hit]
        exact hq
    · exact h

theorem nonneg_removeItemInv {inv : List Item} (name : Str) (q : Int)
    (h : ∀ it ∈ inv, 0 ≤ it.quantity) :
    ∀ it ∈ (removeItemInv inv name q).2, 0 ≤ it.quantity := by
  induction inv with
  | nil =>
    intro it hit
    simp [removeItemInv] at hit
  | cons x rest ih =>
    unfold removeItemInv
    by_cases hm : strcasecmp x.name name = 0
    · rw [if_pos hm]
      by_cases hge : x.quantity ≥ q
      · rw [if_pos hge]
        intro it hit
        rcases List.mem_cons.1 hit with hit | hit
        · rw [hit]
          show 0 ≤ x.quantity - q
          omega
        · exact h it (by simp [hit])
      · rw [if_neg hge]
        exact h
    · rw [if_neg hm]
      intro it hit
      rcases List.mem_cons.1 hit with hit | hit
      · rw [hit]
        exact h x (by simp)
      · exact ih (fun y hy => h y (by simp [hy])) it hit

theorem update_nonneg {input : Str} {s s' : State} (hu : Update input s s')
    (h : (∀ it ∈ s.inventory, 0 ≤ it.quantity) ∧
      ∀ f ∈ s.formulaBook, ∀ c ∈ f.components, 0 < c.quantity) :
    (∀ it ∈ s'.inventory, 0 ≤ it.quantity) ∧
      ∀ f ∈ s'.formulaBook, ∀ c ∈ f.components, 0 < c.quantity := by
  cases hu with
  | add name q hq _ => exact ⟨nonneg_addItemInv name (le_of_lt hq) h.1, h.2⟩
  | remove name q => exact ⟨nonneg_removeItemInv name q h.1, h.2⟩
  | entry e _ _ => exact h
  | slot f enemy _ => exact h
  | formula f _ _ _ hpos =>
    refine ⟨h.1, fun g hg => ?_⟩
    rcases List.mem_append.1 hg with hg | hg
    · exact h.2 g hg
    · rw [List.mem_singleton.1 hg]
      exact hpos

theorem length_updateEntry (f : BestiaryEntry → BestiaryEntry) (b : List BestiaryEntry)
    (enemy : Str) : (updateEntry f b enemy).length = b.length := by
  induction b with
  | nil => rfl
  | cons e rest ih =>
    unfold updateEntry
    split
    · rfl
    · simp only [List.length_cons, ih]

theorem names_updateEntry (f : BestiaryEntry → BestiaryEntry) (b : List BestiaryEntry)
    (enemy : Str) (hf : ∀ x, (f x).monsterName = x.monsterName) :
    (updateEntry f b enemy).map (·.monsterName) = b.map (·.monsterName) := by
  induction b with
  | nil => rfl
  | cons e rest ih =>
    unfold updateEntry
    split
    · simp only [List.map_cons, hf]
    · simp only [List.map_cons, ih]

theorem length_addItemInv_le {inv : List Item} (name : Str) (q : Int)
    (h : inv.length ≤ MAX_INGREDIENTS) : (addItemInv inv name q).length ≤ MAX_INGREDIENTS := by
  rw [length_addItemInv]
  split
  · rename_i hc
    exact hc.2
  · exact h

theorem length_removeItemInv (inv : List Item) (name : Str) (q : Int) :
    (removeItemInv inv name q).2.length = inv.length := by
  have := congrArg List.length (names_removeItemInv inv name q)
  simpa using this

theorem update_counts {input : Str} {s s' : State} (hu : Update input s s')
    (h : s.inventory.length ≤ MAX_INGREDIENTS ∧ s.formulaBook.length ≤ MAX_FORMULAS ∧
      s.bestiary.length ≤ MAX_BESTIARY) :
    s'.inventory.length ≤ MAX_INGREDIENTS ∧ s'.formulaBook.length ≤ MAX_FORMULAS ∧
      s'.bestiary.length ≤ MAX_BESTIARY := by
  cases hu with
  | add name q _ _ => exact ⟨length_addItemInv_le name q h.1, h.2⟩
  | remove name q =>
    refine ⟨?_, h.2⟩
    show (removeItemInv s.inventory name q).2.length ≤ MAX_INGREDIENTS
    rw [length_removeItemInv]
    exact h.1
  | entry e _ hroom =>
    refine ⟨h.1, h.2.1, ?_⟩
    show (s.bestiary ++ [e]).length ≤ MAX_BESTIARY
    rw [List.length_append, List.length_singleton]
    exact hroom
  | slot f enemy _ =>
    refine ⟨h.1, h.2.1, ?_⟩
    show (updateEntry f s.bestiary enemy).length ≤ MAX_BESTIARY
    rw [length_updateEntry]
    exact h.2.2
  | formula f _ hroom _ _ =>
    refine ⟨h.1, ?_, h.2.2⟩
    show (s.formulaBook ++ [f]).length ≤ MAX_FORMULAS
    rw [List.length_append, List.length_singleton]
    exact hroom

theorem update_names_full {input : Str} {s s' : State} (hu : Update input s s')
    (hfull : ¬ s.inventory.length < MAX_INGREDIENTS) :
    s'.inventory.map (·.name) = s.inventory.map (·.name) := by
  cases hu with
  | add name q _ _ =>
    show (addItemInv s.inventory name q).map (·.name) = _
    rw [names_addItemInv, if_neg (fun hc => hfull hc.2)]
  | remove name q => exact names_removeItemInv s.inventory name q
  | entry e _ _ => rfl
  | slot f enemy _ => rfl
  | formula f _ _ _ _ => rfl

/-! ## Uniqueness of names under the elementary updates -/

theorem findMonster_none {b : List BestiaryEntry} {n : Str} (h : findMonster b n = none) :
    ∀ e ∈ b, strcasecmp e.monsterName n ≠ 0 := by
  induction b with
  | nil => exact fun e he => absurd he (List.not_mem_nil e)
  | cons y rest ih =>
    unfold findMonster at h
    by_cases hy : strcasecmp y.monsterName n = 0
    · rw [if_pos hy] at h
      cases h
    · rw [if_neg hy] at h
      intro e he
      rcases List.mem_cons.1 he with he | he
      · rw [he]
        exact hy
      · exact ih h e he

theorem findFormula_none {b : List Formula} {n : Str} (h : findFormula b n = none) :
    ∀ f ∈ b, strcasecmp f.potionName n ≠ 0 := by
  induction b with
  | nil => exact fun f hf => absurd hf (List.not_mem_nil f)
  | cons y rest ih =>
    unfold findFormula at h
    by_cases hy : strcasecmp y.potionName n = 0
    · rw [if_pos hy] at h
      cases h
    · rw [if_neg hy] at h
      intro f hf
      rcases List.mem_cons.1 hf with hf | hf
      · rw [hf]
        exact hy
      · exact ih h f hf

theorem length_of_strcasecmp {a b : Str} (h : strcasecmp a b = 0) : a.length = b.length := by
  have := congrArg List.length ((strcasecmp_eq_zero_iff a b).1 h)
  rwa [fold_length, fold_length] at this

theorem uniqueNames_append_single {names : List Str} {n : Str} (h : uniqueNames names)
    (hn : ∀ a ∈ names, strcasecmp a n ≠ 0) : uniqueNames (names ++ [n]) := by
  unfold uniqueNames at h ⊢
  rw [List.pairwise_append]
  refine ⟨h, List.pairwise_singleton _ _, fun a ha b hb => ?_⟩
  rw [List.mem_singleton.1 hb]
  exact hn a ha

theorem uniqueNames_addItemInv {inv : List Item} {name : Str} (q : Int)
    (hlen : name.length < MAX_NAME_LEN) (h : uniqueNames (inv.map (·.name))) :
    uniqueNames ((addItemInv inv name q).map (·.name)) := by
  rw [names_addItemInv]
  split
  · rename_i hc
    rw [copyName_of_short hlen]
    refine uniqueNames_append_single h (fun a ha hz => ?_)
    obtain ⟨it, hit, rfl⟩ := List.mem_map.1 ha
    have hno := (hasEntry_eq_false_iff inv name).1 hc.1
    apply hno
    rw [List.mem_map]
    exact ⟨it, hit, (strcasecmp_eq_zero_iff _ _).1 hz⟩
  · exact h

theorem update_unique_tables {input : Str} {s s' : State} (hu : Update input s s')
    (h : uniqueNames (s.bestiary.map (·.monsterName)) ∧
      uniqueNames (s.formulaBook.map (·.potionName)) ∧
      ∀ f ∈ s.formulaBook, f.potionName.length < MAX_NAME_LEN) :
    uniqueNames (s'.bestiary.map (·.monsterName)) ∧
      uniqueNames (s'.formulaBook.map (·.potionName)) ∧
      ∀ f ∈ s'.formulaBook, f.potionName.length < MAX_NAME_LEN := by
  obtain ⟨hb, hf, hl⟩ := h
  cases hu with
  | add name q _ _ => exact ⟨hb, hf, hl⟩
  | remove name q => exact ⟨hb, hf, hl⟩
  | entry e hnew _ =>
    refine ⟨?_, hf, hl⟩
    show uniqueNames ((s.bestiary ++ [e]).map (·.monsterName))
    rw [List.map_append, List.map_singleton]
    refine uniqueNames_append_single hb (fun a ha => ?_)
    obtain ⟨x, hx, rfl⟩ := List.mem_map.1 ha
    exact findMonster_none hnew x hx
  | slot f enemy hfn =>
    refine ⟨?_, hf, hl⟩
    show uniqueNames ((updateEntry f s.bestiary enemy).map (·.monsterName))
    rw [names_updateEntry f s.bestiary enemy hfn]
    exact hb
  | formula f hnew _ hlen _ =>
    refine ⟨hb, ?_, fun g hg => ?_⟩
    · show uniqueNames ((s.formulaBook ++ [f]).map (·.potionName))
      rw [List.map_append, List.map_singleton]
      refine uniqueNames_append_single hf (fun a ha => ?_)
      obtain ⟨x, hx, rfl⟩ := List.mem_map.1 ha
      exact findFormula_none hnew x hx
    · rcases List.mem_append.1 hg with hg | hg
      · exact hl g hg
      · rw [List.mem_singleton.1 hg]
        exact hlen


theorem update_unique {input : Str} (hfit : namesFit input = true) {s s' : State}
    (hu : Update input s s')
    (h : uniqueNames (s.inventory.map (·.name)) ∧ uniqueNames (s.bestiary.map (·.monsterName)) ∧
      uniqueNames (s.formulaBook.map (·.potionName)) ∧
      ∀ f ∈ s.formulaBook, f.potionName.length < MAX_NAME_LEN) :
    uniqueNames (s'.inventory.map (·.name)) ∧ uniqueNames (s'.bestiary.map (·.monsterName)) ∧
      uniqueNames (s'.formulaBook.map (·.potionName)) ∧
      ∀ f ∈ s'.formulaBook, f.potionName.length < MAX_NAME_LEN := by
  refine ⟨?_, update_unique_tables hu h.2⟩
  obtain ⟨hi, _, _, hl⟩ := h
  cases hu with
  | add name q _ hname =>
    have hlen : name.length < MAX_NAME_LEN := by
      rcases hname with ⟨hmem, _, _⟩ | hlt | ⟨f, hfm, hz⟩
      · unfold namesFit at hfit
        rw [List.all_eq_true] at hfit
        simpa using hfit name hmem
      · exact hlt
      · rw [← length_of_strcasecmp hz]
        exact hl f hfm
    exact uniqueNames_addItemInv q hlen hi
  | remove name q =>
    show uniqueNames ((removeItemInv s.inventory name q).2.map (·.name))
    rw [names_removeItemInv]
    exact hi
  | entry e _ _ => exact hi
  | slot f enemy _ => exact hi
  | formula f _ _ _ _ => exact hi

/-! ## Lemmas on the tables at capacity -/

theorem step_names_full (slotOrder : List Item → List Item) (s s' : State) (input out : Str)
    (hfull : ¬ s.inventory.length < MAX_INGREDIENTS)
    (h : step slotOrder s input = some (s', out)) :
    s'.inventory.map (·.name) = s.inventory.map (·.name) := by
  refine updates_invariant (fun t => t.inventory.map (·.name) = s.inventory.map (·.name))
    (fun t t' hu ht => ?_) (step_updates slotOrder s s' input out h) rfl
  have hlen : t.inventory.length = s.inventory.length := by
    have := congrArg List.length ht
    simpa using this
  have hfull2 : ¬ t.inventory.length < MAX_INGREDIENTS := by
    rw [hlen]
    exact hfull
  exact (update_names_full hu hfull2).trans ht

theorem addItem_full (s : State) (name : Str) (q : Int)
    (hfull : ¬ s.inventory.length < MAX_INGREDIENTS) (hnew : hasEntry s.inventory name = false) :
    addItem s name q = s := by
  unfold addItem addItemInv
  rw [(addLoop_eq_none_iff s.inventory name q).2 hnew]
  simp only [hfull, if_false]

theorem trophyLoop_held_of (s : State) (toks : List Str)
    (hw : wellFormedTrophies (toks.map trim) = true)
    (hs : someTrophyShort s (toks.map trim) = false) :
    ∃ temp, trophyLoop s toks = .held temp := by
  induction toks with
  | nil => exact ⟨[], rfl⟩
  | cons t rest ih =>
    simp only [wellFormedTrophies, List.map_cons, List.all_cons, Bool.and_eq_true] at hw
    simp only [someTrophyShort, List.map_cons, List.any_cons, Bool.or_eq_false_iff] at hs
    obtain ⟨hw1, hw2⟩ := hw
    obtain ⟨hs1, hs2⟩ := hs
    obtain ⟨temp, ht⟩ := ih hw2 hs2
    unfold trophyLoop
    cases hsc : sscanf_d_line (trim t) with
    | none => simp [hsc] at hw1
    | some p =>
      obtain ⟨qty, name⟩ := p
      simp only [hsc, decide_eq_true_eq] at hw1
      simp only [hsc, Bool.not_eq_false'] at hs1
      have hq : ¬ qty ≤ 0 := by omega
      simp only [hq, if_false, hs1, Bool.not_true, Bool.false_eq_true, ht]
      exact ⟨_, rfl⟩

theorem learnEffectiveness_full (s : State) (left right counter kind : Str)
    (hscan : sscanf_s_s left = some (counter, kind))
    (hk : strcasecmp kind "sign".toList = 0 ∨ strcasecmp kind "potion".toList = 0)
    (hnew : findMonster s.bestiary (copyName (trim right)) = none)
    (hfull : ¬ s.bestiary.length < MAX_BESTIARY) :
    learnEffectiveness s left right = ⟨true, s, []⟩ := by
  unfold learnEffectiveness
  dsimp only
  rw [hscan]
  simp only
  have hc : (!decide (strcasecmp kind "sign".toList = 0) &&
      !decide (strcasecmp kind "potion".toList = 0)) = false := by
    rcases hk with h | h
    · rw [decide_eq_true h]
      rfl
    · rw [decide_eq_true h, Bool.not_true, Bool.and_false]
  rw [hc, hnew]
  simp only [Bool.false_eq_true, if_false, hfull]

theorem learnFormula_full (s : State) (learnPart : Str) (cpos : Nat) (name : Str)
    (comps : List Item)
    (hname : (strstr learnPart "potion".toList).map (fun ppos =>
      trim (learnPart.take (if ppos ≥ MAX_NAME_LEN then MAX_NAME_LEN - 1 else ppos))) = some name)
    (hcomps : componentLoop (strtok (trim (learnPart.drop (cpos + 11)))) 0 = some comps)
    (hnew : findFormula s.formulaBook name = none)
    (hfull : ¬ s.formulaBook.length < MAX_FORMULAS) :
    learnFormula s learnPart cpos = ⟨true, s, "INVALID\n".toList⟩ := by
  unfold learnFormula
  cases hp : strstr learnPart "potion".toList with
  | none => rfl
  | some ppos =>
    rw [hp, Option.map_some'] at hname
    have hn := Option.some.inj hname
    dsimp only
    rw [hcomps]
    simp only
    rw [hn, hnew]
    simp only [Option.isSome_none, Bool.false_eq_true, if_false, hfull]

theorem step_brew_created (slotOrder : List Item → List Item) (s : State) (input : Str)
    (f : Formula) (hq : endsWithQuestionMark input = false)
    (hp : strncmpEq input "Geralt brews ".toList 13 = true)
    (hf : findFormula s.formulaBook (trim (input.drop 13)) = some f)
    (hheld : ¬ brewShort s f) :
    step slotOrder s input =
      some (addItem (removeAll s f.components) (trim (input.drop 13)) 1,
        "Alchemy item created: ".toList ++ trim (input.drop 13) ++ "\n".toList) := by
  rw [step_brew slotOrder s input hq hp, processBrew_of_formula s input f hp hf]
  have hall : f.components.all (fun c => hasEnoughItem s c.name c.quantity) = true := by
    rw [List.all_eq_true]
    intro c hc
    cases hh : hasEnoughItem s c.name c.quantity with
    | true => rfl
    | false => exact absurd ⟨c, hc, hh⟩ hheld
  rw [if_pos hall]
  rfl

theorem step_encounter_defeats (slotOrder : List Item → List Item) (s : State) (input : Str)
    (hq : endsWithQuestionMark input = false)
    (hp : strncmpEq input "Geralt encounters a ".toList 20 = true)
    (hprep : ¬ unprepared s (trim (input.drop 20))) :
    ∃ s', step slotOrder s input =
      some (s', "Geralt defeats ".toList ++ trim (input.drop 20) ++ "\n".toList) := by
  rw [step_encounter slotOrder s input hq hp, processEncounter_eq s input hp, if_neg hprep]
  exact ⟨_, rfl⟩

theorem step_trade_successful (slotOrder : List Item → List Item) (s : State) (input : Str)
    (hq : endsWithQuestionMark input = false)
    (hp : strncmpEq input "Geralt trades ".toList 14 = true)
    (hfor : (tradeParts input).isSome = true)
    (hw : wellFormedTrophies (trophyTokens input) = true)
    (hheld : someTrophyShort s (trophyTokens input) = false)
    (hi : wellFormedEntries (ingredientTokens input) = true) :
    ∃ s', step slotOrder s input = some (s', "Trade successful\n".toList) := by
  rw [step_trade slotOrder s input hq hp, processTrade_eq s input hp]
  cases hparts : tradeParts input with
  | none => simp [hparts] at hfor
  | some parts =>
    obtain ⟨trophyPart, ingredientPart⟩ := parts
    have ht : trophyTokens input = (strtok trophyPart).map trim := by
      unfold trophyTokens
      rw [hparts]
    have hit : ingredientTokens input = strtok ingredientPart := by
      unfold ingredientTokens
      rw [hparts]
    rw [ht] at hw hheld
    rw [hit] at hi
    obtain ⟨temp, htemp⟩ := trophyLoop_held_of s _ hw hheld
    simp only [htemp, addEntries_wellFormed s _ hi]
    exact ⟨_, rfl⟩

theorem step_learn_full (slotOrder : List Item → List Item) (s : State) (input : Str)
    (counter kind enemy : Str)
    (hq : endsWithQuestionMark input = false)
    (hp : strncmpEq input "Geralt learns ".toList 14 = true)
    (hparse : learnParse input = some (counter, kind, enemy))
    (hk : strcasecmp kind "sign".toList = 0 ∨ strcasecmp kind "potion".toList = 0)
    (hnew : findMonster s.bestiary enemy = none)
    (hfull : ¬ s.bestiary.length < MAX_BESTIARY) :
    step slotOrder s input = some (s, []) := by
  obtain ⟨left, right, hscan, henemy, hproc⟩ :=
    processLearn_of_parse s input counter kind enemy hp hparse
  rw [henemy] at hnew
  rw [step_learn slotOrder s input hq hp, hproc,
    learnEffectiveness_full s left right counter kind hscan hk hnew hfull]
  rfl

theorem step_formula_full (slotOrder : List Item → List Item) (s : State) (input name : Str)
    (hq : endsWithQuestionMark input = false)
    (hp : strncmpEq input "Geralt learns ".toList 14 = true)
    (hform : isFormulaForm input = true)
    (hname : formulaName input = some name)
    (hgood : ((formulaTokens input).take MAX_COMPONENTS).any malformedEntry = false)
    (hnew : findFormula s.formulaBook name = none)
    (hfull : ¬ s.formulaBook.length < MAX_FORMULAS) :
    step slotOrder s input = some (s, "INVALID\n".toList) := by
  obtain ⟨cpos, hc, hproc⟩ := processLearn_formulaForm s input hp hform
  have htok : formulaTokens input = strtok (trim ((trim (input.drop 14)).drop (cpos + 11))) := by
    unfold formulaTokens
    rw [hc]
  rw [htok] at hgood
  obtain ⟨comps, hcomps⟩ := componentLoop_wellFormed _ 0 hgood
  have hn : (strstr (trim (input.drop 14)) "potion".toList).map (fun ppos =>
      trim ((trim (input.drop 14)).take
        (if ppos ≥ MAX_NAME_LEN then MAX_NAME_LEN - 1 else ppos))) = some name := by
    unfold formulaName at hname
    cases hpp : strstr (trim (input.drop 14)) "potion".toList with
    | none => rw [hpp] at hname; cases hname
    | some ppos =>
      rw [hpp] at hname
      exact hname
  rw [step_learn slotOrder s input hq hp, hproc,
    learnFormula_full s _ cpos name comps hn hcomps hnew hfull]
  rfl

/-! ## Lemmas on a formula without components -/

theorem isPotionName_spec {X : Str} (h : isPotionName X = true) :
    isEnemyName X = true ∧ X.length ≤ 62 ∧ isFormulaForm (learnEmpty X) = true ∧
      formulaName (learnEmpty X) = some X ∧ formulaTokens (learnEmpty X) = [] := by
  unfold isPotionName at h
  simp only [Bool.and_eq_true, decide_eq_true_eq, List.isEmpty_iff] at h
  obtain ⟨⟨⟨⟨h1, h2⟩, h3⟩, h4⟩, h5⟩ := h
  exact ⟨h1, h2, h3, h4, h5⟩

theorem learnFormula_new (s : State) (learnPart : Str) (cpos : Nat) (name : Str)
    (comps : List Item)
    (hname : (strstr learnPart "potion".toList).map (fun ppos =>
      trim (learnPart.take (if ppos ≥ MAX_NAME_LEN then MAX_NAME_LEN - 1 else ppos))) = some name)
    (hcomps : componentLoop (strtok (trim (learnPart.drop (cpos + 11)))) 0 = some comps)
    (hnew : findFormula s.formulaBook name = none)
    (hroom : s.formulaBook.length < MAX_FORMULAS) :
    learnFormula s learnPart cpos =
      ⟨true, ⟨s.inventory, s.formulaBook ++ [⟨copyName name, comps⟩], s.bestiary⟩,
        "New alchemy formula obtained: ".toList ++ name ++ "\n".toList⟩ := by
  unfold learnFormula
  cases hp : strstr learnPart "potion".toList with
  | none => rw [hp] at hname; cases hname
  | some ppos =>
    rw [hp, Option.map_some'] at hname
    have hn := Option.some.inj hname
    dsimp only
    rw [hcomps]
    simp only
    rw [hn, hnew]
    simp only [Option.isSome_none, Bool.false_eq_true, if_false, hroom, if_true]

theorem findFormula_append_new {b : List Formula} {X : Str} (x : Formula)
    (h : findFormula b X = none) (hx : strcasecmp x.potionName X = 0) :
    findFormula (b ++ [x]) X = some x := by
  induction b with
  | nil => simp [findFormula, hx]
  | cons y rest ih =>
    by_cases hy : strcasecmp y.potionName X = 0
    · simp [findFormula, hy] at h
    · simp only [findFormula, hy, if_false] at h
      rw [List.cons_append]
      simp only [findFormula, hy, if_false]
      exact ih h

theorem endsWithQuestionMark_of_last (m : Str) (b : Char) (hb : isspace b = false)
    (hq : b ≠ '?') : endsWithQuestionMark (m ++ [b]) = false := by
  unfold endsWithQuestionMark
  rw [List.rdropWhile_concat_neg _ _ _ (by simp [hb]), List.getLast?_concat]
  simpa using hq

theorem step_learnEmpty (slotOrder : List Item → List Item) (s : State) (X : Str)
    (hX : isPotionName X = true) (hnew : findFormula s.formulaBook X = none)
    (hroom : s.formulaBook.length < MAX_FORMULAS) :
    step slotOrder s (learnEmpty X) =
      some (⟨s.inventory, s.formulaBook ++ [⟨X, []⟩], s.bestiary⟩,
        "New alchemy formula obtained: ".toList ++ X ++ "\n".toList) := by
  obtain ⟨hE, _, hform, hname, htoks⟩ := isPotionName_spec hX
  obtain ⟨_, _, _, hlen⟩ := isEnemyName_spec hE
  have hq : endsWithQuestionMark (learnEmpty X) = false := by
    have e : learnEmpty X =
        ("Geralt learns ".toList ++ (X ++ " potion consists o".toList)) ++ ['f'] := by
      unfold learnEmpty
      simp only [List.append_assoc]
      rfl
    rw [e]
    exact endsWithQuestionMark_of_last _ 'f' (by decide) (by decide)
  have hp : strncmpEq (learnEmpty X) "Geralt learns ".toList 14 = true := rfl
  obtain ⟨cpos, hc, hproc⟩ := processLearn_formulaForm s (learnEmpty X) hp hform
  have htok : strtok (trim ((trim ((learnEmpty X).drop 14)).drop (cpos + 11))) = [] := by
    unfold formulaTokens at htoks
    rw [hc] at htoks
    exact htoks
  have hn : (strstr (trim ((learnEmpty X).drop 14)) "potion".toList).map (fun ppos =>
      trim ((trim ((learnEmpty X).drop 14)).take
        (if ppos ≥ MAX_NAME_LEN then MAX_NAME_LEN - 1 else ppos))) = some X := by
    unfold formulaName at hname
    cases hpp : strstr (trim ((learnEmpty X).drop 14)) "potion".toList with
    | none => rw [hpp] at hname; cases hname
    | some ppos =>
      rw [hpp] at hname
      exact hname
  have hcomps : componentLoop
      (strtok (trim ((trim ((learnEmpty X).drop 14)).drop (cpos + 11)))) 0 = some [] := by
    rw [htok]
    rfl
  rw [step_learn slotOrder s (learnEmpty X) hq hp, hproc,
    learnFormula_new s _ cpos X [] hn hcomps hnew hroom,
    copyName_of_short (by simpa using hlen)]
  rfl

theorem step_formulaQuery (slotOrder : List Item → List Item) (s : State) (X : Str)
    (f : Formula) (hE : isEnemyName X = true) (hlen : X.length ≤ 62)
    (hf : findFormula s.formulaBook X = some f) (hzero : f.components = []) :
    step slotOrder s (formulaQuery X) =
      some (s, "No formula for ".toList ++ X ++ "\n".toList) := by
  obtain ⟨_, _, hqm, _⟩ := isEnemyName_spec hE
  have hQ : formulaQuery X = 'W' :: (("hat is in ".toList ++ X) ++ ['?']) := by
    unfold formulaQuery
    simp only [List.append_assoc]
    rfl
  have hend : endsWithQuestionMark (formulaQuery X) = true := by
    rw [hQ, ← List.cons_append]
    exact endsWithQuestionMark_concat _
  have htrim : trim (formulaQuery X) = "What is in ".toList ++ (X ++ ['?']) := by
    rw [hQ, trim_cons_concat _ _ _ (by decide) (by decide)]
    simp only [List.append_assoc]
    rfl
  have h1 : strncasecmpEq ("What is in ".toList ++ (X ++ ['?']))
      "What is effective against".toList 25 = false := rfl
  have h2 : strncasecmpEq ("What is in ".toList ++ (X ++ ['?']))
      "Total ingredient".toList 16 = false := rfl
  have h3 : strncasecmpEq ("What is in ".toList ++ (X ++ ['?']))
      "Total potion".toList 12 = false := rfl
  have h4 : strncasecmpEq ("What is in ".toList ++ (X ++ ['?']))
      "Total trophy".toList 12 = false := rfl
  have h5 : strncasecmpEq ("What is in ".toList ++ (X ++ ['?']))
      "What is in".toList 10 = true := rfl
  have hname : trim (cutAt '?' (copyName
      (("What is in ".toList ++ (X ++ ['?'])).drop 10))) = X := by
    have hd : ("What is in ".toList ++ (X ++ ['?'])).drop 10 = (' ' :: X) ++ ['?'] := rfl
    rw [hd, copyName_query (' ' :: X)
      (fun c hc => by
        rcases List.mem_cons.1 hc with hc | hc
        · rw [hc]
          decide
        · exact hqm c hc)
      (by simp only [List.length_cons]; omega)]
    have ht : trim (' ' :: X) = trim X := by
      unfold trim
      rw [List.dropWhile_cons_of_pos (by decide)]
    rw [ht, trim_enemy hE]
  unfold step
  rw [hend]
  simp only [if_true]
  unfold processQuery
  rw [htrim]
  simp only [h1, h2, h3, h4, h5, if_true, Bool.false_eq_true, if_false, reportInvalid,
    queryFormula, hname, hf, hzero, List.length_nil]

theorem step_brewLine (slotOrder : List Item → List Item) (s : State) (X : Str)
    (f : Formula) (hE : isEnemyName X = true)
    (hf : findFormula s.formulaBook X = some f) (hzero : f.components = []) :
    step slotOrder s (brewLine X) =
      some (addItem s X 1, "Alchemy item created: ".toList ++ X ++ "\n".toList) := by
  obtain ⟨⟨m, b, hXeq, hb, hbq⟩, _, _, _⟩ := isEnemyName_spec hE
  have hq : endsWithQuestionMark (brewLine X) = false := by
    have e : brewLine X = ("Geralt brews ".toList ++ m) ++ [b] := by
      unfold brewLine
      rw [hXeq, List.append_assoc]
    rw [e]
    exact endsWithQuestionMark_of_last _ b hb hbq
  have hp : strncmpEq (brewLine X) "Geralt brews ".toList 13 = true := rfl
  have hd : trim ((brewLine X).drop 13) = X := by
    have e : (brewLine X).drop 13 = X := rfl
    rw [e, trim_enemy hE]
  have hf2 : findFormula s.formulaBook (trim ((brewLine X).drop 13)) = some f := by
    rw [hd]
    exact hf
  rw [step_brew slotOrder s (brewLine X) hq hp, processBrew_of_formula s (brewLine X) f hp hf2,
    hd, hzero]
  rfl

/-! ## One-word potion names -/

theorem startsWith_spaced {a b Xs T : Str} (ha : ∀ c ∈ a, isspace c = false)
    (hX : ∀ c ∈ Xs, isspace c = false)
    (h : startsWith (a ++ ' ' :: b) (Xs ++ ' ' :: T) = true) : startsWith b T = true := by
  induction a generalizing Xs with
  | nil =>
    cases Xs with
    | nil =>
      simp only [List.nil_append, startsWith, Bool.and_eq_true] at h
      exact h.2
    | cons x Xs1 =>
      simp only [List.nil_append, List.cons_append, startsWith, Bool.and_eq_true,
        beq_iff_eq] at h
      have hx := hX x (by simp)
      rw [← h.1] at hx
      exact absurd hx (by decide)
  | cons c a1 ih =>
    cases Xs with
    | nil =>
      simp only [List.nil_append, List.cons_append, startsWith, Bool.and_eq_true,
        beq_iff_eq] at h
      have hc := ha c (by simp)
      rw [h.1] at hc
      exact absurd hc (by decide)
    | cons x Xs1 =>
      simp only [List.cons_append, startsWith, Bool.and_eq_true] at h
      exact ih (fun d hd => ha d (by simp [hd])) (fun d hd => hX d (by simp [hd])) h.2

theorem startsWith_word {needle Xs T : Str} (hn : ∀ c ∈ needle, isspace c = false)
    (h : startsWith needle (Xs ++ ' ' :: T) = true) : startsWith needle Xs = true := by
  induction needle generalizing Xs with
  | nil => cases Xs <;> rfl
  | cons c n1 ih =>
    cases Xs with
    | nil =>
      simp only [List.nil_append, startsWith, Bool.and_eq_true, beq_iff_eq] at h
      have hc := hn c (by simp)
      rw [h.1] at hc
      exact absurd hc (by decide)
    | cons x Xs1 =>
      simp only [List.cons_append, startsWith, Bool.and_eq_true] at h ⊢
      exact ⟨h.1, ih (fun d hd => hn d (by simp [hd])) h.2⟩

theorem startsWith_of_strstr_none {X needle : Str} (h : strstr X needle = none) :
    ∀ Xs, Xs <:+ X → startsWith needle Xs = false := by
  induction X with
  | nil =>
    intro Xs hs
    rw [List.suffix_nil.1 hs]
    cases needle with
    | nil => simp [strstr] at h
    | cons c n1 => rfl
  | cons x X1 ih =>
    unfold strstr at h
    by_cases hsw : startsWith needle (x :: X1) = true
    · rw [if_pos hsw] at h
      cases h
    · rw [if_neg hsw] at h
      have h1 : strstr X1 needle = none := by
        cases hr : strstr X1 needle with
        | none => rfl
        | some k => rw [hr] at h; cases h
      intro Xs hs
      rcases List.suffix_cons_iff.1 hs with hs | hs
      · rw [hs]
        simpa using hsw
      · exact ih h1 Xs hs

theorem strstr_behind_word {needle X T : Str} {r : Option Nat}
    (hr : strstr (' ' :: T) needle = r)
    (hno : ∀ Xs, Xs ≠ [] → Xs <:+ X → startsWith needle (Xs ++ ' ' :: T) = false) :
    strstr (X ++ ' ' :: T) needle = r.map (· + X.length) := by
  induction X with
  | nil =>
    rw [List.nil_append, hr]
    cases r <;> rfl
  | cons x X1 ih =>
    have h0 := hno (x :: X1) (by simp) (List.suffix_refl _)
    rw [List.cons_append] at h0 ⊢
    unfold strstr
    rw [h0]
    simp only [Bool.false_eq_true, if_false]
    rw [ih (fun Xs hne hs => hno Xs hne (hs.trans (List.suffix_cons x X1)))]
    cases r with
    | none => rfl
    | some k =>
      simp only [Option.map_some', List.length_cons, Option.some.injEq]
      omega

/-- Every one-word name of at most 62 characters without a question mark and
without the text "potion" is a potion name that the three lines can carry. -/
theorem isPotionName_of_word (X : Str) (hw : isWord X = true) (hq : ∀ c ∈ X, c ≠ '?')
    (hlen : X.length ≤ 62) (hpot : strstr X "potion".toList = none) :
    isPotionName X = true := by
  obtain ⟨hne, hsp, _⟩ := isWord_spec hw
  have hL : (learnEmpty X).drop 14 = X ++ ' ' :: "potion consists of".toList := rfl
  have htrim : trim (X ++ ' ' :: "potion consists of".toList) =
      X ++ ' ' :: "potion consists of".toList := by
    cases X with
    | nil => exact absurd rfl hne
    | cons a X1 =>
      have e : (a :: X1) ++ ' ' :: "potion consists of".toList =
          a :: ((X1 ++ " potion consists o".toList) ++ ['f']) := by
        simp only [List.cons_append, List.append_assoc]
        rfl
      rw [e]
      exact trim_cons_concat a 'f' _ (hsp a (by simp)) (by decide)
  have hsuf : ∀ Xs, Xs <:+ X → ∀ c ∈ Xs, isspace c = false :=
    fun Xs hs c hc => hsp c (hs.subset hc)
  have h1 : strstr (X ++ ' ' :: "potion consists of".toList) "is effective against".toList
      = none := by
    have e : strstr (' ' :: "potion consists of".toList) "is effective against".toList = none := by
      decide
    rw [strstr_behind_word e (fun Xs _ hs => ?_)]
    · rfl
    · cases hsw : startsWith "is effective against".toList
          (Xs ++ ' ' :: "potion consists of".toList) with
      | false => rfl
      | true =>
        have e : "is effective against".toList =
            "is".toList ++ ' ' :: "effective against".toList := rfl
        rw [e] at hsw
        exact absurd (startsWith_spaced (by decide) (hsuf Xs hs) hsw) (by decide)
  have h2 : strstr (X ++ ' ' :: "potion consists of".toList) "consists of".toList
      = some (X.length + 8) := by
    have e : strstr (' ' :: "potion consists of".toList) "consists of".toList = some 8 := by
      decide
    rw [strstr_behind_word e (fun Xs _ hs => ?_)]
    · rw [Option.map_some', Nat.add_comm]
    · cases hsw : startsWith "consists of".toList
          (Xs ++ ' ' :: "potion consists of".toList) with
      | false => rfl
      | true =>
        have e : "consists of".toList = "consists".toList ++ ' ' :: "of".toList := rfl
        rw [e] at hsw
        exact absurd (startsWith_spaced (by decide) (hsuf Xs hs) hsw) (by decide)
  have h3 : strstr (X ++ ' ' :: "potion consists of".toList) "potion".toList
      = some (X.length + 1) := by
    have e : strstr (' ' :: "potion consists of".toList) "potion".toList = some 1 := by
      decide
    rw [strstr_behind_word e (fun Xs _ hs => ?_)]
    · rw [Option.map_some', Nat.add_comm]
    · cases hsw : startsWith "potion".toList (Xs ++ ' ' :: "potion consists of".toList) with
      | false => rfl
      | true =>
        have := startsWith_word (by decide) hsw
        rw [startsWith_of_strstr_none hpot Xs hs] at this
        cases this
  have hE : isEnemyName X = true := by
    unfold isEnemyName
    induction X using List.reverseRecOn with
    | nil => exact absurd rfl hne
    | append_singleton m b _ =>
      have hb : isspace b = false := hsp b (by simp)
      have hh : isspace ((m ++ [b]).headD ' ') = false := by
        cases m with
        | nil => exact hb
        | cons a m1 => exact hsp a (by simp)
      have hall : (m ++ [b]).all (fun c => c != '?') = true := by
        rw [List.all_eq_true]
        intro c hc
        simpa using hq c hc
      rw [List.getLastD_concat, hh, hb, hall]
      simp only [Bool.not_false, Bool.and_self, Bool.true_and, decide_eq_true_eq, MAX_NAME_LEN]
      omega
  have hname : formulaName (learnEmpty X) = some X := by
    unfold formulaName
    rw [hL, htrim, h3]
    simp only
    have hif : (if X.length + 1 ≥ MAX_NAME_LEN then MAX_NAME_LEN - 1 else X.length + 1) =
        X.length + 1 := by
      simp only [MAX_NAME_LEN]
      split <;> omega
    rw [hif, List.take_append_eq_append_take, List.take_of_length_le (by omega)]
    have e : List.take (X.length + 1 - X.length) (' ' :: "potion consists of".toList) = [' '] := by
      have : X.length + 1 - X.length = 1 := by omega
      rw [this]
      rfl
    rw [e]
    have ht : trim (X ++ [' ']) = trim X := by
      unfold trim
      cases X with
      | nil => exact absurd rfl hne
      | cons a X1 =>
        have ha : ¬ isspace a = true := by simp [hsp a (by simp)]
        rw [List.cons_append, List.dropWhile_cons_of_neg ha, List.dropWhile_cons_of_neg ha,
          ← List.cons_append, List.rdropWhile_concat_pos _ _ _ (by decide)]
    rw [ht, trim_word X hsp]
  have hform : isFormulaForm (learnEmpty X) = true := by
    unfold isFormulaForm
    rw [hL, htrim, h1, h2]
    rfl
  have htoks : formulaTokens (learnEmpty X) = [] := by
    unfold formulaTokens
    rw [hL, htrim, h2]
    simp only
    have h18 : "potion consists of".toList.length = 18 := rfl
    rw [List.drop_eq_nil_of_le (by
      simp only [List.length_append, List.length_cons, h18]
      omega)]
    rfl
  unfold isPotionName
  rw [hE, hform, hname, htoks]
  simp only [Bool.and_self, Bool.true_and, decide_eq_true_eq, decide_True, List.isEmpty_nil,
    Bool.and_true]
  exact hlen

/-! ## Lemmas on a trade that ends as INVALID -/

/-- C1. From the empty state, after any sequence of valid loot commands whose
names fit the name buffer and number at most 100 up to case, the inventory
records for every name `n` the sum of the looted quantities of the entries
named `n` up to case, and the query `Total ingredient n?` prints that sum. -/
theorem loot_totals_are_sums (slotOrder : List Item → List Item) (lines : List Str) (n : Str)
    (hvalid : ∀ l ∈ lines, validLoot l = true)
    (hlen : ∀ e ∈ lootedEntries lines, e.2.length < MAX_NAME_LEN)
    (hcap : (((lootedEntries lines).map (fun e => fold e.2)).dedup).length ≤ MAX_INGREDIENTS) :
    totalOf (run slotOrder State.empty lines).1.inventory n = lootedSum (lootedEntries lines) n ∧
    (queryName n = true →
      step slotOrder (run slotOrder State.empty lines).1
          ("Total ingredient ".toList ++ n ++ "?".toList) =
        some ((run slotOrder State.empty lines).1,
          fmt_d (lootedSum (lootedEntries lines) n) ++ "\n".toList)) := by
  have htot : totalOf (run slotOrder State.empty lines).1.inventory n =
      lootedSum (lootedEntries lines) n := by
    rw [run_validLoot slotOrder State.empty lines hvalid, foldl_addItem_inventory]
    exact (loot_invariant (lootedEntries lines) hlen hcap).2.2 n
  refine ⟨htot, fun hn => ?_⟩
  rw [step_totalIngredient slotOrder _ n hn, htot]

/-- C1 at the lines `Geralt loots 5 Vitriol, 2 Rebis` and `Geralt loots 3 vitriol`:
the total recorded and printed for `Vitriol` is 8. -/
theorem loot_totals_are_sums_witness :
    totalOf (run id State.empty
        ["Geralt loots 5 Vitriol, 2 Rebis".toList, "Geralt loots 3 vitriol".toList]).1.inventory
        "Vitriol".toList = 8 ∧
    step id (run id State.empty
        ["Geralt loots 5 Vitriol, 2 Rebis".toList, "Geralt loots 3 vitriol".toList]).1
        "Total ingredient Vitriol?".toList =
      some ((run id State.empty
        ["Geralt loots 5 Vitriol, 2 Rebis".toList, "Geralt loots 3 vitriol".toList]).1,
        "8\n".toList) := by
  have h := loot_totals_are_sums id
    ["Geralt loots 5 Vitriol, 2 Rebis".toList, "Geralt loots 3 vitriol".toList] "Vitriol".toList
    (by decide) (by decide) (by decide)
  exact ⟨h.1.trans (by decide), (h.2 (by decide)).trans (by decide)⟩

/-- C2, the claim as stated fails: in the state reached by looting 100
different names and learning the formula, with the inventory at its capacity
and no entry for the potion, `Geralt brews Swallow` finds its one
component held and prints "Alchemy item created: Swallow", but the quantity of
`Swallow` stays 0. -/
theorem brew_claim_fails_at_capacity :
    (run id State.empty
        [lootLineUpTo 100, "Geralt learns Swallow potion consists of 1 i0".toList]).1 =
      brewFullState ∧
    endsWithQuestionMark "Geralt brews Swallow".toList = false ∧
    findFormula brewFullState.formulaBook (trim ("Geralt brews Swallow".toList.drop 13)) =
      some ⟨"Swallow".toList, [⟨"i0".toList, 1⟩]⟩ ∧
    ¬ brewShort brewFullState ⟨"Swallow".toList, [⟨"i0".toList, 1⟩]⟩ ∧
    (step id brewFullState "Geralt brews Swallow".toList).map
        (fun r => (r.2, totalOf r.1.inventory "Swallow".toList)) =
      some ("Alchemy item created: Swallow\n".toList, 0) ∧
    totalOf brewFullState.inventory "Swallow".toList = 0 ∧
    ¬ brewClaim id brewFullState "Geralt brews Swallow".toList
        ⟨"Swallow".toList, [⟨"i0".toList, 1⟩]⟩ := by
  decide!

/-- C2 amended. For a command `Geralt brews P` whose potion has the formula
`f`: the output is "Not enough ingredients" with the inventory unchanged
exactly when a component is short; otherwise the output is "Alchemy item
created: P" and, provided the component names are pairwise different up to
case and different from `P`, and `P` has an inventory entry or there is room
for one, every component is lowered by exactly its required quantity and `P`
is raised by exactly one. -/
theorem brew_effect (slotOrder : List Item → List Item) (s : State) (input : Str) (f : Formula)
    (hq : endsWithQuestionMark input = false)
    (hp : strncmpEq input "Geralt brews ".toList 13 = true)
    (hf : findFormula s.formulaBook (trim (input.drop 13)) = some f) :
    ∃ s' out, step slotOrder s input = some (s', out) ∧
      ((out = "Not enough ingredients\n".toList ∧ s'.inventory = s.inventory) ↔ brewShort s f) ∧
      (¬ brewShort s f →
        out = "Alchemy item created: ".toList ++ trim (input.drop 13) ++ "\n".toList ∧
        ((f.components.map (fun c => fold c.name)).Nodup →
          fold (trim (input.drop 13)) ∉ f.components.map (fun c => fold c.name) →
          canAdd s.inventory (trim (input.drop 13)) →
          brewExact s s' (trim (input.drop 13)) f)) := by
  rw [step_brew slotOrder s input hq hp, processBrew_of_formula s input f hp hf]
  by_cases hall : f.components.all (fun c => hasEnoughItem s c.name c.quantity) = true
  · have hall' : ∀ c ∈ f.components, hasEnoughInv s.inventory c.name c.quantity = true := by
      simpa [hasEnoughItem] using hall
    have hns : ¬ brewShort s f := by
      rintro ⟨c, hc, hfalse⟩
      have := hall' c hc
      rw [hasEnoughItem] at hfalse
      rw [this] at hfalse
      cases hfalse
    simp only [hall, if_true, reportInvalid]
    refine ⟨_, _, rfl, ⟨fun h => absurd h.1 (created_ne_notEnough _), fun h => absurd h hns⟩,
      fun _ => ⟨rfl, fun hnd hP hroom => ?_⟩⟩
    have hinv : (addItem (removeAll s f.components) (trim (input.drop 13)) 1).inventory =
        addItemInv (f.components.foldl
          (fun inv it => (removeItemInv inv it.name it.quantity).2) s.inventory)
          (trim (input.drop 13)) 1 := by
      simp only [addItem, (removeAll_inventory s f.components).1]
    have hroom' := canAdd_of_names (names_removeFold f.components s.inventory) hroom
    refine ⟨fun c hc => ?_, ?_⟩
    · rw [hinv, totalOf_addItemInv _ _ _ _ hroom', totalOf_removeFold _ _ hnd hall',
        sum_filter_of_mem_nodup _ c hc hnd]
      have hne : ¬ fold (trim (input.drop 13)) = fold c.name := by
        intro e
        apply hP
        rw [e]
        exact List.mem_map_of_mem (fun c => fold c.name) hc
      simp [hne]
    · rw [hinv, totalOf_addItemInv _ _ _ _ hroom', totalOf_removeFold _ _ hnd hall',
        sum_filter_of_not_mem _ _ hP]
      simp
  · have hex : brewShort s f := by
      unfold brewShort
      simpa using hall
    simp only [hall, Bool.false_eq_true, if_false, reportInvalid, if_true]
    exact ⟨_, _, rfl, ⟨fun _ => hex, fun _ => ⟨rfl, rfl⟩⟩, fun h => absurd hex h⟩

/-- C2 amended at `Geralt brews Swallow` with three `Vitriol` held and the
formula "2 Vitriol": one `Vitriol` is left and one `Swallow` is held. -/
theorem brew_effect_witness :
    ∃ s' out,
      step id ⟨[⟨"Vitriol".toList, 3⟩], [⟨"Swallow".toList, [⟨"Vitriol".toList, 2⟩]⟩], []⟩
        "Geralt brews Swallow".toList = some (s', out) ∧
      out = "Alchemy item created: Swallow\n".toList ∧
      totalOf s'.inventory "Vitriol".toList = 1 ∧ totalOf s'.inventory "Swallow".toList = 1 := by
  obtain ⟨s', out, hstep, _, h⟩ := brew_effect id
    ⟨[⟨"Vitriol".toList, 3⟩], [⟨"Swallow".toList, [⟨"Vitriol".toList, 2⟩]⟩], []⟩
    "Geralt brews Swallow".toList ⟨"Swallow".toList, [⟨"Vitriol".toList, 2⟩]⟩
    (by decide) (by decide) (by decide)
  obtain ⟨hout, hexact⟩ := h (by decide)
  obtain ⟨hc, hP⟩ := hexact (by decide) (by decide) (Or.inr (by decide))
  refine ⟨s', out, hstep, hout.trans (by decide), ?_, ?_⟩
  · exact (hc ⟨"Vitriol".toList, 2⟩ (by decide)).trans (by decide)
  · exact hP.trans (by decide)

/-- C3, the claim as stated fails: in the state reached by winning one
`Leshen trophy` and looting 99 different names, with the inventory at its
capacity of 100 entries, `Geralt trades 1 Leshen trophy for 1 Rebis` prints "Trade
successful" and takes the trophy (1 before, 0 after), but no `Rebis` is
recorded (0 before, 0 after). -/
theorem trade_claim_fails_at_capacity :
    (run id State.empty
        ["Geralt learns Igni sign is effective against Leshen".toList,
          "Geralt encounters a Leshen".toList, lootLineUpTo 99]).1 = tradeFullState ∧
    listedTrophies "Geralt trades 1 Leshen trophy for 1 Rebis".toList =
      [(1, "Leshen trophy".toList)] ∧
    listedIngredients "Geralt trades 1 Leshen trophy for 1 Rebis".toList =
      [(1, "Rebis".toList)] ∧
    totalOf tradeFullState.inventory "Leshen trophy".toList = 1 ∧
    totalOf tradeFullState.inventory "Rebis".toList = 0 ∧
    (step id tradeFullState "Geralt trades 1 Leshen trophy for 1 Rebis".toList).map
        (fun r => (r.2, totalOf r.1.inventory "Leshen trophy".toList,
          totalOf r.1.inventory "Rebis".toList)) =
      some ("Trade successful\n".toList, 0, 0) ∧
    ¬ tradeClaim id tradeFullState "Geralt trades 1 Leshen trophy for 1 Rebis".toList := by
  decide!

/-- C3 amended. For every state and every trade command: either "Trade
successful" is printed, and then, provided the listed names are pairwise
different up to case and fit the name buffer and the inventory has room for
the listed ingredients without an entry, every listed trophy is lower by
exactly its listed quantity and every listed ingredient higher by exactly its
listed quantity; or no inventory quantity at all is lower than before. -/
theorem trade_effect (slotOrder : List Item → List Item) (s : State) (input : Str)
    (hq : endsWithQuestionMark input = false)
    (hp : strncmpEq input "Geralt trades ".toList 14 = true) :
    ∃ s' out, step slotOrder s input = some (s', out) ∧
      ((out = "Trade successful\n".toList ∧ (tradeDistinct s input → tradeExact s s' input)) ∨
        ∀ n, totalOf s.inventory n ≤ totalOf s'.inventory n) := by
  rw [step_trade slotOrder s input hq hp, processTrade_eq s input hp]
  cases hparts : tradeParts input with
  | none => exact ⟨_, _, rfl, Or.inr (fun n => le_refl _)⟩
  | some parts =>
    obtain ⟨trophyPart, ingredientPart⟩ := parts
    simp only
    cases hloop : trophyLoop s (strtok trophyPart) with
    | malformed => exact ⟨_, _, rfl, Or.inr (fun n => le_refl _)⟩
    | notEnough => exact ⟨_, _, rfl, Or.inr (fun n => le_refl _)⟩
    | held temp =>
      simp only
      cases hadd : addEntries s (strtok ingredientPart) with
      | mk b s1 =>
        cases b with
        | false =>
          refine ⟨_, _, rfl, Or.inr (fun n => ?_)⟩
          have := totalOf_addEntries_ge s (strtok ingredientPart) n
          rw [hadd] at this
          exact this
        | true =>
          refine ⟨_, _, rfl, Or.inl ⟨rfl, fun hd => ?_⟩⟩
          obtain ⟨hT, hTfit, hI, hIfit, hTI, hroom⟩ := hd
          have hLT : listedTrophies input =
              (strtok trophyPart).filterMap (fun t => sscanf_d_line (trim t)) := by
            unfold listedTrophies
            rw [hparts]
          have hLI : listedIngredients input = entriesOf (strtok ingredientPart) := by
            unfold listedIngredients
            rw [hparts]
          obtain ⟨htemp, hheld⟩ := trophyLoop_held hloop
          rw [← hLT] at htemp hheld
          have hs1 : s1 = (listedIngredients input).foldl (fun st e => addItem st e.2 e.1) s := by
            have := addEntries_wellFormed s _ (wellFormedEntries_of_addEntries hadd)
            rw [hadd, ← hLI] at this
            exact (Prod.mk.inj this).2
          have hs1inv : s1.inventory =
              (listedIngredients input).foldl (fun inv e => addItemInv inv e.2 e.1) s.inventory := by
            rw [hs1, foldl_addItem_inventory]
          have htemp' : temp = (listedTrophies input).map (fun t => ⟨t.2, t.1⟩) := by
            rw [htemp]
            apply List.map_congr_left
            intro t ht
            rw [copyName_of_short (hTfit t ht)]
          have htempnames : temp.map (fun c => fold c.name) =
              (listedTrophies input).map (fun t => fold t.2) := by
            rw [htemp', List.map_map]
            rfl
          have hadded : ∀ n, totalOf s1.inventory n = totalOf s.inventory n +
              (((listedIngredients input).filter
                (fun e => decide (fold e.2 = fold n))).map (·.1)).sum := by
            intro n
            rw [hs1inv]
            exact totalOf_addFold _ _ hI hIfit hroom n
          have henough : ∀ c ∈ temp, hasEnoughInv s1.inventory c.name c.quantity = true := by
            intro c hc
            rw [htemp'] at hc
            obtain ⟨t, ht, rfl⟩ := List.mem_map.1 hc
            have h0 := hheld t ht
            rw [hasEnoughItem, hasEnoughInv_eq, Bool.and_eq_true] at h0
            rw [hasEnoughInv_eq, Bool.and_eq_true]
            refine ⟨?_, ?_⟩
            · rw [hs1inv]
              exact hasEntry_addFold_of_hasEntry _ h0.1
            · rw [hadded, sum_pairs_of_not_mem _ _ (hTI t ht)]
              simpa using h0.2
          have hremoved : ∀ n, totalOf (removeAll s1 temp).inventory n = totalOf s1.inventory n -
              ((temp.filter (fun c => decide (fold c.name = fold n))).map (·.quantity)).sum := by
            intro n
            rw [(removeAll_inventory s1 temp).1]
            exact totalOf_removeFold temp s1.inventory (by rw [htempnames]; exact hT) henough n
          refine ⟨fun t ht => ?_, fun e he => ?_⟩
          · have hmem : (⟨t.2, t.1⟩ : Item) ∈ temp := by
              rw [htemp']
              exact List.mem_map_of_mem (fun t : Int × Str => (⟨t.2, t.1⟩ : Item)) ht
            have hsum := sum_filter_of_mem_nodup temp ⟨t.2, t.1⟩ hmem
              (by rw [htempnames]; exact hT)
            simp only at hsum
            rw [hremoved, hsum, hadded, sum_pairs_of_not_mem _ _ (hTI t ht)]
            simp
          · have hnot : fold e.2 ∉ temp.map (fun c => fold c.name) := by
              rw [htempnames]
              intro hin
              obtain ⟨t, ht, heq⟩ := List.mem_map.1 hin
              apply hTI t ht
              rw [heq]
              exact List.mem_map_of_mem (fun e => fold e.2) he
            rw [hremoved, sum_filter_of_not_mem _ _ hnot, hadded,
              sum_pairs_of_mem_nodup _ e he hI]
            simp

/-- C3 amended at `Geralt trades 1 Leshen trophy for 3 Rebis` with two
trophies held: one trophy is left and three `Rebis` are held. -/
theorem trade_effect_witness :
    ∃ s' out,
      step id ⟨[⟨"Leshen trophy".toList, 2⟩], [], []⟩
        "Geralt trades 1 Leshen trophy for 3 Rebis".toList = some (s', out) ∧
      out = "Trade successful\n".toList ∧
      totalOf s'.inventory "Leshen trophy".toList = 1 ∧
      totalOf s'.inventory "Rebis".toList = 3 := by
  obtain ⟨s', out, hstep, h⟩ := trade_effect id ⟨[⟨"Leshen trophy".toList, 2⟩], [], []⟩
    "Geralt trades 1 Leshen trophy for 3 Rebis".toList (by decide) (by decide)
  have hc : step id ⟨[⟨"Leshen trophy".toList, 2⟩], [], []⟩
      "Geralt trades 1 Leshen trophy for 3 Rebis".toList =
      some (⟨[⟨"Leshen trophy".toList, 1⟩, ⟨"Rebis".toList, 3⟩], [], []⟩,
        "Trade successful\n".toList) := by decide
  rw [hc] at hstep
  obtain ⟨rfl, rfl⟩ := Prod.mk.inj (Option.some.inj hstep)
  exact ⟨_, _, hc, rfl, by decide, by decide⟩

/-- C4 (code defect): the formula query prints the components in the order in
which `qsort` left the pointer array, an order the comparator never derives
from the components; for the formula learned as "1 Vitriol, 2 Rebis" the
output with the slots left as filled is "1 Vitriol, 2 Rebis", not the sorted
"2 Rebis, 1 Vitriol". -/
theorem formula_query_prints_slot_order :
    (run id State.empty
        ["Geralt learns Swallow potion consists of 1 Vitriol, 2 Rebis".toList]).1 =
      ⟨[], [⟨"Swallow".toList, [⟨"Vitriol".toList, 1⟩, ⟨"Rebis".toList, 2⟩]⟩], []⟩ ∧
    (∀ slotOrder : List Item → List Item,
      step slotOrder ⟨[], [⟨"Swallow".toList, [⟨"Vitriol".toList, 1⟩, ⟨"Rebis".toList, 2⟩]⟩], []⟩
          "What is in Swallow?".toList =
        some (⟨[], [⟨"Swallow".toList, [⟨"Vitriol".toList, 1⟩, ⟨"Rebis".toList, 2⟩]⟩], []⟩,
          printItems (slotOrder [⟨"Vitriol".toList, 1⟩, ⟨"Rebis".toList, 2⟩]) ++ "\n".toList)) ∧
    step id ⟨[], [⟨"Swallow".toList, [⟨"Vitriol".toList, 1⟩, ⟨"Rebis".toList, 2⟩]⟩], []⟩
        "What is in Swallow?".toList =
      some (⟨[], [⟨"Swallow".toList, [⟨"Vitriol".toList, 1⟩, ⟨"Rebis".toList, 2⟩]⟩], []⟩,
        "1 Vitriol, 2 Rebis\n".toList) ∧
    compareComponents ⟨"Vitriol".toList, 1⟩ ⟨"Rebis".toList, 2⟩ > 0 := by
  refine ⟨by decide, fun slotOrder => ?_, by decide, by decide⟩
  rfl

/-- C6 (code defect): `Geralt loots 5 Vitriol, Rebis` is reported INVALID, yet
the well-formed entry before the bad one has been added. -/
theorem loot_invalid_keeps_earlier_entries :
    step id State.empty "Geralt loots 5 Vitriol, Rebis".toList =
      some (⟨[⟨"Vitriol".toList, 5⟩], [], []⟩, "INVALID\n".toList) := by
  decide

/-- C7. For every state and every trade command whose trophy entries are all
well-formed: if some listed trophy is not held in at least the listed
quantity, the output is "Not enough trophies" and the state is unchanged,
whatever the ingredient part holds. -/
theorem trade_not_enough_trophies (slotOrder : List Item → List Item) (s : State) (input : Str)
    (hq : endsWithQuestionMark input = false)
    (hp : strncmpEq input "Geralt trades ".toList 14 = true)
    (hfor : (tradeParts input).isSome = true)
    (hw : wellFormedTrophies (trophyTokens input) = true)
    (hshort : someTrophyShort s (trophyTokens input) = true) :
    step slotOrder s input = some (s, "Not enough trophies\n".toList) := by
  rw [step_trade slotOrder s input hq hp, processTrade_eq s input hp]
  cases hparts : tradeParts input with
  | none => simp [hparts] at hfor
  | some parts =>
    obtain ⟨trophyPart, ingredientPart⟩ := parts
    have ht : trophyTokens input = (strtok trophyPart).map trim := by
      unfold trophyTokens
      rw [hparts]
    rw [ht] at hw hshort
    simp only [trophyLoop_notEnough s _ hw hshort]
    rfl

/-- C7 at `Geralt trades 2 Leshen trophy for 3 Rebis, junk` with one trophy
held: the ingredient part, malformed as it is, is never read. -/
theorem trade_not_enough_trophies_witness :
    step id ⟨[⟨"Leshen trophy".toList, 1⟩], [], []⟩
        "Geralt trades 2 Leshen trophy for 3 Rebis, junk".toList =
      some (⟨[⟨"Leshen trophy".toList, 1⟩], [], []⟩, "Not enough trophies\n".toList) :=
  trade_not_enough_trophies id ⟨[⟨"Leshen trophy".toList, 1⟩], [], []⟩
    "Geralt trades 2 Leshen trophy for 3 Rebis, junk".toList
    (by decide) (by decide) (by decide) (by decide) (by decide)

/-- C9, the claim as stated fails: in the state reached by looting 100
different names and learning the sign `Igni` against `Leshen`, `Geralt encounters a
Leshen` prints "Geralt defeats Leshen" but no trophy is recorded: the
quantity of `Leshen trophy` is 0 before and after. -/
theorem encounter_claim_fails_at_capacity :
    (run id State.empty
        [lootLineUpTo 100, "Geralt learns Igni sign is effective against Leshen".toList]).1 =
      encounterFullState ∧
    ¬ unprepared encounterFullState (trim ("Geralt encounters a Leshen".toList.drop 20)) ∧
    step id encounterFullState "Geralt encounters a Leshen".toList =
      some (encounterFullState, "Geralt defeats Leshen\n".toList) ∧
    totalOf encounterFullState.inventory "Leshen trophy".toList = 0 ∧
    ¬ encounterClaim id encounterFullState "Geralt encounters a Leshen".toList := by
  have hstep : step id encounterFullState "Geralt encounters a Leshen".toList =
      some (encounterFullState, "Geralt defeats Leshen\n".toList) := by decide!
  have hun : ¬ unprepared encounterFullState (trim ("Geralt encounters a Leshen".toList.drop 20)) := by
    decide
  refine ⟨by decide!, hun, hstep, by decide!, fun h => ?_⟩
  unfold encounterClaim at h
  rw [hstep] at h
  have h1 := ((h.2 hun).2).1
  revert h1
  decide!

/-- C9 amended. For every state and every command `Geralt encounters a M`: the
output is "Geralt is unprepared and barely escapes with his life" with the
state unchanged exactly when `M` has no bestiary entry or its entry has no
sign set and no potion set that is held; otherwise the output is "Geralt
defeats M" and the bestiary and the formulas are unchanged, and, provided the
trophy name `M trophy` fits the name buffer, has an inventory entry or room
for one, and is not the name of the potion used, the trophy is raised by
exactly one, the potion used is lowered by exactly one and no other quantity
changes. -/
theorem encounter_effect (slotOrder : List Item → List Item) (s : State) (input : Str)
    (hq : endsWithQuestionMark input = false)
    (hp : strncmpEq input "Geralt encounters a ".toList 20 = true) :
    ∃ s' out, step slotOrder s input = some (s', out) ∧
      ((out = "Geralt is unprepared and barely escapes with his life\n".toList ∧ s' = s) ↔
        unprepared s (trim (input.drop 20))) ∧
      (¬ unprepared s (trim (input.drop 20)) →
        out = "Geralt defeats ".toList ++ trim (input.drop 20) ++ "\n".toList ∧
        s'.bestiary = s.bestiary ∧ s'.formulaBook = s.formulaBook ∧
        ((trim (input.drop 20)).length + 7 < MAX_NAME_LEN →
          canAdd s.inventory (trim (input.drop 20) ++ " trophy".toList) →
          (∀ p ∈ potionUsed s (trim (input.drop 20)),
            fold p ≠ fold (trim (input.drop 20) ++ " trophy".toList)) →
          encounterExact s s' (trim (input.drop 20)))) := by
  rw [step_encounter slotOrder s input hq hp, processEncounter_eq s input hp]
  generalize trim (input.drop 20) = M
  by_cases hun : unprepared s M
  · rw [if_pos hun]
    exact ⟨_, _, rfl, ⟨fun _ => hun, fun _ => ⟨rfl, rfl⟩⟩, fun h => absurd hun h⟩
  · rw [if_neg hun]
    refine ⟨_, _, rfl, ⟨fun h => absurd h.1 (defeats_ne_unprepared M), fun h => absurd h hun⟩,
      fun _ => ⟨rfl, ?_, ?_, fun hfit hcan hne => ?_⟩⟩
    · cases potionUsed s M <;> rfl
    · cases potionUsed s M <;> rfl
    · have hT : (M ++ " trophy".toList).take (MAX_NAME_LEN - 1) = M ++ " trophy".toList := by
        apply List.take_of_length_le
        have : (M ++ " trophy".toList).length = M.length + 7 := by
          rw [List.length_append]
          rfl
        rw [this]
        simp only [MAX_NAME_LEN] at hfit ⊢
        omega
      simp only [reportInvalid, if_true]
      rw [hT]
      unfold encounterExact
      clear hT hfit
      generalize M ++ " trophy".toList = T at hcan hne ⊢
      cases hu : potionUsed s M with
      | none =>
        rw [hu] at hne
        have htot : ∀ n, totalOf (addItem s T 1).inventory n =
            totalOf s.inventory n + if fold T = fold n then 1 else 0 :=
          fun n => totalOf_addItemInv s.inventory _ 1 n hcan
        refine ⟨?_, ?_, ?_, rfl⟩
        · rw [htot]
          simp
        · intro p hpu
          cases hpu
        · intro n hn1 _
          have hn1' : ¬ fold T = fold n := fun e => hn1 e.symm
          rw [htot]
          simp [hn1']
      | some p =>
        rw [hu] at hne
        have hheld : hasEnoughInv s.inventory p 1 = true := potionUsed_held hu
        have hpT : fold p ≠ fold T := hne p rfl
        have htot : ∀ n, totalOf (addItem (removeItem s p 1) T 1).inventory n =
            totalOf s.inventory n - (if fold p = fold n then 1 else 0) +
              if fold T = fold n then 1 else 0 := by
          intro n
          have h1 := totalOf_addItemInv (removeItemInv s.inventory p 1).2 T 1 n
            (canAdd_of_names (names_removeItemInv s.inventory p 1) hcan)
          rw [totalOf_removeItemInv s.inventory p 1 n hheld] at h1
          exact h1
        refine ⟨?_, ?_, ?_, rfl⟩
        · rw [htot]
          simp [hpT]
        · intro p' hpu
          simp only [Option.mem_def, Option.some.injEq] at hpu
          subst hpu
          rw [htot]
          have : ¬ fold T = fold p := fun e => hpT e.symm
          simp [this]
        · intro n hn1 hn2
          have hn1' : ¬ fold T = fold n := fun e => hn1 e.symm
          have hn2' : ¬ fold p = fold n := fun e => hn2 p rfl e.symm
          rw [htot]
          simp [hn1', hn2']

/-- C9 amended at `Geralt encounters a Leshen` with the potion `Swallow` known
and held twice: one `Swallow` is left and one `Leshen trophy` is held. -/
theorem encounter_effect_witness :
    ∃ s' out,
      step id ⟨[⟨"Swallow".toList, 2⟩], [], [⟨"Leshen".toList, "Swallow".toList, []⟩]⟩
        "Geralt encounters a Leshen".toList = some (s', out) ∧
      out = "Geralt defeats Leshen\n".toList ∧
      totalOf s'.inventory "Swallow".toList = 1 ∧
      totalOf s'.inventory "Leshen trophy".toList = 1 := by
  obtain ⟨s', out, hstep, _, h⟩ := encounter_effect id
    ⟨[⟨"Swallow".toList, 2⟩], [], [⟨"Leshen".toList, "Swallow".toList, []⟩]⟩
    "Geralt encounters a Leshen".toList (by decide) (by decide)
  obtain ⟨hout, _, _, hexact⟩ := h (by decide)
  obtain ⟨hT, hP, _, _⟩ := hexact (by decide) (Or.inr (by decide)) (by decide)
  refine ⟨s', out, hstep, hout.trans (by decide), ?_, ?_⟩
  · exact (hP "Swallow".toList (by decide)).trans (by decide)
  · exact hT.trans (by decide)

/-- C10, the claim as stated fails: in the state reached by learning a sign
against 100 different monsters, with the bestiary at its capacity, the well-formed command `Geralt learns Swallow potion is effective
against Leshen` for the unknown enemy `Leshen` appends no entry and prints
nothing at all. -/
theorem learn_claim_fails_at_capacity :
    (run id State.empty (learnLinesUpTo 100)).1 = learnFullState ∧
    learnParse "Geralt learns Swallow potion is effective against Leshen".toList =
      some ("Swallow".toList, "potion".toList, "Leshen".toList) ∧
    findMonster learnFullState.bestiary "Leshen".toList = none ∧
    step id learnFullState "Geralt learns Swallow potion is effective against Leshen".toList =
      some (learnFullState, []) ∧
    ¬ (∃ s' out,
        step id learnFullState
          "Geralt learns Swallow potion is effective against Leshen".toList = some (s', out) ∧
        s'.bestiary = learnFullState.bestiary ++
          [newEntry false "Leshen".toList "Swallow".toList] ∧
        out = "New bestiary entry added: Leshen\n".toList) := by
  have hstep : step id learnFullState
      "Geralt learns Swallow potion is effective against Leshen".toList =
      some (learnFullState, []) := by decide!
  refine ⟨by decide!, by decide, by decide!, hstep, ?_⟩
  rintro ⟨s', out, h1, _, h3⟩
  rw [hstep] at h1
  obtain ⟨rfl, rfl⟩ := Prod.mk.inj (Option.some.inj h1)
  exact absurd h3 (by decide)

/-- C10 amended. For every state and every command `Geralt learns <counter>
<kind> is effective against <enemy>` whose counter fits the name buffer, the
inventory and the formulas are unchanged and: a kind other than sign or potion
yields INVALID with no change; for an unknown enemy, if the bestiary has fewer
than 100 entries a new entry with only the slot of that kind set to the
counter is appended and "New bestiary entry added: <enemy>" is printed, and if
the bestiary is full nothing changes and nothing is printed; for a known enemy
whose slot holds the counter up to case, "Already known effectiveness" is
printed with no change; otherwise only that slot of the first entry of the
enemy is overwritten and "Bestiary entry updated: <enemy>" is printed. -/
theorem learn_effect (slotOrder : List Item → List Item) (s : State) (input : Str)
    (counter kind enemy : Str)
    (hq : endsWithQuestionMark input = false)
    (hp : strncmpEq input "Geralt learns ".toList 14 = true)
    (hparse : learnParse input = some (counter, kind, enemy))
    (hfit : counter.length < MAX_NAME_LEN) :
    ∃ s' out, step slotOrder s input = some (s', out) ∧
      s'.inventory = s.inventory ∧ s'.formulaBook = s.formulaBook ∧
      (¬ (strcasecmp kind "sign".toList = 0 ∨ strcasecmp kind "potion".toList = 0) →
        out = "INVALID\n".toList ∧ s' = s) ∧
      ((strcasecmp kind "sign".toList = 0 ∨ strcasecmp kind "potion".toList = 0) →
        (findMonster s.bestiary enemy = none → s.bestiary.length < MAX_BESTIARY →
          s'.bestiary = s.bestiary ++
              [newEntry (decide (strcasecmp kind "sign".toList = 0)) enemy counter] ∧
            out = "New bestiary entry added: ".toList ++ enemy ++ "\n".toList) ∧
        (findMonster s.bestiary enemy = none → ¬ s.bestiary.length < MAX_BESTIARY →
          s' = s ∧ out = []) ∧
        (∀ e, findMonster s.bestiary enemy = some e →
          strcasecmp (slotOf (decide (strcasecmp kind "sign".toList = 0)) e) counter = 0 →
          out = "Already known effectiveness\n".toList ∧ s' = s) ∧
        (∀ e, findMonster s.bestiary enemy = some e →
          strcasecmp (slotOf (decide (strcasecmp kind "sign".toList = 0)) e) counter ≠ 0 →
          out = "Bestiary entry updated: ".toList ++ enemy ++ "\n".toList ∧
          ∃ pre post, s.bestiary = pre ++ e :: post ∧
            (∀ x ∈ pre, strcasecmp x.monsterName enemy ≠ 0) ∧
            s'.bestiary = pre ++
              withSlot (decide (strcasecmp kind "sign".toList = 0)) e counter :: post)) := by
  obtain ⟨left, right, hscan, henemy, hproc⟩ := processLearn_of_parse s input counter kind enemy hp hparse
  rw [step_learn slotOrder s input hq hp, hproc, learnEffectiveness_eq s left right counter kind hscan hfit,
    ← henemy]
  by_cases hk : strcasecmp kind "sign".toList = 0 ∨ strcasecmp kind "potion".toList = 0
  · rw [if_pos hk]
    cases hfm : findMonster s.bestiary enemy with
    | none =>
      dsimp only
      by_cases hroom : s.bestiary.length < MAX_BESTIARY
      · rw [if_pos hroom]
        simp only [reportInvalid, if_true]
        refine ⟨_, _, rfl, rfl, rfl, fun h => absurd hk h, fun _ => ⟨fun _ _ => ⟨rfl, rfl⟩,
          fun _ h => absurd hroom h, fun e he => ?_, fun e he => ?_⟩⟩
        · cases he
        · cases he
      · rw [if_neg hroom]
        simp only [reportInvalid, if_true]
        refine ⟨_, _, rfl, rfl, rfl, fun h => absurd hk h, fun _ => ⟨fun _ h => absurd h hroom,
          fun _ _ => ⟨rfl, rfl⟩, fun e he => ?_, fun e he => ?_⟩⟩
        · cases he
        · cases he
    | some e =>
      dsimp only
      by_cases hslot : strcasecmp (slotOf (decide (strcasecmp kind "sign".toList = 0)) e) counter = 0
      · rw [if_pos hslot]
        simp only [reportInvalid, if_true]
        refine ⟨_, _, rfl, rfl, rfl, fun h => absurd hk h, fun _ => ⟨fun h => ?_, fun h => ?_,
          fun e' he' _ => ⟨rfl, rfl⟩, fun e' he' hne => ?_⟩⟩
        · cases h
        · cases h
        · obtain rfl := Option.some.inj he'
          exact absurd hslot hne
      · rw [if_neg hslot]
        simp only [reportInvalid, if_true]
        refine ⟨_, _, rfl, rfl, rfl, fun h => absurd hk h, fun _ => ⟨fun h => ?_, fun h => ?_,
          fun e' he' h0 => ?_, fun e' he' _ => ⟨rfl, ?_⟩⟩⟩
        · cases h
        · cases h
        · obtain rfl := Option.some.inj he'
          exact absurd h0 hslot
        · obtain rfl := Option.some.inj he'
          exact updateEntry_spec _ hfm
  · rw [if_neg hk]
    exact ⟨_, _, rfl, rfl, rfl, fun _ => ⟨rfl, rfl⟩, fun h => absurd h hk⟩

/-- C10 amended at `Geralt learns Igni sign is effective against Leshen` with
the potion `Swallow` already known against `Leshen`: only the sign slot of
that entry is set. -/
theorem learn_effect_witness :
    ∃ s' out,
      step id ⟨[], [], [⟨"Leshen".toList, "Swallow".toList, []⟩]⟩
        "Geralt learns Igni sign is effective against Leshen".toList = some (s', out) ∧
      out = "Bestiary entry updated: Leshen\n".toList ∧
      s'.bestiary = [⟨"Leshen".toList, "Swallow".toList, "Igni".toList⟩] := by
  obtain ⟨s', out, hstep, _, _, _, h⟩ := learn_effect id
    ⟨[], [], [⟨"Leshen".toList, "Swallow".toList, []⟩]⟩
    "Geralt learns Igni sign is effective against Leshen".toList
    "Igni".toList "sign".toList "Leshen".toList (by decide) (by decide) (by decide) (by decide)
  obtain ⟨_, _, _, hupd⟩ := h (by decide)
  obtain ⟨hout, _⟩ := hupd ⟨"Leshen".toList, "Swallow".toList, []⟩ (by decide) (by decide)
  have hc : step id ⟨[], [], [⟨"Leshen".toList, "Swallow".toList, []⟩]⟩
      "Geralt learns Igni sign is effective against Leshen".toList =
      some (⟨[], [], [⟨"Leshen".toList, "Swallow".toList, "Igni".toList⟩]⟩,
        "Bestiary entry updated: Leshen\n".toList) := by decide
  rw [hc] at hstep
  obtain ⟨rfl, rfl⟩ := Prod.mk.inj (Option.some.inj hstep)
  exact ⟨_, _, hc, hout.trans (by decide), rfl⟩

/-- C5, the claim as stated fails: `Black Blood` is a potion name of the
program (its formula can be learned), but `Geralt learns Black Blood potion is
effective against Leshen` is answered INVALID and stores nothing, so the query
`What is effective against Leshen?` answers "No knowledge of Leshen". -/
theorem round_trip_fails_for_two_word_potion :
    (run id State.empty
        ["Geralt learns Black Blood potion consists of 1 Vitriol".toList]).2 =
      "New alchemy formula obtained: Black Blood\n".toList ∧
    step id State.empty (learnLine "Black Blood".toList "Leshen".toList) =
      some (State.empty, "INVALID\n".toList) ∧
    step id State.empty (effectiveQuery "Leshen".toList) =
      some (State.empty, "No knowledge of Leshen\n".toList) ∧
    ¬ roundTripClaim id State.empty "Black Blood".toList "Leshen".toList := by
  have h1 : step id State.empty (learnLine "Black Blood".toList "Leshen".toList) =
      some (State.empty, "INVALID\n".toList) := by decide
  have h2 : step id State.empty (effectiveQuery "Leshen".toList) =
      some (State.empty, "No knowledge of Leshen\n".toList) := by decide
  refine ⟨by decide, h1, h2, fun h => ?_⟩
  unfold roundTripClaim at h
  rw [h1] at h
  simp only at h
  rw [h2] at h
  obtain ⟨X', hf, hout⟩ := h
  have hlen : X'.length = 11 := by
    have := congrArg List.length hf
    simpa [fold] using this
  rcases hout with h | ⟨S, h | h⟩
  · have := congrArg List.length h
    simp [hlen] at this
  · have ht := congrArg (List.take 11) h
    rw [List.append_assoc, List.append_assoc, List.take_left' hlen] at ht
    rw [← ht] at hf
    exact absurd hf (by decide)
  · have hr := congrArg List.reverse h
    simp only [List.reverse_append] at hr
    have ht := congrArg (fun l => (l.drop 1).take 11) hr
    simp only at ht
    have e1 : ("\n".toList.reverse ++ (X'.reverse ++ (", ".toList.reverse ++ S.reverse))).drop 1 =
        X'.reverse ++ (", ".toList.reverse ++ S.reverse) := rfl
    rw [e1, List.take_left' (by simpa using hlen)] at ht
    have hX' : X' = (("No knowledge of Leshen\n".toList.reverse.drop 1).take 11).reverse := by
      rw [ht, List.reverse_reverse]
    rw [hX'] at hf
    exact absurd hf (by decide)

/-- C5 amended. For every state, every one-word potion name `X` and every
monster name `Y` (not empty, no white space at its ends, no question mark),
both of at most 63 characters, such that `Y` is known or the bestiary holds
fewer than 100 entries: after `Geralt learns X potion is effective against
Y`, the output of `What is effective against Y?` has `X`, up to letter case,
among its comma-separated results. -/
theorem round_trip (slotOrder : List Item → List Item) (s : State) (X Y : Str)
    (hX : isWord X = true) (hY : isEnemyName Y = true)
    (hroom : (findMonster s.bestiary Y).isSome = true ∨ s.bestiary.length < MAX_BESTIARY) :
    roundTripClaim slotOrder s X Y := by
  obtain ⟨hne, _, hlen⟩ := isWord_spec hX
  have hfit : X.length < MAX_NAME_LEN := hlen
  obtain ⟨s1, out1, hstep1, e1, hfm1, hfold⟩ := learnLine_entry slotOrder s X Y hX hY hroom
  have hlen1 : e1.effectivePotion.length = X.length := by
    have := congrArg List.length hfold
    simpa [fold] using this
  have hpot1 : e1.effectivePotion ≠ [] := by
    intro h0
    rw [h0] at hlen1
    exact hne (List.length_eq_zero.1 hlen1.symm)
  obtain ⟨out, hstep2, hrep⟩ := step_effectiveQuery slotOrder s1 Y e1 hY hfm1 hpot1
    (by rw [hlen1]; exact hfit)
  unfold roundTripClaim
  rw [hstep1]
  simp only
  rw [hstep2]
  exact ⟨e1.effectivePotion, hfold, hrep⟩

/-- C5 amended at the potion `Swallow` and the monster `Leshen` from the
empty state: the query answers "Swallow". -/
theorem round_trip_witness :
    roundTripClaim id State.empty "Swallow".toList "Leshen".toList ∧
    (run id State.empty [learnLine "Swallow".toList "Leshen".toList,
        effectiveQuery "Leshen".toList]).2 =
      "New bestiary entry added: Leshen\nSwallow\n".toList :=
  ⟨round_trip id State.empty "Swallow".toList "Leshen".toList (by decide) (by decide)
    (Or.inr (by decide)), by decide⟩

/-- C19. Classification is a partition with trophy precedence: `isTrophy`
holds exactly for the names that end with " trophy" up to case, `isPotion`
exactly for the names that do not end so and are the potion name of some
formula up to case, and the two never hold together. -/
theorem classification_partition (s : State) (item : Item) :
    (isTrophy item = true ↔ endsWithCI item.name " trophy".toList) ∧
    (isPotion s item = true ↔
      ¬ endsWithCI item.name " trophy".toList ∧ namesFormula s.formulaBook item.name) ∧
    ¬ (isTrophy item = true ∧ isPotion s item = true) := by
  have hT : isTrophy item = true ↔ endsWithCI item.name " trophy".toList :=
    endsWithTrophy_iff item.name
  have hP : isPotion s item = true ↔
      ¬ endsWithCI item.name " trophy".toList ∧ namesFormula s.formulaBook item.name := by
    unfold isPotion
    rw [← endsWithTrophy_iff, ← matchesFormula_iff]
    by_cases h : endsWithTrophy item.name = true
    · simp [h]
    · simp [h]
  refine ⟨hT, hP, ?_⟩
  rintro ⟨h1, h2⟩
  exact (hP.1 h2).1 (hT.1 h1)

/-- C20. For every state and every line that is not `Exit` and has no
recognised shape (a line that is no query and starts with none of the five
command phrases, or a query line that starts with none of the five query
phrases), the output is exactly "INVALID" and the state is unchanged. -/
theorem unrecognised_line_is_invalid (slotOrder : List Item → List Item) (s : State)
    (input : Str)
    (hshape : (endsWithQuestionMark input = false ∧ startsCommand input = false ∧
        strcasecmp input "Exit".toList ≠ 0) ∨
      (endsWithQuestionMark input = true ∧ startsQuery input = false)) :
    step slotOrder s input = some (s, "INVALID\n".toList) := by
  rcases hshape with ⟨hq, hc, hx⟩ | ⟨hq, hc⟩
  · unfold startsCommand at hc
    simp only [Bool.or_eq_false_iff] at hc
    obtain ⟨⟨⟨⟨h1, h2⟩, h3⟩, h4⟩, h5⟩ := hc
    unfold step
    simp only [hq, h1, h2, h3, h4, h5, hx, Bool.false_eq_true, if_false]
  · unfold startsQuery at hc
    simp only [Bool.or_eq_false_iff] at hc
    obtain ⟨⟨⟨⟨h1, h2⟩, h3⟩, h4⟩, h5⟩ := hc
    unfold step processQuery
    simp only [hq, h1, h2, h3, h4, h5, Bool.false_eq_true, if_false, if_true, reportInvalid]

/-- C20 at the line `Geralt sleeps` and at the query `Who is Geralt?`. -/
theorem unrecognised_line_is_invalid_witness :
    step id State.empty "Geralt sleeps".toList = some (State.empty, "INVALID\n".toList) ∧
    step id State.empty "Who is Geralt?".toList = some (State.empty, "INVALID\n".toList) :=
  ⟨unrecognised_line_is_invalid id State.empty "Geralt sleeps".toList
      (Or.inl ⟨by decide, by decide, by decide⟩),
    unrecognised_line_is_invalid id State.empty "Who is Geralt?".toList
      (Or.inr ⟨by decide, by decide⟩)⟩

/-- C18. For every state and every name `n` (not empty, trimmed, without a
question mark), `Total potion n?` and `Total ingredient n?` print the same
number: the quantity of the first inventory entry whose name is `n` up to
case, and 0 when there is none, whatever the entry classifies as. -/
theorem per_name_lookup_unfiltered (slotOrder : List Item → List Item) (s : State) (n : Str)
    (hn : isEnemyName n = true) :
    step slotOrder s (potionQuery n) = some (s, fmt_d (totalOf s.inventory n) ++ "\n".toList) ∧
    step slotOrder s (ingredientQuery n) =
      some (s, fmt_d (totalOf s.inventory n) ++ "\n".toList) ∧
    (∀ front it back, s.inventory = front ++ it :: back →
      (∀ x ∈ front, strcasecmp x.name n ≠ 0) → strcasecmp it.name n = 0 →
      totalOf s.inventory n = it.quantity) ∧
    ((∀ x ∈ s.inventory, strcasecmp x.name n ≠ 0) → totalOf s.inventory n = 0) := by
  refine ⟨step_potionQuery slotOrder s n hn, step_ingredientQuery slotOrder s n hn,
    fun front it back h hfront hit => totalOf_split h hfront hit, fun hno => ?_⟩
  apply totalOf_of_not_hasEntry
  unfold hasEntry
  rw [Bool.eq_false_iff]
  intro hany
  rw [List.any_eq_true] at hany
  obtain ⟨x, hx, hx0⟩ := hany
  exact hno x hx (by simpa using hx0)

/-- C18 at a state that holds two `Swallow` (a potion, its formula is known)
and one `Leshen trophy`: both queries print 2 for `Swallow` and 1 for the
trophy name. -/
theorem per_name_lookup_unfiltered_witness :
    step id ⟨[⟨"Swallow".toList, 2⟩, ⟨"Leshen trophy".toList, 1⟩],
        [⟨"Swallow".toList, [⟨"Vitriol".toList, 1⟩]⟩], []⟩ (potionQuery "Swallow".toList) =
      some (⟨[⟨"Swallow".toList, 2⟩, ⟨"Leshen trophy".toList, 1⟩],
        [⟨"Swallow".toList, [⟨"Vitriol".toList, 1⟩]⟩], []⟩, "2\n".toList) ∧
    step id ⟨[⟨"Swallow".toList, 2⟩, ⟨"Leshen trophy".toList, 1⟩],
        [⟨"Swallow".toList, [⟨"Vitriol".toList, 1⟩]⟩], []⟩ (ingredientQuery "Swallow".toList) =
      some (⟨[⟨"Swallow".toList, 2⟩, ⟨"Leshen trophy".toList, 1⟩],
        [⟨"Swallow".toList, [⟨"Vitriol".toList, 1⟩]⟩], []⟩, "2\n".toList) ∧
    step id ⟨[⟨"Swallow".toList, 2⟩, ⟨"Leshen trophy".toList, 1⟩],
        [⟨"Swallow".toList, [⟨"Vitriol".toList, 1⟩]⟩], []⟩
        (ingredientQuery "Leshen trophy".toList) =
      some (⟨[⟨"Swallow".toList, 2⟩, ⟨"Leshen trophy".toList, 1⟩],
        [⟨"Swallow".toList, [⟨"Vitriol".toList, 1⟩]⟩], []⟩, "1\n".toList) := by
  have h1 := per_name_lookup_unfiltered id
    ⟨[⟨"Swallow".toList, 2⟩, ⟨"Leshen trophy".toList, 1⟩],
      [⟨"Swallow".toList, [⟨"Vitriol".toList, 1⟩]⟩], []⟩ "Swallow".toList (by decide)
  have h2 := per_name_lookup_unfiltered id
    ⟨[⟨"Swallow".toList, 2⟩, ⟨"Leshen trophy".toList, 1⟩],
      [⟨"Swallow".toList, [⟨"Vitriol".toList, 1⟩]⟩], []⟩ "Leshen trophy".toList (by decide)
  exact ⟨h1.1.trans (by decide), h1.2.1.trans (by decide), h2.2.1.trans (by decide)⟩

/-- C14, the claim as stated fails: after `Geralt learns Igni sign is
effective against M` and `Geralt encounters a M` for a monster name `M` of 43
characters, the inventory holds one `M trophy`, but `Total trophy M?` looks up
only the first 42 characters of `M` and prints 0. -/
theorem trophy_query_fails_for_long_name :
    (run id State.empty
        ["Geralt learns Igni sign is effective against ".toList ++ longMonster,
          "Geralt encounters a ".toList ++ longMonster]).1 = longTrophyState ∧
    isEnemyName longMonster = true ∧
    totalOf longTrophyState.inventory (longMonster ++ " trophy".toList) = 1 ∧
    step id longTrophyState (trophyQuery longMonster) = some (longTrophyState, "0\n".toList) ∧
    ¬ (step id longTrophyState (trophyQuery longMonster) =
      some (longTrophyState,
        fmt_d (totalOf longTrophyState.inventory (longMonster ++ " trophy".toList))
          ++ "\n".toList)) := by
  decide

/-- C14 amended. For every state and every monster name `M` (not empty,
trimmed, without a question mark) of at most 42 characters, `Total trophy M?`
prints the quantity of the first inventory entry whose name is `M trophy` up
to case, and 0 when there is none. -/
theorem trophy_query_total (slotOrder : List Item → List Item) (s : State) (M : Str)
    (hM : isEnemyName M = true) (hlen : M.length ≤ 42) :
    step slotOrder s (trophyQuery M) =
      some (s, fmt_d (totalOf s.inventory (M ++ " trophy".toList)) ++ "\n".toList) ∧
    (∀ front it back, s.inventory = front ++ it :: back →
      (∀ x ∈ front, strcasecmp x.name (M ++ " trophy".toList) ≠ 0) →
      strcasecmp it.name (M ++ " trophy".toList) = 0 →
      totalOf s.inventory (M ++ " trophy".toList) = it.quantity) ∧
    ((∀ x ∈ s.inventory, strcasecmp x.name (M ++ " trophy".toList) ≠ 0) →
      totalOf s.inventory (M ++ " trophy".toList) = 0) := by
  refine ⟨?_, fun front it back h hfront hit => totalOf_split h hfront hit, fun hno => ?_⟩
  · have h := step_trophyQuery slotOrder s M hM
    rw [List.take_of_length_le hlen] at h
    exact h
  · apply totalOf_of_not_hasEntry
    unfold hasEntry
    rw [Bool.eq_false_iff]
    intro hany
    rw [List.any_eq_true] at hany
    obtain ⟨x, hx, hx0⟩ := hany
    exact hno x hx (by simpa using hx0)

/-- C14 amended at `Leshen`: after learning a sign against it and defeating it
twice, `Total trophy Leshen?` prints 2. -/
theorem trophy_query_total_witness :
    (run id State.empty
        ["Geralt learns Igni sign is effective against Leshen".toList,
          "Geralt encounters a Leshen".toList, "Geralt encounters a Leshen".toList,
          trophyQuery "Leshen".toList]).2 =
      ("New bestiary entry added: Leshen\nGeralt defeats Leshen\nGeralt defeats Leshen\n"
        ++ "2\n").toList ∧
    step id ⟨[⟨"Leshen trophy".toList, 2⟩], [], [⟨"Leshen".toList, [], "Igni".toList⟩]⟩
        (trophyQuery "Leshen".toList) =
      some (⟨[⟨"Leshen trophy".toList, 2⟩], [], [⟨"Leshen".toList, [], "Igni".toList⟩]⟩,
        "2\n".toList) :=
  ⟨by decide,
    (trophy_query_total id
      ⟨[⟨"Leshen trophy".toList, 2⟩], [], [⟨"Leshen".toList, [], "Igni".toList⟩]⟩
      "Leshen".toList (by decide) (by decide)).1.trans (by decide)⟩

/-- C13. For every state (whose bestiary slots fit their 64 byte fields) and
every monster name `M` (not empty, trimmed, without a question mark, at most
63 characters), `What is effective against M?` prints "No knowledge of M" if
`M` has no bestiary entry or neither slot of its entry is set, the single
counter alone if exactly one slot is set, and if both are set the two counter
names joined by ", " in ascending case-insensitive order, whichever of them is
the potion. -/
theorem effectiveness_query (slotOrder : List Item → List Item) (s : State) (M : Str)
    (hM : isEnemyName M = true)
    (hfit : ∀ e ∈ s.bestiary,
      e.effectivePotion.length < MAX_NAME_LEN ∧ e.effectiveSign.length < MAX_NAME_LEN) :
    ∃ out, step slotOrder s (effectiveQuery M) = some (s, out) ∧
      (findMonster s.bestiary M = none →
        out = "No knowledge of ".toList ++ M ++ "\n".toList) ∧
      (∀ e, findMonster s.bestiary M = some e →
        (e.effectivePotion = [] → e.effectiveSign = [] →
          out = "No knowledge of ".toList ++ M ++ "\n".toList) ∧
        (e.effectivePotion ≠ [] → e.effectiveSign = [] →
          out = e.effectivePotion ++ "\n".toList) ∧
        (e.effectivePotion = [] → e.effectiveSign ≠ [] →
          out = e.effectiveSign ++ "\n".toList) ∧
        (e.effectivePotion ≠ [] → e.effectiveSign ≠ [] →
          ∃ a b, ((a = e.effectivePotion ∧ b = e.effectiveSign) ∨
              (a = e.effectiveSign ∧ b = e.effectivePotion)) ∧
            strcasecmp a b ≤ 0 ∧ out = a ++ ", ".toList ++ b ++ "\n".toList)) := by
  obtain ⟨hstep, hmon⟩ := step_effectiveQuery_eq slotOrder s M hM
  refine ⟨_, hstep, ?_, ?_⟩
  · intro hnone
    unfold queryEffective
    simp only [hmon, hnone]
  · intro e hfm
    obtain ⟨hfp, hfs⟩ := hfit e (findMonster_mem hfm)
    unfold queryEffective
    simp only [hmon, hfm, copyName_of_short hfp, copyName_of_short hfs]
    refine ⟨?_, ?_, ?_, ?_⟩
    · intro hp hs
      simp [hp, hs]
    · intro hp hs
      have hp' : e.effectivePotion.length > 0 := List.length_pos.2 hp
      simp [hp', hs]
    · intro hp hs
      have hs' : e.effectiveSign.length > 0 := List.length_pos.2 hs
      simp [hp, hs']
    · intro hp hs
      have hp' : e.effectivePotion.length > 0 := List.length_pos.2 hp
      have hs' : e.effectiveSign.length > 0 := List.length_pos.2 hs
      simp only [hp', hs', if_true, List.singleton_append]
      by_cases hc : strcasecmp e.effectivePotion e.effectiveSign > 0
      · simp only [hc, if_true]
        exact ⟨e.effectiveSign, e.effectivePotion, Or.inr ⟨rfl, rfl⟩,
          le_of_lt (strcasecmp_antisymm hc), rfl⟩
      · simp only [hc, if_false]
        exact ⟨e.effectivePotion, e.effectiveSign, Or.inl ⟨rfl, rfl⟩, not_lt.1 hc, rfl⟩

/-- C13 at `Leshen` with the potion `Swallow` and the sign `Igni` known: the
sign is printed first. -/
theorem effectiveness_query_witness :
    step id ⟨[], [], [⟨"Leshen".toList, "Swallow".toList, "Igni".toList⟩]⟩
        (effectiveQuery "Leshen".toList) =
      some (⟨[], [], [⟨"Leshen".toList, "Swallow".toList, "Igni".toList⟩]⟩,
        "Igni, Swallow\n".toList) := by
  obtain ⟨out, hstep, _, hsome⟩ := effectiveness_query id
    ⟨[], [], [⟨"Leshen".toList, "Swallow".toList, "Igni".toList⟩]⟩ "Leshen".toList
    (by decide) (by decide)
  obtain ⟨_, _, _, hboth⟩ :=
    hsome ⟨"Leshen".toList, "Swallow".toList, "Igni".toList⟩ (by decide)
  obtain ⟨a, b, hab, hle, hout⟩ := hboth (by decide) (by decide)
  rcases hab with ⟨rfl, rfl⟩ | ⟨rfl, rfl⟩
  · exact absurd hle (by decide)
  · rw [hstep, hout]
    rfl

/-- C11, the claim as stated fails: the formula line below has eleven
entries of which the eleventh, `junk`, is malformed; the component loop stops
after ten entries, so the line is answered "New alchemy formula obtained:
Swallow" and a formula of ten components is stored. -/
theorem formula_eleventh_entry_unchecked :
    formulaTokens ("Geralt learns Swallow potion consists of "
        ++ "1 a, 1 b, 1 c, 1 d, 1 e, 1 f, 1 g, 1 h, 1 i, 1 j, junk").toList =
      ["1 a", " 1 b", " 1 c", " 1 d", " 1 e", " 1 f", " 1 g", " 1 h", " 1 i", " 1 j",
        " junk"].map String.toList ∧
    malformedEntry " junk".toList = true ∧
    (step id State.empty ("Geralt learns Swallow potion consists of "
        ++ "1 a, 1 b, 1 c, 1 d, 1 e, 1 f, 1 g, 1 h, 1 i, 1 j, junk").toList).map
        (fun r => (r.2, r.1.formulaBook.map (fun f => (f.potionName, f.components.length)))) =
      some ("New alchemy formula obtained: Swallow\n".toList, [("Swallow".toList, 10)]) ∧
    ¬ (step id State.empty ("Geralt learns Swallow potion consists of "
        ++ "1 a, 1 b, 1 c, 1 d, 1 e, 1 f, 1 g, 1 h, 1 i, 1 j, junk").toList =
      some (State.empty, "INVALID\n".toList)) := by
  decide

/-- C11 amended. For every state and every formula-learning command in which
one of the first ten comma-separated entries fails the shape `<qty> <name>`
or has a quantity that is not positive, the output is INVALID and the state,
the formula collection included, is unchanged. -/
theorem formula_malformed_entry_invalid (slotOrder : List Item → List Item) (s : State)
    (input : Str)
    (hq : endsWithQuestionMark input = false)
    (hp : strncmpEq input "Geralt learns ".toList 14 = true)
    (hform : isFormulaForm input = true)
    (hbad : ((formulaTokens input).take MAX_COMPONENTS).any malformedEntry = true) :
    step slotOrder s input = some (s, "INVALID\n".toList) := by
  obtain ⟨cpos, hc, hproc⟩ := processLearn_formulaForm s input hp hform
  have htok : formulaTokens input = strtok (trim ((trim (input.drop 14)).drop (cpos + 11))) := by
    unfold formulaTokens
    rw [hc]
  rw [htok] at hbad
  rw [step_learn slotOrder s input hq hp, hproc]
  unfold learnFormula
  cases strstr (trim (input.drop 14)) "potion".toList with
  | none => rfl
  | some ppos =>
    simp only
    rw [componentLoop_malformed _ 0 hbad]
    rfl

/-- C11 amended at `Geralt learns Swallow potion consists of 2 Vitriol, Rebis`:
the second entry has no quantity. -/
theorem formula_malformed_entry_invalid_witness :
    step id State.empty "Geralt learns Swallow potion consists of 2 Vitriol, Rebis".toList =
      some (State.empty, "INVALID\n".toList) :=
  formula_malformed_entry_invalid id State.empty
    "Geralt learns Swallow potion consists of 2 Vitriol, Rebis".toList
    (by decide) (by decide) (by decide) (by decide)

/-- C12. Formulas are immutable once created: for every state and every input
line, every formula present before the line is present afterwards at the same
position with the same potion name and the same components; and a well-formed
formula-learning command for a potion name that is already known (up to case)
prints "Already known formula" and leaves the state, the formula collection
included, unchanged. -/
theorem formulas_immutable (slotOrder : List Item → List Item) (s : State) (input : Str) :
    (∀ s' out, step slotOrder s input = some (s', out) →
      ∀ (i : Nat) (f : Formula), s.formulaBook[i]? = some f → s'.formulaBook[i]? = some f) ∧
    (endsWithQuestionMark input = false →
      strncmpEq input "Geralt learns ".toList 14 = true →
      isFormulaForm input = true →
      ((formulaTokens input).take MAX_COMPONENTS).any malformedEntry = false →
      ∀ name, formulaName input = some name →
        (findFormula s.formulaBook name).isSome = true →
        step slotOrder s input = some (s, "Already known formula\n".toList)) := by
  refine ⟨fun s' out h i f hi => ?_, fun hq hp hform hgood name hname hknown => ?_⟩
  · obtain ⟨extra, he⟩ := step_formulaBook slotOrder s s' input out h
    have hlt : i < s.formulaBook.length := by
      by_contra hge
      rw [List.getElem?_eq_none (by omega)] at hi
      cases hi
    rw [he, List.getElem?_append_left hlt]
    exact hi
  · obtain ⟨cpos, hc, hproc⟩ := processLearn_formulaForm s input hp hform
    have htok : formulaTokens input =
        strtok (trim ((trim (input.drop 14)).drop (cpos + 11))) := by
      unfold formulaTokens
      rw [hc]
    rw [htok] at hgood
    obtain ⟨comps, hcomps⟩ := componentLoop_wellFormed _ 0 hgood
    rw [step_learn slotOrder s input hq hp, hproc]
    unfold formulaName at hname
    unfold learnFormula
    cases hpp : strstr (trim (input.drop 14)) "potion".toList with
    | none =>
      rw [hpp] at hname
      cases hname
    | some ppos =>
      rw [hpp] at hname
      simp only [Option.some.injEq] at hname
      simp only [hcomps, hname, hknown, if_true, reportInvalid]

/-- C12 at `Geralt learns swallow potion consists of 9 Rebis` with a formula
for `Swallow` known: the stored formula stays as it is. -/
theorem formulas_immutable_witness :
    step id ⟨[], [⟨"Swallow".toList, [⟨"Vitriol".toList, 2⟩]⟩], []⟩
        "Geralt learns swallow potion consists of 9 Rebis".toList =
      some (⟨[], [⟨"Swallow".toList, [⟨"Vitriol".toList, 2⟩]⟩], []⟩,
        "Already known formula\n".toList) :=
  (formulas_immutable id ⟨[], [⟨"Swallow".toList, [⟨"Vitriol".toList, 2⟩]⟩], []⟩
    "Geralt learns swallow potion consists of 9 Rebis".toList).2
    (by decide) (by decide) (by decide) (by decide) "swallow".toList (by decide) (by decide)

/-- C15 (code defect): the bare trophy query prints the trophies in the order
in which `qsort` left the pointer array.  The comparator is handed the slots
of that array and never reads a trophy, so the order of two slots does not
depend on what the two inventory entries hold.  The two states below fill the
same two inventory entries, once with `Drowner trophy` first and once with
`Leshen trophy` first: if `qsort` exchanges the two slots the first state is
printed as "3 Leshen, 1 Drowner", and if it leaves them in place the second
one is; the claim says "1 Drowner, 3 Leshen" for both. -/
theorem trophy_listing_prints_slot_order :
    (run id State.empty
        ["Geralt learns Igni sign is effective against Drowner".toList,
          "Geralt encounters a Drowner".toList,
          "Geralt learns Igni sign is effective against Leshen".toList,
          "Geralt encounters a Leshen".toList, "Geralt encounters a Leshen".toList,
          "Geralt encounters a Leshen".toList]).1 = trophiesInOrderState ∧
    (run id State.empty
        ["Geralt learns Igni sign is effective against Leshen".toList,
          "Geralt encounters a Leshen".toList, "Geralt encounters a Leshen".toList,
          "Geralt encounters a Leshen".toList,
          "Geralt learns Igni sign is effective against Drowner".toList,
          "Geralt encounters a Drowner".toList]).1 = twoTrophiesState ∧
    (∀ slotOrder : List Item → List Item,
      step slotOrder trophiesInOrderState "Total trophy?".toList =
        some (trophiesInOrderState,
          printItems ((slotOrder
              [⟨"Drowner trophy".toList, 1⟩, ⟨"Leshen trophy".toList, 3⟩]).map
            (fun it => ⟨stripTrophy it.name, it.quantity⟩)) ++ "\n".toList) ∧
      step slotOrder twoTrophiesState "Total trophy?".toList =
        some (twoTrophiesState,
          printItems ((slotOrder
              [⟨"Leshen trophy".toList, 3⟩, ⟨"Drowner trophy".toList, 1⟩]).map
            (fun it => ⟨stripTrophy it.name, it.quantity⟩)) ++ "\n".toList)) ∧
    (∀ slotOrder : List Item → List Item, (∀ x y, slotOrder [x, y] = [y, x]) →
      step slotOrder trophiesInOrderState "Total trophy?".toList =
        some (trophiesInOrderState, "3 Leshen, 1 Drowner\n".toList)) ∧
    (∀ slotOrder : List Item → List Item, (∀ x y, slotOrder [x, y] = [x, y]) →
      step slotOrder twoTrophiesState "Total trophy?".toList =
        some (twoTrophiesState, "3 Leshen, 1 Drowner\n".toList)) ∧
    compareTrophies ⟨"Drowner trophy".toList, 1⟩ ⟨"Leshen trophy".toList, 3⟩ < 0 := by
  have hB : ∀ slotOrder : List Item → List Item,
      step slotOrder trophiesInOrderState "Total trophy?".toList =
        some (trophiesInOrderState,
          printItems ((slotOrder
              [⟨"Drowner trophy".toList, 1⟩, ⟨"Leshen trophy".toList, 3⟩]).map
            (fun it => ⟨stripTrophy it.name, it.quantity⟩)) ++ "\n".toList) :=
    fun _ => rfl
  have hA : ∀ slotOrder : List Item → List Item,
      step slotOrder twoTrophiesState "Total trophy?".toList =
        some (twoTrophiesState,
          printItems ((slotOrder
              [⟨"Leshen trophy".toList, 3⟩, ⟨"Drowner trophy".toList, 1⟩]).map
            (fun it => ⟨stripTrophy it.name, it.quantity⟩)) ++ "\n".toList) :=
    fun _ => rfl
  refine ⟨by decide, by decide, fun slotOrder => ⟨hB slotOrder, hA slotOrder⟩,
    fun slotOrder h => ?_, fun slotOrder h => ?_, by decide⟩
  · rw [hB slotOrder, h]
    decide
  · rw [hA slotOrder, h]
    decide

/-- C16 (code defect): entries with quantity zero are not kept out of the
listings.  In the state reached by the seven lines below `Vitriol`, `Swallow`
and `Leshen trophy` have quantity 0 and `Rebis` has 4: the ingredient listing
counts one slot but fills the array from the first ingredient entry on and
prints "0 Vitriol", and the potion and trophy listings, which have no test of
the quantity, hand the zero entries to `qsort` and print "0 Swallow" and
"0 Leshen". -/
theorem zero_quantity_entries_are_listed :
    (run id State.empty
        ["Geralt loots 2 Vitriol".toList,
          "Geralt learns Swallow potion consists of 2 Vitriol".toList,
          "Geralt brews Swallow".toList, "Geralt loots 3 Rebis".toList,
          "Geralt learns Swallow potion is effective against Leshen".toList,
          "Geralt encounters a Leshen".toList,
          "Geralt trades 1 Leshen trophy for 1 Rebis".toList]).1 = usedUpState ∧
    (∀ slotOrder : List Item → List Item,
      step slotOrder usedUpState "Total ingredient?".toList =
        some (usedUpState, printItems (slotOrder [⟨"Vitriol".toList, 0⟩]) ++ "\n".toList) ∧
      step slotOrder usedUpState "Total potion?".toList =
        some (usedUpState, printItems (slotOrder [⟨"Swallow".toList, 0⟩]) ++ "\n".toList) ∧
      step slotOrder usedUpState "Total trophy?".toList =
        some (usedUpState,
          printItems ((slotOrder [⟨"Leshen trophy".toList, 0⟩]).map
            (fun it => ⟨stripTrophy it.name, it.quantity⟩)) ++ "\n".toList)) ∧
    step id usedUpState "Total ingredient?".toList = some (usedUpState, "0 Vitriol\n".toList) ∧
    step id usedUpState "Total potion?".toList = some (usedUpState, "0 Swallow\n".toList) ∧
    step id usedUpState "Total trophy?".toList = some (usedUpState, "0 Leshen\n".toList) ∧
    step id usedUpState "Total ingredient Vitriol?".toList = some (usedUpState, "0\n".toList) := by
  refine ⟨by decide, fun slotOrder => ⟨?_, ?_, ?_⟩, by decide, by decide, by decide, by decide⟩
  · rfl
  · rfl
  · rfl

/-- C17 (code defect): the bare ingredient query prints the slots in the order
in which `qsort` left the pointer array.  The comparator is handed the slots
of that array and never reads an entry, so the order of two slots does not
depend on what the two inventory entries hold.  `Geralt loots 2 Rebis, 5
Vitriol` and `Geralt loots 5 Vitriol, 2 Rebis` fill the same two inventory
entries with the two names exchanged: if `qsort` exchanges the two slots the
first inventory is printed as "5 Vitriol, 2 Rebis", and if it leaves them in
place the second one is; the claim says "2 Rebis, 5 Vitriol" for both. -/
theorem ingredient_listing_prints_slot_order :
    (run id State.empty ["Geralt loots 2 Rebis, 5 Vitriol".toList]).1 =
      ⟨[⟨"Rebis".toList, 2⟩, ⟨"Vitriol".toList, 5⟩], [], []⟩ ∧
    (run id State.empty ["Geralt loots 5 Vitriol, 2 Rebis".toList]).1 =
      ⟨[⟨"Vitriol".toList, 5⟩, ⟨"Rebis".toList, 2⟩], [], []⟩ ∧
    (∀ slotOrder : List Item → List Item,
      step slotOrder ⟨[⟨"Rebis".toList, 2⟩, ⟨"Vitriol".toList, 5⟩], [], []⟩
          "Total ingredient?".toList =
        some (⟨[⟨"Rebis".toList, 2⟩, ⟨"Vitriol".toList, 5⟩], [], []⟩,
          printItems (slotOrder [⟨"Rebis".toList, 2⟩, ⟨"Vitriol".toList, 5⟩])
            ++ "\n".toList) ∧
      step slotOrder ⟨[⟨"Vitriol".toList, 5⟩, ⟨"Rebis".toList, 2⟩], [], []⟩
          "Total ingredient?".toList =
        some (⟨[⟨"Vitriol".toList, 5⟩, ⟨"Rebis".toList, 2⟩], [], []⟩,
          printItems (slotOrder [⟨"Vitriol".toList, 5⟩, ⟨"Rebis".toList, 2⟩])
            ++ "\n".toList)) ∧
    (∀ slotOrder : List Item → List Item, (∀ x y, slotOrder [x, y] = [y, x]) →
      step slotOrder ⟨[⟨"Rebis".toList, 2⟩, ⟨"Vitriol".toList, 5⟩], [], []⟩
          "Total ingredient?".toList =
        some (⟨[⟨"Rebis".toList, 2⟩, ⟨"Vitriol".toList, 5⟩], [], []⟩,
          "5 Vitriol, 2 Rebis\n".toList)) ∧
    (∀ slotOrder : List Item → List Item, (∀ x y, slotOrder [x, y] = [x, y]) →
      step slotOrder ⟨[⟨"Vitriol".toList, 5⟩, ⟨"Rebis".toList, 2⟩], [], []⟩
          "Total ingredient?".toList =
        some (⟨[⟨"Vitriol".toList, 5⟩, ⟨"Rebis".toList, 2⟩], [], []⟩,
          "5 Vitriol, 2 Rebis\n".toList)) ∧
    compareItems ⟨"Rebis".toList, 2⟩ ⟨"Vitriol".toList, 5⟩ < 0 := by
  have hB : ∀ slotOrder : List Item → List Item,
      step slotOrder ⟨[⟨"Rebis".toList, 2⟩, ⟨"Vitriol".toList, 5⟩], [], []⟩
          "Total ingredient?".toList =
        some (⟨[⟨"Rebis".toList, 2⟩, ⟨"Vitriol".toList, 5⟩], [], []⟩,
          printItems (slotOrder [⟨"Rebis".toList, 2⟩, ⟨"Vitriol".toList, 5⟩])
            ++ "\n".toList) :=
    fun _ => rfl
  have hA : ∀ slotOrder : List Item → List Item,
      step slotOrder ⟨[⟨"Vitriol".toList, 5⟩, ⟨"Rebis".toList, 2⟩], [], []⟩
          "Total ingredient?".toList =
        some (⟨[⟨"Vitriol".toList, 5⟩, ⟨"Rebis".toList, 2⟩], [], []⟩,
          printItems (slotOrder [⟨"Vitriol".toList, 5⟩, ⟨"Rebis".toList, 2⟩])
            ++ "\n".toList) :=
    fun _ => rfl
  refine ⟨by decide, by decide, fun slotOrder => ⟨hB slotOrder, hA slotOrder⟩,
    fun slotOrder h => ?_, fun slotOrder h => ?_, by decide⟩
  · rw [hB slotOrder, h]
    decide
  · rw [hA slotOrder, h]
    decide

/-- C21, the claim as stated fails: `addItem` looks a name up as it is given
and stores at most 63 characters of it (main.c 127, 133-134).  After the one
loot line that lists the same word of 70 characters twice, the inventory holds
two entries with the same name of 63 characters. -/
theorem long_name_is_stored_twice :
    namesFit longLootLine = false ∧
    (run id State.empty [longLootLine]).1.inventory =
      [⟨List.replicate 63 'a', 1⟩, ⟨List.replicate 63 'a', 1⟩] ∧
    ¬ uniqueNames ((run id State.empty [longLootLine]).1.inventory.map (·.name)) := by
  decide

/-- C21 amended. Name uniqueness is an invariant of every reachable state:
from the empty state, after any sequence of input lines, no two formulas have
potion names that are equal up to case and no two bestiary entries have
monster names that are equal up to case; and when every entry name that the
loot commands and the ingredient parts of the trade commands among the lines
list before their first bad entry has at most 63 characters, no two inventory
entries have names that are equal up to case. -/
theorem names_stay_unique (slotOrder : List Item → List Item) (lines : List Str) :
    ((∀ l ∈ lines, namesFit l = true) →
      uniqueNames ((run slotOrder State.empty lines).1.inventory.map (·.name))) ∧
    uniqueNames ((run slotOrder State.empty lines).1.formulaBook.map (·.potionName)) ∧
    uniqueNames ((run slotOrder State.empty lines).1.bestiary.map (·.monsterName)) := by
  have hnil : uniqueNames ([] : List Str) := List.Pairwise.nil
  have htab := run_invariant slotOrder
    (fun s => uniqueNames (s.bestiary.map (·.monsterName)) ∧
      uniqueNames (s.formulaBook.map (·.potionName)) ∧
      ∀ f ∈ s.formulaBook, f.potionName.length < MAX_NAME_LEN)
    (fun _ => True) (fun _ _ _ _ hu h => update_unique_tables hu h) lines State.empty
    (fun _ _ => trivial) ⟨hnil, hnil, fun f hf => absurd hf (List.not_mem_nil f)⟩
  refine ⟨fun hfit => ?_, htab.2.1, htab.1⟩
  exact (run_invariant slotOrder
    (fun s => uniqueNames (s.inventory.map (·.name)) ∧
      uniqueNames (s.bestiary.map (·.monsterName)) ∧
      uniqueNames (s.formulaBook.map (·.potionName)) ∧
      ∀ f ∈ s.formulaBook, f.potionName.length < MAX_NAME_LEN)
    (fun l => namesFit l = true) (fun _ _ _ hq hu h => update_unique hq hu h) lines State.empty
    hfit ⟨hnil, hnil, hnil, fun f hf => absurd hf (List.not_mem_nil f)⟩).1

/-- C21 amended at eight lines that name `Rebis`, `Swallow` and `Leshen` in
two spellings each: the tables end with one entry per name. -/
theorem names_stay_unique_witness :
    (∀ l ∈ ["Geralt loots 2 Rebis, 1 rebis".toList,
        "Geralt learns Swallow potion consists of 2 Rebis".toList,
        "Geralt learns swallow potion consists of 1 Rebis".toList,
        "Geralt brews SWALLOW".toList,
        "Geralt learns Igni sign is effective against Leshen".toList,
        "Geralt learns Swallow potion is effective against leshen".toList,
        "Geralt encounters a Leshen".toList,
        "Geralt encounters a leshen".toList], namesFit l = true) ∧
    (run id State.empty ["Geralt loots 2 Rebis, 1 rebis".toList,
        "Geralt learns Swallow potion consists of 2 Rebis".toList,
        "Geralt learns swallow potion consists of 1 Rebis".toList,
        "Geralt brews SWALLOW".toList,
        "Geralt learns Igni sign is effective against Leshen".toList,
        "Geralt learns Swallow potion is effective against leshen".toList,
        "Geralt encounters a Leshen".toList,
        "Geralt encounters a leshen".toList]).1 =
      ⟨[⟨"Rebis".toList, 1⟩, ⟨"SWALLOW".toList, 0⟩, ⟨"Leshen trophy".toList, 2⟩],
        [⟨"Swallow".toList, [⟨"Rebis".toList, 2⟩]⟩],
        [⟨"Leshen".toList, "Swallow".toList, "Igni".toList⟩]⟩ ∧
    uniqueNames ((run id State.empty ["Geralt loots 2 Rebis, 1 rebis".toList,
        "Geralt learns Swallow potion consists of 2 Rebis".toList,
        "Geralt learns swallow potion consists of 1 Rebis".toList,
        "Geralt brews SWALLOW".toList,
        "Geralt learns Igni sign is effective against Leshen".toList,
        "Geralt learns Swallow potion is effective against leshen".toList,
        "Geralt encounters a Leshen".toList,
        "Geralt encounters a leshen".toList]).1.inventory.map (·.name)) :=
  ⟨by decide, by decide,
    (names_stay_unique id ["Geralt loots 2 Rebis, 1 rebis".toList,
        "Geralt learns Swallow potion consists of 2 Rebis".toList,
        "Geralt learns swallow potion consists of 1 Rebis".toList,
        "Geralt brews SWALLOW".toList,
        "Geralt learns Igni sign is effective against Leshen".toList,
        "Geralt learns Swallow potion is effective against leshen".toList,
        "Geralt encounters a Leshen".toList,
        "Geralt encounters a leshen".toList]).1 (by decide)⟩

/-- C22. Quantities are never negative (exact integer arithmetic): from the
empty state, after any sequence of input lines, every inventory entry has a
quantity of at least 0 and every component of a stored formula has a quantity
above 0.  Every turn of the loop is a sequence of elementary updates, in which
`addItem` is only ever called with a positive quantity, and `removeItem`, for
whatever name and quantity it is called, leaves no quantity below zero. -/
theorem quantities_stay_nonnegative (slotOrder : List Item → List Item) (lines : List Str) :
    (∀ it ∈ (run slotOrder State.empty lines).1.inventory, 0 ≤ it.quantity) ∧
    (∀ f ∈ (run slotOrder State.empty lines).1.formulaBook,
      ∀ c ∈ f.components, 0 < c.quantity) ∧
    (∀ s input s' out, step slotOrder s input = some (s', out) →
      Relation.ReflTransGen (Update input) s s') ∧
    (∀ s name quantity, (∀ it ∈ s.inventory, 0 ≤ it.quantity) →
      ∀ it ∈ (removeItem s name quantity).inventory, 0 ≤ it.quantity) := by
  have h := run_invariant slotOrder
    (fun s => (∀ it ∈ s.inventory, 0 ≤ it.quantity) ∧
      ∀ f ∈ s.formulaBook, ∀ c ∈ f.components, 0 < c.quantity)
    (fun _ => True) (fun _ _ _ _ hu h => update_nonneg hu h) lines State.empty
    (fun _ _ => trivial)
    ⟨fun it hit => absurd hit (List.not_mem_nil it), fun f hf => absurd hf (List.not_mem_nil f)⟩
  exact ⟨h.1, h.2, fun s input s' out hs => step_updates slotOrder s s' input out hs,
    fun s name quantity hs => nonneg_removeItemInv name quantity hs⟩

/-- C22 at four lines that use up the two `Vitriol` looted and then ask for a
second brew, which is refused: `Vitriol` is left at 0. -/
theorem quantities_stay_nonnegative_witness :
    (run id State.empty ["Geralt loots 2 Vitriol".toList,
        "Geralt learns Swallow potion consists of 2 Vitriol".toList,
        "Geralt brews Swallow".toList, "Geralt brews Swallow".toList]).1.inventory =
      [⟨"Vitriol".toList, 0⟩, ⟨"Swallow".toList, 1⟩] ∧
    ∀ it ∈ (run id State.empty ["Geralt loots 2 Vitriol".toList,
        "Geralt learns Swallow potion consists of 2 Vitriol".toList,
        "Geralt brews Swallow".toList, "Geralt brews Swallow".toList]).1.inventory,
      0 ≤ it.quantity :=
  ⟨by decide, (quantities_stay_nonnegative id ["Geralt loots 2 Vitriol".toList,
        "Geralt learns Swallow potion consists of 2 Vitriol".toList,
        "Geralt brews Swallow".toList, "Geralt brews Swallow".toList]).1⟩

/-- C23, the claim as stated fails: in the state reached by learning 50
formulas, with the formula book at its capacity, the well-formed command
`Geralt learns Swallow potion consists of 2 Vitriol` for the unknown potion
`Swallow` leaves the book unchanged, as claimed, but it does report an
error: its output is INVALID. -/
theorem formula_overflow_reports_invalid :
    (run id State.empty (formulaLinesUpTo 50)).1 = fullBookState ∧
    fullBookState.formulaBook.length = MAX_FORMULAS ∧
    isFormulaForm "Geralt learns Swallow potion consists of 2 Vitriol".toList = true ∧
    formulaName "Geralt learns Swallow potion consists of 2 Vitriol".toList =
      some "Swallow".toList ∧
    (formulaTokens "Geralt learns Swallow potion consists of 2 Vitriol".toList).any
      malformedEntry = false ∧
    findFormula fullBookState.formulaBook "Swallow".toList = none ∧
    step id fullBookState "Geralt learns Swallow potion consists of 2 Vitriol".toList =
      some (fullBookState, "INVALID\n".toList) ∧
    ¬ (∃ s' out,
        step id fullBookState "Geralt learns Swallow potion consists of 2 Vitriol".toList =
          some (s', out) ∧
        s'.formulaBook = fullBookState.formulaBook ∧ out ≠ "INVALID\n".toList) := by
  have hstep : step id fullBookState
      "Geralt learns Swallow potion consists of 2 Vitriol".toList =
      some (fullBookState, "INVALID\n".toList) := by decide!
  refine ⟨by decide!, by decide, by decide, by decide, by decide, by decide!, hstep, ?_⟩
  rintro ⟨s', out, h1, _, h3⟩
  rw [hstep] at h1
  obtain ⟨rfl, rfl⟩ := Prod.mk.inj (Option.some.inj h1)
  exact h3 rfl

/-- C23 amended. Capacity overflow drops the addition.  From the empty state,
after any sequence of input lines, the inventory never holds more than 100
entries, the formula book never more than 50 formulas and the bestiary never
more than 100 entries.  With the inventory at capacity, `addItem` with a new
name changes nothing, no line changes the names of the inventory entries, and
a well-formed loot, trade, brew or encounter command still prints its
message of success.  With the bestiary at capacity, a well-formed
effectiveness command for an unknown monster changes nothing and prints
nothing.  With the formula book at capacity, a well-formed formula command
for an unknown potion changes nothing and prints INVALID. -/
theorem capacity_overflow (slotOrder : List Item → List Item) :
    (∀ lines, (run slotOrder State.empty lines).1.inventory.length ≤ MAX_INGREDIENTS ∧
      (run slotOrder State.empty lines).1.formulaBook.length ≤ MAX_FORMULAS ∧
      (run slotOrder State.empty lines).1.bestiary.length ≤ MAX_BESTIARY) ∧
    (∀ s : State, ¬ s.inventory.length < MAX_INGREDIENTS →
      (∀ name quantity, hasEntry s.inventory name = false → addItem s name quantity = s) ∧
      (∀ input s' out, step slotOrder s input = some (s', out) →
        s'.inventory.map (·.name) = s.inventory.map (·.name)) ∧
      (∀ input, validLoot input = true →
        ∃ s', step slotOrder s input = some (s', "Alchemy ingredients obtained\n".toList)) ∧
      (∀ input, endsWithQuestionMark input = false →
        strncmpEq input "Geralt trades ".toList 14 = true →
        (tradeParts input).isSome = true →
        wellFormedTrophies (trophyTokens input) = true →
        someTrophyShort s (trophyTokens input) = false →
        wellFormedEntries (ingredientTokens input) = true →
        ∃ s', step slotOrder s input = some (s', "Trade successful\n".toList)) ∧
      (∀ input f, endsWithQuestionMark input = false →
        strncmpEq input "Geralt brews ".toList 13 = true →
        findFormula s.formulaBook (trim (input.drop 13)) = some f → ¬ brewShort s f →
        ∃ s', step slotOrder s input =
          some (s', "Alchemy item created: ".toList ++ trim (input.drop 13) ++ "\n".toList)) ∧
      (∀ input, endsWithQuestionMark input = false →
        strncmpEq input "Geralt encounters a ".toList 20 = true →
        ¬ unprepared s (trim (input.drop 20)) →
        ∃ s', step slotOrder s input =
          some (s', "Geralt defeats ".toList ++ trim (input.drop 20) ++ "\n".toList))) ∧
    (∀ (s : State) (input counter kind enemy : Str), ¬ s.bestiary.length < MAX_BESTIARY →
      endsWithQuestionMark input = false →
      strncmpEq input "Geralt learns ".toList 14 = true →
      learnParse input = some (counter, kind, enemy) →
      (strcasecmp kind "sign".toList = 0 ∨ strcasecmp kind "potion".toList = 0) →
      findMonster s.bestiary enemy = none →
      step slotOrder s input = some (s, [])) ∧
    (∀ (s : State) (input name : Str), ¬ s.formulaBook.length < MAX_FORMULAS →
      endsWithQuestionMark input = false →
      strncmpEq input "Geralt learns ".toList 14 = true →
      isFormulaForm input = true →
      formulaName input = some name →
      ((formulaTokens input).take MAX_COMPONENTS).any malformedEntry = false →
      findFormula s.formulaBook name = none →
      step slotOrder s input = some (s, "INVALID\n".toList)) := by
  refine ⟨fun lines => ?_, fun s hfull => ⟨fun name quantity hnew => ?_,
    fun input s' out hstep => ?_, fun input hv => ?_, fun input hq hp hfor hw hheld hi => ?_,
    fun input f hq hp hf hheld => ?_, fun input hq hp hprep => ?_⟩,
    fun s input counter kind enemy hfull hq hp hparse hk hnew => ?_,
    fun s input name hfull hq hp hform hname hgood hnew => ?_⟩
  · exact run_invariant slotOrder
      (fun s => s.inventory.length ≤ MAX_INGREDIENTS ∧ s.formulaBook.length ≤ MAX_FORMULAS ∧
        s.bestiary.length ≤ MAX_BESTIARY)
      (fun _ => True) (fun _ _ _ _ hu h => update_counts hu h) lines State.empty
      (fun _ _ => trivial) ⟨Nat.zero_le _, Nat.zero_le _, Nat.zero_le _⟩
  · exact addItem_full s name quantity hfull hnew
  · exact step_names_full slotOrder s s' input out hfull hstep
  · exact ⟨_, step_validLoot slotOrder s input hv⟩
  · exact step_trade_successful slotOrder s input hq hp hfor hw hheld hi
  · exact ⟨_, step_brew_created slotOrder s input f hq hp hf hheld⟩
  · exact step_encounter_defeats slotOrder s input hq hp hprep
  · exact step_learn_full slotOrder s input counter kind enemy hq hp hparse hk hnew hfull
  · exact step_formula_full slotOrder s input name hq hp hform hname hgood hnew hfull

/-- C23 amended at the three tables at capacity: `addItem` drops the new name
`Rebis`, the effectiveness command for the unknown monster `Leshen` prints
nothing, and the formula command for the unknown potion `Swallow` prints
INVALID; nothing changes. -/
theorem capacity_overflow_witness :
    addItem fullInventoryState "Rebis".toList 2 = fullInventoryState ∧
    step id learnFullState "Geralt learns Igni sign is effective against Leshen".toList =
      some (learnFullState, []) ∧
    step id fullBookState "Geralt learns Swallow potion consists of 2 Vitriol".toList =
      some (fullBookState, "INVALID\n".toList) :=
  ⟨((capacity_overflow id).2.1 fullInventoryState (by decide)).1 "Rebis".toList 2 (by decide!),
    (capacity_overflow id).2.2.1 learnFullState
      "Geralt learns Igni sign is effective against Leshen".toList
      "Igni".toList "sign".toList "Leshen".toList
      (by decide) (by decide) (by decide) (by decide) (by decide) (by decide!),
    (capacity_overflow id).2.2.2 fullBookState
      "Geralt learns Swallow potion consists of 2 Vitriol".toList "Swallow".toList
      (by decide) (by decide) (by decide) (by decide) (by decide) (by decide) (by decide!)⟩

/-- C24. The function `strcasestr_custom` returns position `i` exactly when
`i` is the first index at which the needle matches the haystack up to ASCII
case, it returns no match exactly when no index matches, and it returns
position 0 for the empty needle. -/
theorem strcasestr_custom_first_match (haystack needle : Str) :
    (∀ i, strcasestr_custom haystack needle = some i ↔
      (matchesAt haystack needle i ∧ ∀ j < i, ¬ matchesAt haystack needle j)) ∧
    (strcasestr_custom haystack needle = none ↔ ∀ i, ¬ matchesAt haystack needle i) ∧
    strcasestr_custom haystack [] = some 0 := by
  refine ⟨fun i => ⟨strcasestr_custom_some, fun hi => ?_⟩, ⟨strcasestr_custom_none, fun hn => ?_⟩, ?_⟩
  · cases hr : strcasestr_custom haystack needle with
    | none => exact absurd hi.1 (strcasestr_custom_none hr i)
    | some k =>
      obtain ⟨hk, hkmin⟩ := strcasestr_custom_some hr
      rcases Nat.lt_trichotomy k i with hlt | heq | hgt
      · exact absurd hk (hi.2 k hlt)
      · rw [heq]
      · exact absurd hi.1 (hkmin i hgt)
  · cases hr : strcasestr_custom haystack needle with
    | none => rfl
    | some k => exact absurd (strcasestr_custom_some hr).1 (hn k)
  · exact strcasestr_custom_nil haystack

/-- C25. Queries are read-only: the test of `main` holds exactly for the lines
that end with a question mark once trailing white space is ignored, and for
every state and every such line, lines that begin with a command phrase
included, the turn of the loop returns the very same inventory, formulas and
bestiary. -/
theorem queries_are_read_only (slotOrder : List Item → List Item) (s : State) (input : Str) :
    (endsWithQuestionMark input = true ↔ endsWithQuestion input) ∧
    (endsWithQuestion input → ∃ out, step slotOrder s input = some (s, out)) :=
  ⟨endsWithQuestionMark_iff input,
    fun hq => ⟨_, step_query slotOrder s input ((endsWithQuestionMark_iff input).2 hq)⟩⟩

/-- C25 at the line `Geralt loots 5 Rebis?` followed by a blank, with two
`Rebis` held: nothing is looted. -/
theorem queries_are_read_only_witness :
    endsWithQuestion "Geralt loots 5 Rebis? ".toList ∧
    ∃ out, step id ⟨[⟨"Rebis".toList, 2⟩], [], []⟩ "Geralt loots 5 Rebis? ".toList =
      some (⟨[⟨"Rebis".toList, 2⟩], [], []⟩, out) :=
  ⟨⟨"Geralt loots 5 Rebis".toList, " ".toList, by decide, by decide⟩,
    (queries_are_read_only id ⟨[⟨"Rebis".toList, 2⟩], [], []⟩ "Geralt loots 5 Rebis? ".toList).2
      ⟨"Geralt loots 5 Rebis".toList, " ".toList, by decide, by decide⟩⟩

/-- C26, the claim as stated fails: in the state reached by looting 100
different names, with the inventory at its capacity and no entry for
`Swallow`, the formula without components is learned and `Geralt brews
Swallow` prints "Alchemy item created: Swallow", but no `Swallow` is added:
its quantity stays 0. -/
theorem empty_formula_brew_fails_at_capacity :
    (run id State.empty [lootLineUpTo 100]).1 = fullInventoryState ∧
    isPotionName "Swallow".toList = true ∧
    findFormula fullInventoryState.formulaBook "Swallow".toList = none ∧
    fullInventoryState.formulaBook.length < MAX_FORMULAS ∧
    step id fullInventoryState (learnEmpty "Swallow".toList) =
      some (⟨fullInventory, [⟨"Swallow".toList, []⟩], []⟩,
        "New alchemy formula obtained: Swallow\n".toList) ∧
    step id ⟨fullInventory, [⟨"Swallow".toList, []⟩], []⟩ (brewLine "Swallow".toList) =
      some (⟨fullInventory, [⟨"Swallow".toList, []⟩], []⟩,
        "Alchemy item created: Swallow\n".toList) ∧
    ¬ (∃ s1 out1 s2 out2,
        step id fullInventoryState (learnEmpty "Swallow".toList) = some (s1, out1) ∧
        step id s1 (brewLine "Swallow".toList) = some (s2, out2) ∧
        totalOf s2.inventory "Swallow".toList = totalOf s1.inventory "Swallow".toList + 1) := by
  have h1 : step id fullInventoryState (learnEmpty "Swallow".toList) =
      some (⟨fullInventory, [⟨"Swallow".toList, []⟩], []⟩,
        "New alchemy formula obtained: Swallow\n".toList) := by decide!
  have h2 : step id ⟨fullInventory, [⟨"Swallow".toList, []⟩], []⟩ (brewLine "Swallow".toList) =
      some (⟨fullInventory, [⟨"Swallow".toList, []⟩], []⟩,
        "Alchemy item created: Swallow\n".toList) := by decide!
  refine ⟨by decide!, by decide, by decide, by decide, h1, h2, ?_⟩
  rintro ⟨s1, out1, s2, out2, e1, e2, e3⟩
  rw [h1] at e1
  obtain ⟨rfl, rfl⟩ := Prod.mk.inj (Option.some.inj e1)
  rw [h2] at e2
  obtain ⟨rfl, rfl⟩ := Prod.mk.inj (Option.some.inj e2)
  exact absurd e3 (by decide!)

/-- C26 amended. A formula can be learned with zero components: for every
state in which the potion name `X` (at most 62 characters; every one-word
name without "potion" in it is one) has no formula and the formula book is not
full, `Geralt learns X potion consists of` prints
"New alchemy formula obtained: X" and appends the formula of `X` with no
component; afterwards `What is in X?` prints "No formula for X" and changes
nothing, while `Geralt brews X` prints "Alchemy item created: X" and does
nothing but call `addItem` for one `X`: no quantity of another name changes,
and if `X` has an inventory entry or the inventory holds fewer than 100
entries the quantity of `X` rises by exactly one. -/
theorem empty_formula (slotOrder : List Item → List Item) (s : State) (X : Str)
    (hX : isPotionName X = true) (hnew : findFormula s.formulaBook X = none)
    (hroom : s.formulaBook.length < MAX_FORMULAS) :
    ∃ s1 s2,
      s1 = ⟨s.inventory, s.formulaBook ++ [⟨X, []⟩], s.bestiary⟩ ∧
      step slotOrder s (learnEmpty X) =
        some (s1, "New alchemy formula obtained: ".toList ++ X ++ "\n".toList) ∧
      step slotOrder s1 (formulaQuery X) =
        some (s1, "No formula for ".toList ++ X ++ "\n".toList) ∧
      step slotOrder s1 (brewLine X) =
        some (s2, "Alchemy item created: ".toList ++ X ++ "\n".toList) ∧
      s2 = addItem s1 X 1 ∧
      (∀ n, fold n ≠ fold X → totalOf s2.inventory n = totalOf s1.inventory n) ∧
      (hasEntry s.inventory X = true ∨ s.inventory.length < MAX_INGREDIENTS →
        totalOf s2.inventory X = totalOf s1.inventory X + 1) := by
  obtain ⟨hE, hlen, _, _, _⟩ := isPotionName_spec hX
  have hf : findFormula (s.formulaBook ++ [⟨X, []⟩]) X = some ⟨X, []⟩ :=
    findFormula_append_new ⟨X, []⟩ hnew (strcasecmp_self X)
  refine ⟨⟨s.inventory, s.formulaBook ++ [⟨X, []⟩], s.bestiary⟩, _, rfl,
    step_learnEmpty slotOrder s X hX hnew hroom,
    step_formulaQuery slotOrder _ X ⟨X, []⟩ hE hlen hf rfl,
    step_brewLine slotOrder _ X ⟨X, []⟩ hE hf rfl, rfl, fun n hn => ?_, fun hc => ?_⟩
  · show totalOf (addItemInv s.inventory X 1) n = totalOf s.inventory n
    by_cases hc : hasEntry s.inventory X = true ∨
        (s.inventory.length < MAX_INGREDIENTS ∧ X.length < MAX_NAME_LEN)
    · rw [totalOf_addItemInv _ _ _ _ hc, if_neg (fun e => hn e.symm), add_zero]
    · have hno : hasEntry s.inventory X = false := by
        cases hh : hasEntry s.inventory X with
        | false => rfl
        | true => exact absurd (Or.inl hh) hc
      have hfull : ¬ s.inventory.length < MAX_INGREDIENTS := by
        intro hr
        apply hc
        right
        refine ⟨hr, ?_⟩
        simp only [MAX_NAME_LEN]
        omega
      unfold addItemInv
      rw [(addLoop_eq_none_iff s.inventory X 1).2 hno]
      simp only [hfull, if_false]
  · show totalOf (addItemInv s.inventory X 1) X = totalOf s.inventory X + 1
    have hc2 : hasEntry s.inventory X = true ∨
        (s.inventory.length < MAX_INGREDIENTS ∧ X.length < MAX_NAME_LEN) := by
      rcases hc with h | h
      · exact Or.inl h
      · right
        refine ⟨h, ?_⟩
        simp only [MAX_NAME_LEN]
        omega
    rw [totalOf_addItemInv _ _ _ _ hc2, if_pos rfl]

/-- C26 amended at the two-word potion `Black Blood` with three `Rebis` held
and no formula known: the potion is created out of nothing. -/
theorem empty_formula_witness :
    step id ⟨[⟨"Rebis".toList, 3⟩], [], []⟩ (learnEmpty "Black Blood".toList) =
      some (⟨[⟨"Rebis".toList, 3⟩], [⟨"Black Blood".toList, []⟩], []⟩,
        "New alchemy formula obtained: Black Blood\n".toList) ∧
    step id ⟨[⟨"Rebis".toList, 3⟩], [⟨"Black Blood".toList, []⟩], []⟩
        (formulaQuery "Black Blood".toList) =
      some (⟨[⟨"Rebis".toList, 3⟩], [⟨"Black Blood".toList, []⟩], []⟩,
        "No formula for Black Blood\n".toList) ∧
    step id ⟨[⟨"Rebis".toList, 3⟩], [⟨"Black Blood".toList, []⟩], []⟩
        (brewLine "Black Blood".toList) =
      some (⟨[⟨"Rebis".toList, 3⟩, ⟨"Black Blood".toList, 1⟩],
          [⟨"Black Blood".toList, []⟩], []⟩,
        "Alchemy item created: Black Blood\n".toList) := by
  obtain ⟨s1, s2, rfl, h1, h2, h3, rfl, _, _⟩ :=
    empty_formula id ⟨[⟨"Rebis".toList, 3⟩], [], []⟩ "Black Blood".toList
      (by decide) (by decide) (by decide)
  exact ⟨h1, h2, h3⟩

end Witcher
